import Mathlib

/-!
libkdtree: k-d tree construction and k-nearest-neighbour search

A shallow embedding of `src/kdtree.cpp` / `src/kdtree.h`.

Modelling conventions.

* `float` values are exact rationals (`ℚ`): comparisons and subtractions are
  exact, there is no NaN and no rounding.
* `const float *datas` is flat row-major memory, a total function `Nat → ℚ`
  read at `sample * n_features + dim` exactly as `GetDimVal` does.
* A `tree_node *` is a value of the inductive type `tree_node`; the null
  pointer is the constructor `tree_node.null`.
* `std::vector<size_t>` and `std::stack<tree_node *>` are lists; the top of a
  stack is the head of the list.
* `std::priority_queue` with `neighbor_heap_cmp` is a list kept in
  non-increasing order of distance, so that `top` is the head and `pop` drops
  the head.  The standard leaves the order among entries of equal distance
  unspecified; the model inserts a new entry in front of the entries it ties.
* `std::nth_element` is modelled by one of its admissible outcomes: the
  buffer stably sorted by the comparator.
* The exponent `float p` is used by the code only through the two library
  calls `pow(x, p)` and `pow(x, 1.0 / p)`; a value of `Exponent` carries these
  two functions.
* Loops whose termination is not structural take a fuel argument and return
  `none` when it runs out; the top-level functions supply enough fuel and the
  theorems prove that the result is `some`.
-/

namespace KDTreeSpec

/-! ## Data model (`kdtree.h`) -/

/-- `struct tree_node { size_t id; size_t split; tree_node *left, *right; }`
together with the null pointer. -/
inductive tree_node where
  | null : tree_node
  | node (id : Nat) (split : Nat) (left right : tree_node) : tree_node
  deriving DecidableEq, Repr

/-- The two uses of the exponent `p`: `pow_p x` is `pow(x, p)` and
`pow_inv_p x` is `pow(x, 1.0 / p)`. -/
structure Exponent where
  pow_p : ℚ → ℚ
  pow_inv_p : ℚ → ℚ

/-- The exponent `p = 1`: `pow(x, 1) = x` and `pow(x, 1.0 / 1) = x`. -/
def p_one : Exponent := ⟨fun x => x, fun x => x⟩

/-- `std::tuple<size_t, float>`: a point id with a value or a distance. -/
abbrev neighbor := Nat × ℚ

namespace tree_node

/-- Is the pointer null (`!p`)? -/
def isNull : tree_node → Bool
  | null => true
  | node _ _ _ _ => false

/-- The point ids stored in a tree, node first, then left, then right. -/
def ids : tree_node → List Nat
  | null => []
  | node id _ l r => id :: (ids l ++ ids r)

/-- The allocated nodes of a tree (each non-null subtree), node first. -/
def nodes : tree_node → List tree_node
  | null => []
  | node id s l r => node id s l r :: (nodes l ++ nodes r)

/-- Number of nodes. -/
def size : tree_node → Nat
  | null => 0
  | node _ _ l r => size l + size r + 1

/-- Field `id`; reading it through the null pointer is undefined in the source
and modelled by `0`. -/
protected def id : tree_node → Nat
  | null => 0
  | node id _ _ _ => id

/-- Field `split`, `0` through the null pointer. -/
protected def split : tree_node → Nat
  | null => 0
  | node _ s _ _ => s

/-- Field `left`, null through the null pointer. -/
protected def left : tree_node → tree_node
  | null => null
  | node _ _ l _ => l

/-- Field `right`, null through the null pointer. -/
protected def right : tree_node → tree_node
  | null => null
  | node _ _ _ r => r

end tree_node

open tree_node

/-! ## Construction -/

/-- `KDTree::GetDimVal`: `datas[sample * n_features + dim]`. -/
def GetDimVal (datas : Nat → ℚ) (n_features : Nat) (sample dim : Nat) : ℚ :=
  datas (sample * n_features + dim)

/-- One step of the inner loop of `FindSplitDim` on the pair
`(cur_min_val, cur_max_val)`. -/
def minmax_step (mm : ℚ × ℚ) (v : ℚ) : ℚ × ℚ :=
  if v > mm.2 then (mm.1, v)
  else if v < mm.1 then (v, mm.2)
  else mm

/-- The inner loop of `FindSplitDim` for one dimension: both bounds start at
the value of `points[0]` and every point updates one of them. -/
def minmax (datas : Nat → ℚ) (n_features : Nat) (points : List Nat) (dim : Nat) : ℚ × ℚ :=
  let v0 := GetDimVal datas n_features (points.getD 0 0) dim
  (points.map fun id => GetDimVal datas n_features id dim).foldl minmax_step (v0, v0)

/-- One step of the outer loop of `FindSplitDim` on the pair
`(cur_best_dim, cur_largest_spread)`. -/
def split_step (datas : Nat → ℚ) (n_features : Nat) (points : List Nat)
    (best : Nat × ℚ) (dim : Nat) : Nat × ℚ :=
  let mm := minmax datas n_features points dim
  if mm.2 - mm.1 > best.2 then (dim, mm.2 - mm.1) else best

/-- `KDTree::FindSplitDim`. -/
def FindSplitDim (datas : Nat → ℚ) (n_features : Nat) (points : List Nat) : Nat :=
  if points.length = 1 then 0
  else ((List.range n_features).foldl (split_step datas n_features points) (0, -1)).1

/-- The comparator passed to `std::nth_element`, as the non-strict order it
induces: `i` may stand before `j` when not `get<1>(j) < get<1>(i)`. -/
def mid_cmp (i j : neighbor) : Prop := i.2 ≤ j.2

instance : DecidableRel mid_cmp := fun i j => inferInstanceAs (Decidable (i.2 ≤ j.2))

instance mid_cmp_total : IsTotal neighbor mid_cmp := ⟨fun a b => le_total a.2 b.2⟩

instance mid_cmp_trans : IsTrans neighbor mid_cmp := ⟨fun _ _ _ h1 h2 => le_trans h1 h2⟩

/-- `std::nth_element` over the whole buffer: the buffer stably sorted by the
comparator, which is one outcome the standard allows. -/
def nth_element (buf : List neighbor) : List neighbor :=
  buf.insertionSort mid_cmp

/-- `KDTree::MidElement`: fill `get_mid_buf_`, select, read position `len / 2`.
Reading the buffer outside the filled part (only for an empty `points`) is
modelled by the pair `(0, 0)`. -/
def MidElement (datas : Nat → ℚ) (n_features : Nat) (points : List Nat) (dim : Nat) : neighbor :=
  let len := points.length
  let get_mid_buf_ := points.map fun i => (i, GetDimVal datas n_features i dim)
  (nth_element get_mid_buf_).getD (len / 2) (0, 0)

/-- The vector `left` filled by the loop of `BuildTree`. -/
def left_points (datas : Nat → ℚ) (n_features : Nat) (points : List Nat)
    (arg_mid_val : Nat) (dim : Nat) (mid_val : ℚ) : List Nat :=
  points.filter fun i => decide (i ≠ arg_mid_val) && decide (GetDimVal datas n_features i dim ≤ mid_val)

/-- The vector `right` filled by the loop of `BuildTree`. -/
def right_points (datas : Nat → ℚ) (n_features : Nat) (points : List Nat)
    (arg_mid_val : Nat) (dim : Nat) (mid_val : ℚ) : List Nat :=
  points.filter fun i => decide (i ≠ arg_mid_val) && !decide (GetDimVal datas n_features i dim ≤ mid_val)

/-- `KDTree::BuildTree` with a bound on the recursion depth. -/
def BuildTreeAux (datas : Nat → ℚ) (n_features : Nat) : Nat → List Nat → Option tree_node
  | 0, _ => none
  | fuel + 1, points =>
    let dim := FindSplitDim datas n_features points
    let t := MidElement datas n_features points dim
    let arg_mid_val := t.1
    let mid_val := t.2
    let left := left_points datas n_features points arg_mid_val dim mid_val
    let right := right_points datas n_features points arg_mid_val dim mid_val
    match (if left.isEmpty then some null else BuildTreeAux datas n_features fuel left),
          (if right.isEmpty then some null else BuildTreeAux datas n_features fuel right) with
    | some l, some r => some (node arg_mid_val dim l r)
    | _, _ => none

/-- `KDTree::BuildTree`: every call removes the pivot from its list, so a
depth of `points.length + 1` is never reached. -/
def BuildTree (datas : Nat → ℚ) (n_features : Nat) (points : List Nat) : Option tree_node :=
  BuildTreeAux datas n_features (points.length + 1) points

/-- The pivot `BuildTree` picks for a list: the pair returned by `MidElement`
at the dimension returned by `FindSplitDim`. -/
def pivot (datas : Nat → ℚ) (n_features : Nat) (points : List Nat) : neighbor :=
  MidElement datas n_features points (FindSplitDim datas n_features points)

/-- The list `BuildTree` recurses on for the left child. -/
def build_left (datas : Nat → ℚ) (n_features : Nat) (points : List Nat) : List Nat :=
  left_points datas n_features points (pivot datas n_features points).1
    (FindSplitDim datas n_features points) (pivot datas n_features points).2

/-- The list `BuildTree` recurses on for the right child. -/
def build_right (datas : Nat → ℚ) (n_features : Nat) (points : List Nat) : List Nat :=
  right_points datas n_features points (pivot datas n_features points).1
    (FindSplitDim datas n_features points) (pivot datas n_features points).2

/-! ## Search -/

/-- The members of `class KDTree` that construction and search use;
`visited_buf_` has `n_samples` entries in the source. -/
structure KDTree where
  k_neighbor_heap_ : List neighbor
  p : Exponent
  root : tree_node
  datas : Nat → ℚ
  n_samples : Nat
  n_features : Nat
  visited_buf_ : Nat → Bool

/-- The order in which `neighbor_heap` keeps its entries: `i` stands before
`j` when `j` is not farther than `i`. -/
def heap_order (i j : neighbor) : Prop := j.2 ≤ i.2

instance : DecidableRel heap_order := fun i j => inferInstanceAs (Decidable (j.2 ≤ i.2))

instance heap_order_total : IsTotal neighbor heap_order := ⟨fun a b => le_total b.2 a.2⟩

instance heap_order_trans : IsTrans neighbor heap_order := ⟨fun _ _ _ h1 h2 => le_trans h2 h1⟩

/-- `priority_queue::push`. -/
def heap_push (h : List neighbor) (t : neighbor) : List neighbor :=
  h.orderedInsert heap_order t

/-- `priority_queue::top`; on an empty queue (undefined in the source) the pair
`(0, 0)`. -/
def heap_top (h : List neighbor) : neighbor := h.headD (0, 0)

/-- `priority_queue::pop`. -/
def heap_pop (h : List neighbor) : List neighbor := h.tail

/-- The building constructor `KDTree(datas, labels, rows, cols, p, free_tree)`:
the index list `[0, rows)` is handed to `BuildTree`.  The heap member starts
empty; `visited_buf_` is fresh memory that `FindKNearests` clears before use. -/
def KDTree.build (datas : Nat → ℚ) (rows cols : Nat) (p : Exponent) : Option KDTree :=
  (BuildTree datas cols (List.range rows)).map fun root =>
    { k_neighbor_heap_ := [], p := p, root := root, datas := datas,
      n_samples := rows, n_features := cols, visited_buf_ := fun _ => false }

/-- The wrapping constructor `KDTree(root, datas, rows, cols, p)`. -/
def KDTree.wrap (root : tree_node) (datas : Nat → ℚ) (rows cols : Nat) (p : Exponent) : KDTree :=
  { k_neighbor_heap_ := [], p := p, root := root, datas := datas,
    n_samples := rows, n_features := cols, visited_buf_ := fun _ => false }

/-- `KDTree::GetDist` (the build without Intel MKL): the loop adds
`pow(datas[idx + t] - coor[t], p)` for `t = 0 .. n_features - 1`, the result is
`pow(dist, 1.0 / p)`. -/
def GetDist (self : KDTree) (i : Nat) (coor : Nat → ℚ) : ℚ :=
  let idx := i * self.n_features
  let dist := (List.range self.n_features).foldl
    (fun dist t => dist + self.p.pow_p (self.datas (idx + t) - coor t)) 0
  self.p.pow_inv_p dist

/-- `KDTree::HeapStackPush`. -/
def HeapStackPush (self : KDTree) (paths : List tree_node) (node : tree_node)
    (coor : Nat → ℚ) (k : Nat) : KDTree × List tree_node :=
  let paths := node :: paths
  let id := node.id
  if self.visited_buf_ id then (self, paths)
  else
    let self := { self with visited_buf_ := Function.update self.visited_buf_ id true }
    let dist := GetDist self id coor
    let t : neighbor := (id, dist)
    if self.k_neighbor_heap_.length < k then
      ({ self with k_neighbor_heap_ := heap_push self.k_neighbor_heap_ t }, paths)
    else if t.2 < (heap_top self.k_neighbor_heap_).2 then
      ({ self with k_neighbor_heap_ := heap_push (heap_pop self.k_neighbor_heap_) t }, paths)
    else (self, paths)

/-- A guarded call `if (c) HeapStackPush(paths, node, coor, k);`. -/
def push_if (c : Bool) (st : KDTree × List tree_node) (node : tree_node)
    (coor : Nat → ℚ) (k : Nat) : KDTree × List tree_node :=
  if c then HeapStackPush st.1 st.2 node coor k else st

/-- The first loop of `FindKNearests`: `while (p) { HeapStackPush(paths, p, coor, k);
p = coor[p->split] <= GetDimVal(p->id, p->split) ? p->left : p->right; }`. -/
def descend (coor : Nat → ℚ) (k : Nat) : tree_node → KDTree × List tree_node → KDTree × List tree_node
  | null, st => st
  | node id split left right, st =>
    let st := HeapStackPush st.1 st.2 (node id split left right) coor k
    if coor split ≤ GetDimVal st.1.datas st.1.n_features id split then descend coor k left st
    else descend coor k right st

/-- The body of the second loop of `FindKNearests` after `p = paths.top();
paths.pop();`. -/
def backtrack_step (coor : Nat → ℚ) (k : Nat) (p : tree_node)
    (st : KDTree × List tree_node) : KDTree × List tree_node :=
  if p.left.isNull && p.right.isNull then st
  else if st.1.k_neighbor_heap_.length < k then
    let st := push_if (!p.left.isNull) st p.left coor k
    push_if (!p.right.isNull) st p.right coor k
  else
    let node_split_val := GetDimVal st.1.datas st.1.n_features p.id p.split
    let coor_split_val := coor p.split
    let heap_top_val := (heap_top st.1.k_neighbor_heap_).2
    if coor_split_val > node_split_val then
      let st := push_if (!p.right.isNull) st p.right coor k
      push_if (decide (coor_split_val - node_split_val < heap_top_val) && !p.left.isNull)
        st p.left coor k
    else
      let st := push_if (!p.left.isNull) st p.left coor k
      push_if (decide (node_split_val - coor_split_val < heap_top_val) && !p.right.isNull)
        st p.right coor k

/-- The second loop of `FindKNearests`, `while (!paths.empty())`, bounded by
`fuel` iterations. -/
def backtrack (coor : Nat → ℚ) (k : Nat) : Nat → KDTree × List tree_node → Option KDTree
  | _, (self, []) => some self
  | 0, (_, _ :: _) => none
  | fuel + 1, (self, p :: paths) => backtrack coor k fuel (backtrack_step coor k p (self, paths))

/-- The last loop of `FindKNearests`: `while (!heap.empty()) { res.emplace_back(heap.top());
heap.pop(); }`. -/
def drain : List neighbor → List neighbor
  | [] => []
  | t :: rest => t :: drain rest

/-- Number of loop iterations that empty a path stack: every iteration replaces
a node by some of its children. -/
def paths_weight (paths : List tree_node) : Nat := (paths.map size).sum

/-- The `memset` that opens `FindKNearests`: the `n_samples` entries of
`visited_buf_` are cleared. -/
def clear_visited (self : KDTree) : KDTree :=
  { self with
    visited_buf_ := fun i => if i < self.n_samples then false else self.visited_buf_ i }

/-- `KDTree::FindKNearests`: the returned vector and the object afterwards. -/
def FindKNearests (self : KDTree) (coor : Nat → ℚ) (k : Nat) : Option (List neighbor × KDTree) :=
  let self := clear_visited self
  let st := descend coor k self.root (self, [])
  match backtrack coor k (paths_weight st.2) st with
  | none => none
  | some self => some (drain self.k_neighbor_heap_, { self with k_neighbor_heap_ := [] })

/-- The loop of `free_tree_memory`: `stack` is `node_stack`, `freed` collects
the nodes passed to `free` in order.  A null pointer on the stack is
dereferenced by the source; the model stops with `none`. -/
def free_loop : Nat → List tree_node → List tree_node → Option (List tree_node)
  | _, [], freed => some freed
  | 0, _ :: _, _ => none
  | _ + 1, null :: _, _ => none
  | fuel + 1, node id s l r :: stack, freed =>
    let stack := if l.isNull then stack else l :: stack
    let stack := if r.isNull then stack else r :: stack
    free_loop fuel stack (freed ++ [node id s l r])

/-- `free_tree_memory`: the nodes released, in order. -/
def free_tree_memory (root : tree_node) : Option (List tree_node) :=
  free_loop (size root + 1) [root] []

/-! ## Concrete data -/

/-- Flat memory holding the given values, zero elsewhere. -/
def memory (vals : List ℚ) : Nat → ℚ := fun i => vals.getD i 0

/-- Coordinates of a query point, zero past the end. -/
def query (vals : List ℚ) : Nat → ℚ := fun i => vals.getD i 0

/-! ## Specification vocabulary -/

/-- The partition invariant of a whole tree: at every node the ids of the left
subtree have a value at the split dimension not above the pivot's, those of
the right subtree a strictly greater one. -/
def KdInv (datas : Nat → ℚ) (n_features : Nat) : tree_node → Prop
  | null => True
  | node id split l r =>
    (∀ i ∈ ids l, GetDimVal datas n_features i split ≤ GetDimVal datas n_features id split) ∧
    (∀ i ∈ ids r, GetDimVal datas n_features id split < GetDimVal datas n_features i split) ∧
    KdInv datas n_features l ∧ KdInv datas n_features r

/-- The value range of a list of points at one dimension: largest value minus
smallest value (`0` for the empty list). -/
def spread (datas : Nat → ℚ) (n_features : Nat) (points : List Nat) (dim : Nat) : ℚ :=
  let vs := points.map fun id => GetDimVal datas n_features id dim
  vs.foldl max (vs.headD 0) - vs.foldl min (vs.headD 0)

/-- The heap after `HeapStackPush` has scored a point that was not visited
before: the three branches on `k_neighbor_heap_`. -/
def visit (k : Nat) (id : Nat) (dist : ℚ) (h : List neighbor) : List neighbor :=
  if h.length < k then heap_push h (id, dist)
  else if dist < (heap_top h).2 then heap_push (heap_pop h) (id, dist)
  else h

/-- Two objects with the same tree, data and exponent. -/
def SameModel (a b : KDTree) : Prop :=
  a.p = b.p ∧ a.root = b.root ∧ a.datas = b.datas ∧ a.n_samples = b.n_samples ∧
    a.n_features = b.n_features

/-- A point is settled by a heap when it is a candidate of the heap, or the
heap is full and none of its candidates is farther than the point. -/
def Settled (d : Nat → ℚ) (k : Nat) (h : List neighbor) (i : Nat) : Prop :=
  i ∈ h.map Prod.fst ∨ (h.length = k ∧ ∀ e ∈ h, e.2 ≤ d i)

/-- The invariant of the candidate heap `h` and the visited flags `v` during a
search, for the distance function `d`, the count `k` and the ids `ok` of the
tree. -/
structure HeapInv (d : Nat → ℚ) (k : Nat) (ok : Nat → Prop) (h : List neighbor)
    (v : Nat → Bool) : Prop where
  sorted : h.Sorted heap_order
  len : h.length ≤ k
  nodup : (h.map Prod.fst).Nodup
  entry : ∀ e ∈ h, v e.1 = true ∧ e.2 = d e.1 ∧ ok e.1
  settled : ∀ i, ok i → v i = true → Settled d k h i

/-- Coverage of a subtree by a search state: every node is still on the path
stack, or its point is settled and both subtrees are covered. -/
def Cov (sd : Nat → Prop) (paths : List tree_node) : tree_node → Prop
  | null => True
  | node id s l r => node id s l r ∈ paths ∨ (sd id ∧ Cov sd paths l ∧ Cov sd paths r)

/-- A search state `b` is later than `a`: whatever was settled or visited in
`a` still is in `b`. -/
def Later (d : Nat → ℚ) (k : Nat) (a b : KDTree) : Prop :=
  (∀ i, Settled d k a.k_neighbor_heap_ i → Settled d k b.k_neighbor_heap_ i) ∧
  (∀ i, a.visited_buf_ i = true → b.visited_buf_ i = true) ∧
  a.k_neighbor_heap_.length ≤ b.k_neighbor_heap_.length

/-- A point is counted by a heap when it is a candidate of the heap or the
heap is full. -/
def Counted (k : Nat) (h : List neighbor) (i : Nat) : Prop :=
  i ∈ h.map Prod.fst ∨ h.length = k

/-- The invariant of the two loops of `FindKNearests`; `self0` is the object
right after the `memset`, `st` the object and the path stack at some later
moment of the same call. -/
structure SearchInv (self0 : KDTree) (coor : Nat → ℚ) (k : Nat)
    (st : KDTree × List tree_node) : Prop where
  model : SameModel self0 st.1
  heap : HeapInv (fun i => GetDist self0 i coor) k (fun i => i ∈ ids self0.root)
    st.1.k_neighbor_heap_ st.1.visited_buf_
  stack : ∀ t ∈ st.2, t ∈ nodes self0.root ∧ st.1.visited_buf_ t.id = true
  frame : ∀ i, self0.n_samples ≤ i → st.1.visited_buf_ i = self0.visited_buf_ i

/-- The far child `b` of `p` is skipped by `backtrack_step`: the heap is full
and the distance of the query to the splitting plane is not below the distance
of the heap's root. -/
def FarPruned (self : KDTree) (coor : Nat → ℚ) (k : Nat) (p b : tree_node) : Prop :=
  ¬ self.k_neighbor_heap_.length < k ∧
  ((b = p.left ∧ coor p.split > GetDimVal self.datas self.n_features p.id p.split ∧
      (heap_top self.k_neighbor_heap_).2
        ≤ coor p.split - GetDimVal self.datas self.n_features p.id p.split) ∨
   (b = p.right ∧ coor p.split ≤ GetDimVal self.datas self.n_features p.id p.split ∧
      (heap_top self.k_neighbor_heap_).2
        ≤ GetDimVal self.datas self.n_features p.id p.split - coor p.split))

/-- The distance of every stored point to the query is at least the distance
along each split dimension of the tree. -/
def Dominates (self : KDTree) (coor : Nat → ℚ) : Prop :=
  ∀ t ∈ nodes self.root, ∀ i ∈ ids self.root,
    |GetDimVal self.datas self.n_features i t.split - coor t.split| ≤ GetDist self i coor

/-- Newton iteration for the integer square root, at most `fuel` steps. -/
def isqrt_iter : Nat → Nat → Nat → Nat
  | 0, _, x => x
  | fuel + 1, n, x =>
    let y := (x + n / x) / 2
    if y < x then isqrt_iter fuel n y else x

/-- Integer square root (rounded down) of a number below `2 ^ 64`. -/
def isqrt (n : Nat) : Nat := if n = 0 then 0 else isqrt_iter 64 n n

/-- An exponent `p = 2` on a grid of four decimals: `pow(x, 2) = x * x`, and
`pow(x, 0.5)` is the square root rounded down to a multiple of `1 / 10000`
(rounding stands for the rounding of `float`). -/
def p_two : Exponent :=
  ⟨fun x => x * x, fun x => (isqrt (x * 100000000).floor.toNat : ℚ) / 10000⟩

/-- The nodes of all trees of a stack. -/
def all_nodes : List tree_node → List tree_node
  | [] => []
  | t :: ts => nodes t ++ all_nodes ts

/-! ## The exported functions -/

/-- `struct tree_model` of `kdtree.h`. -/
structure tree_model where
  root : tree_node
  datas : Nat → ℚ
  labels : Nat → ℚ
  n_samples : Nat
  n_features : Nat
  p : Exponent

/-- The copy loop shared by `CFindKNearests` and `find_k_nearests`, from index
`i` for `n` more iterations: `args[i] = get<0>(k_nearest[i]); dists[i] =
get<1>(k_nearest[i]);`.  Reading `k_nearest` past its end is undefined in the
source; the model stops with `none`. -/
def copy_from (k_nearest : List neighbor) : Nat → Nat → Option (List Nat × List ℚ)
  | _, 0 => some ([], [])
  | i, n + 1 =>
    match k_nearest.get? i, copy_from k_nearest (i + 1) n with
    | some t, some (args, dists) => some (t.1 :: args, t.2 :: dists)
    | _, _ => none

/-- `KDTree::CFindKNearests`: the values written to `args` and `dists`, and the
object afterwards. -/
def CFindKNearests (self : KDTree) (coor : Nat → ℚ) (k : Nat) :
    Option ((List Nat × List ℚ) × KDTree) :=
  match FindKNearests self coor k with
  | none => none
  | some (k_nearest, self') => (copy_from k_nearest 0 k).map fun out => (out, self')

/-- `find_k_nearests`: a `KDTree` is wrapped around the model, searched, and the
result copied to `args` and `dists`. -/
def find_k_nearests (model : tree_model) (coor : Nat → ℚ) (k : Nat) :
    Option (List Nat × List ℚ) :=
  let tree := KDTree.wrap model.root model.datas model.n_samples model.n_features model.p
  match FindKNearests tree coor k with
  | none => none
  | some (k_nearest, _) => copy_from k_nearest 0 k

/-! ## Voting -/

/-- `static_cast<int>(x)` for a `float`: the fractional part is dropped
(rounding toward zero).  Values outside the range of `int` are undefined in the
source and not modelled. -/
def trunc_int (x : ℚ) : Int := if 0 ≤ x then ⌊x⌋ else ⌈x⌉

/-- One iteration of the first loop of `vote` on the map `counter`, kept as a
list of `(key, count)` pairs: a key that is absent is inserted with count 1,
the count of a key that is present is incremented. -/
def counter_add (counter : List (Int × Nat)) (t : Int) : List (Int × Nat) :=
  if counter.any (fun e => decide (e.1 = t)) then
    counter.map fun e => if e.1 = t then (e.1, e.2 + 1) else e
  else counter ++ [(t, 1)]

/-- The map `counter` after the first loop of `vote`. -/
def count_labels (arr : List ℚ) : List (Int × Nat) :=
  arr.foldl (fun counter x => counter_add counter (trunc_int x)) []

/-- The second loop of `vote` over the entries of the map in the order
`entries`: the pair `(cur_arg_max, cur_max)` at the end. -/
def vote_select (entries : List (Int × Nat)) : ℚ × Nat :=
  entries.foldl (fun (cur : ℚ × Nat) i => if i.2 ≥ cur.2 then ((i.1 : ℚ), i.2) else cur) (0, 0)

/-- `vote`, with the map iterated in insertion order (the order of an
`unordered_map` is unspecified; the theorems cover every order). -/
def vote (arr : List ℚ) : ℚ := (vote_select (count_labels arr)).1

/-- `mean`. -/
def mean (arr : List ℚ) : ℚ := arr.foldl (fun ans x => ans + x) 0 / arr.length

/-- Height of a tree: the number of nodes on a longest path from the root down,
which is the depth the recursion of `BuildTree` reaches for it. -/
def height : tree_node → Nat
  | null => 0
  | node _ _ l r => max (height l) (height r) + 1

/-- Seven points with two features: the first feature separates all of them,
the second one ties two of the three leftmost points. -/
def skew_data : Nat → ℚ :=
  memory [0, 0, 1, 100, 2, 100, 3, 0, 1000, 0, 2000, 0, 3000, 0]

/-! ## The calls of `HeapStackPush` during one search -/

/-- One call of `HeapStackPush`: the object and the path stack right before the
call, and the node passed to it. -/
abbrev push_event := (KDTree × List tree_node) × tree_node

/-- The object and the path stack right after a call of `HeapStackPush`. -/
def push_event.after (e : push_event) (coor : Nat → ℚ) (k : Nat) : KDTree × List tree_node :=
  HeapStackPush e.1.1 e.1.2 e.2 coor k

/-- The calls of `HeapStackPush` made by the first loop of `FindKNearests`, in
order (the loop is `descend`). -/
def descend_log (coor : Nat → ℚ) (k : Nat) :
    tree_node → KDTree × List tree_node → List push_event
  | null, _ => []
  | node id split left right, st =>
    (st, node id split left right) ::
      (if coor split ≤ GetDimVal (HeapStackPush st.1 st.2 (node id split left right) coor k).1.datas
            (HeapStackPush st.1 st.2 (node id split left right) coor k).1.n_features id split
        then descend_log coor k left (HeapStackPush st.1 st.2 (node id split left right) coor k)
        else descend_log coor k right (HeapStackPush st.1 st.2 (node id split left right) coor k))

/-- The call made by a guarded `if (c) HeapStackPush(paths, node, coor, k);`. -/
def push_if_log (c : Bool) (st : KDTree × List tree_node) (node : tree_node) : List push_event :=
  if c then [(st, node)] else []

/-- The calls of `HeapStackPush` made by one iteration of the second loop (the
iteration is `backtrack_step`). -/
def backtrack_step_log (coor : Nat → ℚ) (k : Nat) (p : tree_node)
    (st : KDTree × List tree_node) : List push_event :=
  if p.left.isNull && p.right.isNull then []
  else if st.1.k_neighbor_heap_.length < k then
    push_if_log (!p.left.isNull) st p.left ++
      push_if_log (!p.right.isNull) (push_if (!p.left.isNull) st p.left coor k) p.right
  else
    let node_split_val := GetDimVal st.1.datas st.1.n_features p.id p.split
    let coor_split_val := coor p.split
    let heap_top_val := (heap_top st.1.k_neighbor_heap_).2
    if coor_split_val > node_split_val then
      push_if_log (!p.right.isNull) st p.right ++
        push_if_log (decide (coor_split_val - node_split_val < heap_top_val) && !p.left.isNull)
          (push_if (!p.right.isNull) st p.right coor k) p.left
    else
      push_if_log (!p.left.isNull) st p.left ++
        push_if_log (decide (node_split_val - coor_split_val < heap_top_val) && !p.right.isNull)
          (push_if (!p.left.isNull) st p.left coor k) p.right

/-- The calls of `HeapStackPush` made by the second loop of `FindKNearests` (the
loop is `backtrack`). -/
def backtrack_log (coor : Nat → ℚ) (k : Nat) :
    Nat → KDTree × List tree_node → List push_event
  | _, (_, []) => []
  | 0, (_, _ :: _) => []
  | fuel + 1, (self, p :: paths) =>
    backtrack_step_log coor k p (self, paths) ++
      backtrack_log coor k fuel (backtrack_step coor k p (self, paths))

/-- Every call of `HeapStackPush` made by one call of `FindKNearests`, in order. -/
def FindKNearests_log (self : KDTree) (coor : Nat → ℚ) (k : Nat) : List push_event :=
  descend_log coor k self.root (clear_visited self, []) ++
    backtrack_log coor k (paths_weight (descend coor k self.root (clear_visited self, [])).2)
      (descend coor k self.root (clear_visited self, []))

/-- The point ids for which the calls of a log evaluate `GetDist`, in order: a
call evaluates the distance of its node's point unless the point is marked
visited. -/
def evaluated (log : List push_event) : List Nat :=
  log.filterMap fun e => if e.1.1.visited_buf_ e.2.id then none else some e.2.id

/-- A stretch `log` of calls of `HeapStackPush` leads from the object `a` to the
object `b` and scores no point twice: the ids whose distance the calls
evaluate are pairwise different, each was unvisited in `a` and is visited in
`b`, and what was visited in `a` still is in `b`. -/
def ScoredOnce (a : KDTree) (log : List push_event) (b : KDTree) : Prop :=
  (evaluated log).Nodup ∧
  (∀ i ∈ evaluated log, a.visited_buf_ i = false ∧ b.visited_buf_ i = true) ∧
  (∀ i, a.visited_buf_ i = true → b.visited_buf_ i = true)

/-- The Minkowski distance of order `p` between stored point `i` and the query,
raised to the power `p`: the sum of `|datas[i * n_features + t] - coor[t]| ^ p`
over the features (for `p = 1` the distance itself). -/
def minkowski_pow (datas : Nat → ℚ) (n_features p i : Nat) (coor : Nat → ℚ) : ℚ :=
  (List.range n_features).foldl
    (fun acc t => acc + |GetDimVal datas n_features i t - coor t| ^ p) 0

/-- Four points with two features: (-100, 150), (-1000, 0), (100, 0),
(101, -60). -/
def prune_data : Nat → ℚ :=
  memory [-100, 150, -1000, 0, 100, 0, 101, -60]

/-! ## Construction: lemmas -/

theorem nth_element_perm (buf : List neighbor) : (nth_element buf).Perm buf :=
  List.perm_insertionSort _ buf

theorem nth_element_length (buf : List neighbor) : (nth_element buf).length = buf.length :=
  List.length_insertionSort _ buf

theorem MidElement_mem_buf (datas : Nat → ℚ) (n_features : Nat) (points : List Nat) (dim : Nat)
    (h : points ≠ []) :
    MidElement datas n_features points dim
      ∈ points.map fun i => (i, GetDimVal datas n_features i dim) := by
  have hlen : 0 < points.length := List.length_pos.mpr h
  have hlt : points.length / 2 <
      (nth_element (points.map fun i => (i, GetDimVal datas n_features i dim))).length := by
    rw [nth_element_length, List.length_map]
    exact Nat.div_lt_self hlen (by norm_num)
  have hmem : MidElement datas n_features points dim
      ∈ nth_element (points.map fun i => (i, GetDimVal datas n_features i dim)) := by
    unfold MidElement
    simp only []
    rw [List.getD_eq_getElem _ _ hlt]
    exact List.getElem_mem hlt
  exact (nth_element_perm _).mem_iff.mp hmem

theorem MidElement_mem (datas : Nat → ℚ) (n_features : Nat) (points : List Nat) (dim : Nat)
    (h : points ≠ []) : (MidElement datas n_features points dim).1 ∈ points := by
  have := MidElement_mem_buf datas n_features points dim h
  rw [List.mem_map] at this
  obtain ⟨i, hi, he⟩ := this
  rw [← he]; exact hi

theorem MidElement_val (datas : Nat → ℚ) (n_features : Nat) (points : List Nat) (dim : Nat)
    (h : points ≠ []) :
    (MidElement datas n_features points dim).2
      = GetDimVal datas n_features (MidElement datas n_features points dim).1 dim := by
  have := MidElement_mem_buf datas n_features points dim h
  rw [List.mem_map] at this
  obtain ⟨i, _, he⟩ := this
  rw [← he]

theorem length_filter_lt_of_mem {α : Type} (q : α → Bool) (l : List α) (a : α)
    (ha : a ∈ l) (hq : q a = false) : (l.filter q).length < l.length := by
  induction l with
  | nil => cases ha
  | cons b t ih =>
    rcases List.mem_cons.mp ha with rfl | h'
    · rw [List.filter_cons_of_neg (by simp [hq])]
      exact Nat.lt_succ_of_le (List.length_filter_le q t)
    · by_cases hb : q b = true
      · rw [List.filter_cons_of_pos hb]
        simp only [List.length_cons]
        exact Nat.succ_lt_succ (ih h')
      · rw [List.filter_cons_of_neg hb]
        exact Nat.lt_succ_of_lt (ih h')

theorem left_points_length_lt (datas : Nat → ℚ) (n_features : Nat) (points : List Nat)
    (a dim : Nat) (v : ℚ) (ha : a ∈ points) :
    (left_points datas n_features points a dim v).length < points.length :=
  length_filter_lt_of_mem _ points a ha (by simp)

theorem right_points_length_lt (datas : Nat → ℚ) (n_features : Nat) (points : List Nat)
    (a dim : Nat) (v : ℚ) (ha : a ∈ points) :
    (right_points datas n_features points a dim v).length < points.length :=
  length_filter_lt_of_mem _ points a ha (by simp)

theorem BuildTreeAux_succ (datas : Nat → ℚ) (n_features : Nat) (fuel : Nat) (points : List Nat) :
    BuildTreeAux datas n_features (fuel + 1) points =
      match (if (build_left datas n_features points).isEmpty then some null
              else BuildTreeAux datas n_features fuel (build_left datas n_features points)),
            (if (build_right datas n_features points).isEmpty then some null
              else BuildTreeAux datas n_features fuel (build_right datas n_features points)) with
      | some l, some r => some (node (pivot datas n_features points).1
          (FindSplitDim datas n_features points) l r)
      | _, _ => none := rfl

theorem pivot_mem (datas : Nat → ℚ) (n_features : Nat) (points : List Nat) (h : points ≠ []) :
    (pivot datas n_features points).1 ∈ points :=
  MidElement_mem datas n_features points _ h

theorem pivot_val (datas : Nat → ℚ) (n_features : Nat) (points : List Nat) (h : points ≠ []) :
    (pivot datas n_features points).2 = GetDimVal datas n_features
      (pivot datas n_features points).1 (FindSplitDim datas n_features points) :=
  MidElement_val datas n_features points _ h

theorem build_left_length_lt (datas : Nat → ℚ) (n_features : Nat) (points : List Nat)
    (h : points ≠ []) : (build_left datas n_features points).length < points.length :=
  left_points_length_lt datas n_features points _ _ _ (pivot_mem datas n_features points h)

theorem build_right_length_lt (datas : Nat → ℚ) (n_features : Nat) (points : List Nat)
    (h : points ≠ []) : (build_right datas n_features points).length < points.length :=
  right_points_length_lt datas n_features points _ _ _ (pivot_mem datas n_features points h)

/-- Induction along the recursion of `BuildTree`: a property that passes from
the two parts of a non-empty list to the node built over them holds of the
tree `BuildTree` returns, and `BuildTree` does return one. -/
theorem BuildTreeAux_induct (datas : Nat → ℚ) (n_features : Nat)
    (P : List Nat → tree_node → Prop)
    (step : ∀ (points : List Nat) (l r : tree_node), points ≠ [] →
      (if build_left datas n_features points = [] then l = null
        else P (build_left datas n_features points) l) →
      (if build_right datas n_features points = [] then r = null
        else P (build_right datas n_features points) r) →
      P points (node (pivot datas n_features points).1
        (FindSplitDim datas n_features points) l r)) :
    ∀ (fuel : Nat) (points : List Nat), points ≠ [] → points.length ≤ fuel →
      ∃ t, BuildTreeAux datas n_features fuel points = some t ∧ P points t := by
  intro fuel
  induction fuel with
  | zero =>
    intro points hne hlen
    exact absurd (List.length_eq_zero.mp (Nat.le_zero.mp hlen)) hne
  | succ fuel ih =>
    intro points hne hlen
    have hl := build_left_length_lt datas n_features points hne
    have hr := build_right_length_lt datas n_features points hne
    have hL : ∃ l, (if (build_left datas n_features points).isEmpty then some null
          else BuildTreeAux datas n_features fuel (build_left datas n_features points)) = some l ∧
        (if build_left datas n_features points = [] then l = null
          else P (build_left datas n_features points) l) := by
      by_cases he : build_left datas n_features points = []
      · exact ⟨null, by simp [he], by simp [he]⟩
      · obtain ⟨l, h1, h2⟩ := ih _ he (by omega)
        exact ⟨l, by simp [he, h1], by simp [he, h2]⟩
    have hR : ∃ r, (if (build_right datas n_features points).isEmpty then some null
          else BuildTreeAux datas n_features fuel (build_right datas n_features points)) = some r ∧
        (if build_right datas n_features points = [] then r = null
          else P (build_right datas n_features points) r) := by
      by_cases he : build_right datas n_features points = []
      · exact ⟨null, by simp [he], by simp [he]⟩
      · obtain ⟨r, h1, h2⟩ := ih _ he (by omega)
        exact ⟨r, by simp [he, h1], by simp [he, h2]⟩
    obtain ⟨l, hl1, hl2⟩ := hL
    obtain ⟨r, hr1, hr2⟩ := hR
    refine ⟨node _ _ l r, ?_, step points l r hne hl2 hr2⟩
    rw [BuildTreeAux_succ, hl1, hr1]

/-- `BuildTree` returns a tree for every non-empty list, and every property
that passes through one recursion step holds of it. -/
theorem BuildTree_induct (datas : Nat → ℚ) (n_features : Nat)
    (P : List Nat → tree_node → Prop)
    (step : ∀ (points : List Nat) (l r : tree_node), points ≠ [] →
      (if build_left datas n_features points = [] then l = null
        else P (build_left datas n_features points) l) →
      (if build_right datas n_features points = [] then r = null
        else P (build_right datas n_features points) r) →
      P points (node (pivot datas n_features points).1
        (FindSplitDim datas n_features points) l r))
    (points : List Nat) (hne : points ≠ []) :
    ∃ t, BuildTree datas n_features points = some t ∧ P points t :=
  BuildTreeAux_induct datas n_features P step (points.length + 1) points hne (Nat.le_succ _)

theorem mem_build_left {datas : Nat → ℚ} {n_features : Nat} {points : List Nat} {i : Nat} :
    i ∈ build_left datas n_features points ↔
      i ∈ points ∧ i ≠ (pivot datas n_features points).1 ∧
        GetDimVal datas n_features i (FindSplitDim datas n_features points)
          ≤ (pivot datas n_features points).2 := by
  simp [build_left, left_points]

theorem mem_build_right {datas : Nat → ℚ} {n_features : Nat} {points : List Nat} {i : Nat} :
    i ∈ build_right datas n_features points ↔
      i ∈ points ∧ i ≠ (pivot datas n_features points).1 ∧
        (pivot datas n_features points).2
          < GetDimVal datas n_features i (FindSplitDim datas n_features points) := by
  simp [build_right, right_points]

/-- Every id of the built tree comes from the list, and the tree satisfies the
partition invariant. -/
theorem BuildTree_sub_inv (datas : Nat → ℚ) (n_features : Nat) (points : List Nat)
    (hne : points ≠ []) :
    ∃ t, BuildTree datas n_features points = some t ∧
      ((∀ i ∈ ids t, i ∈ points) ∧ KdInv datas n_features t) := by
  apply BuildTree_induct datas n_features
    (fun points t => (∀ i ∈ ids t, i ∈ points) ∧ KdInv datas n_features t) _ points hne
  intro points l r hne hl hr
  have hL : (∀ i ∈ ids l, i ∈ build_left datas n_features points) ∧ KdInv datas n_features l := by
    split at hl
    · subst hl; exact ⟨by simp [ids], trivial⟩
    · exact hl
  have hR : (∀ i ∈ ids r, i ∈ build_right datas n_features points) ∧ KdInv datas n_features r := by
    split at hr
    · subst hr; exact ⟨by simp [ids], trivial⟩
    · exact hr
  have hv := pivot_val datas n_features points hne
  refine ⟨?_, ?_, ?_, hL.2, hR.2⟩
  · intro i hi
    simp only [ids, List.mem_cons, List.mem_append] at hi
    rcases hi with rfl | hi | hi
    · exact pivot_mem datas n_features points hne
    · exact (mem_build_left.mp (hL.1 i hi)).1
    · exact (mem_build_right.mp (hR.1 i hi)).1
  · intro i hi
    rw [← hv]
    exact (mem_build_left.mp (hL.1 i hi)).2.2
  · intro i hi
    rw [← hv]
    exact (mem_build_right.mp (hR.1 i hi)).2.2

/-- The local property of the invariant at every node of a tree. -/
theorem KdInv_nodes {datas : Nat → ℚ} {n_features : Nat} :
    ∀ {t : tree_node}, KdInv datas n_features t →
      ∀ id split l r, node id split l r ∈ nodes t →
        (∀ i ∈ ids l, GetDimVal datas n_features i split ≤ GetDimVal datas n_features id split) ∧
        (∀ i ∈ ids r, GetDimVal datas n_features id split < GetDimVal datas n_features i split)
  | null, _, _, _, _, _, h => by simp [nodes] at h
  | node id0 s0 l0 r0, hinv, id, split, l, r, h => by
    obtain ⟨h1, h2, h3, h4⟩ := hinv
    simp only [nodes, List.mem_cons, List.mem_append] at h
    rcases h with h | h | h
    · cases h; exact ⟨h1, h2⟩
    · exact KdInv_nodes h3 id split l r h
    · exact KdInv_nodes h4 id split l r h

/-! ## C2: the partition invariant -/

/-- C2: for every non-empty list of point ids (distinct or not), `BuildTree`
returns a tree, and at every node `N` of it each id stored in the left subtree
has a value at dimension `N.split` that is at most the value of `N.id` there,
and each id stored in the right subtree has a strictly greater value. -/
theorem BuildTree_partition_invariant (datas : Nat → ℚ) (n_features : Nat) (points : List Nat)
    (hne : points ≠ []) :
    ∃ t, BuildTree datas n_features points = some t ∧
      ∀ id split l r, node id split l r ∈ nodes t →
        (∀ i ∈ ids l, GetDimVal datas n_features i split ≤ GetDimVal datas n_features id split) ∧
        (∀ i ∈ ids r, GetDimVal datas n_features id split < GetDimVal datas n_features i split) := by
  obtain ⟨t, ht, _, hinv⟩ := BuildTree_sub_inv datas n_features points hne
  exact ⟨t, ht, KdInv_nodes hinv⟩

/-- The partition invariant at the three points (0,0), (1,1), (5,5). -/
theorem BuildTree_partition_invariant_witness :
    [0, 1, 2] ≠ [] ∧
    ∃ t, BuildTree (memory [0, 0, 1, 1, 5, 5]) 2 [0, 1, 2] = some t ∧
      ∀ id split l r, node id split l r ∈ nodes t →
        (∀ i ∈ ids l, GetDimVal (memory [0, 0, 1, 1, 5, 5]) 2 i split
            ≤ GetDimVal (memory [0, 0, 1, 1, 5, 5]) 2 id split) ∧
        (∀ i ∈ ids r, GetDimVal (memory [0, 0, 1, 1, 5, 5]) 2 id split
            < GetDimVal (memory [0, 0, 1, 1, 5, 5]) 2 i split) :=
  ⟨by decide, BuildTree_partition_invariant (memory [0, 0, 1, 1, 5, 5]) 2 [0, 1, 2] (by decide)⟩

/-! ## C3: the node ids are the input ids -/

theorem size_eq_length_ids : ∀ t : tree_node, size t = (ids t).length
  | null => rfl
  | node _ _ l r => by
    simp only [size, ids, List.length_cons, List.length_append,
      size_eq_length_ids l, size_eq_length_ids r]

theorem perm_pivot_partition (a : Nat) (q : Nat → Bool) :
    ∀ l : List Nat, l.Nodup → a ∈ l →
      l.Perm (a :: (l.filter (fun i => decide (i ≠ a) && q i)
        ++ l.filter (fun i => decide (i ≠ a) && !q i)))
  | [], _, h => by cases h
  | b :: t, hnd, hmem => by
    have hnd' := List.nodup_cons.mp hnd
    by_cases hb : b = a
    · subst hb
      have e1 : t.filter (fun i => decide (i ≠ b) && q i) = t.filter q := by
        apply List.filter_congr
        intro x hx
        have : x ≠ b := fun h => hnd'.1 (h ▸ hx)
        simp [this]
      have e2 : t.filter (fun i => decide (i ≠ b) && !q i) = t.filter (fun i => !q i) := by
        apply List.filter_congr
        intro x hx
        have : x ≠ b := fun h => hnd'.1 (h ▸ hx)
        simp [this]
      have h1 : (b :: t).filter (fun i => decide (i ≠ b) && q i) = t.filter q := by
        rw [List.filter_cons_of_neg (by simp), e1]
      have h2 : (b :: t).filter (fun i => decide (i ≠ b) && !q i) = t.filter (fun i => !q i) := by
        rw [List.filter_cons_of_neg (by simp), e2]
      rw [h1, h2]
      exact List.Perm.cons _ (List.filter_append_perm q t).symm
    · have hat : a ∈ t := by
        rcases List.mem_cons.mp hmem with h | h
        · exact absurd h.symm hb
        · exact h
      have ih := perm_pivot_partition a q t hnd'.2 hat
      by_cases hq : q b = true
      · rw [List.filter_cons_of_pos (by simp [hb, hq]), List.filter_cons_of_neg (by simp [hq])]
        exact (List.Perm.cons b ih).trans (List.Perm.swap a b _)
      · rw [List.filter_cons_of_neg (by simp [hq]), List.filter_cons_of_pos (by simp [hb, hq])]
        refine (List.Perm.cons b ih).trans ?_
        refine (List.Perm.swap a b _).trans (List.Perm.cons a ?_)
        exact List.perm_middle.symm

theorem perm_build_parts (datas : Nat → ℚ) (n_features : Nat) (points : List Nat)
    (hne : points ≠ []) (hnd : points.Nodup) :
    points.Perm ((pivot datas n_features points).1
      :: (build_left datas n_features points ++ build_right datas n_features points)) :=
  perm_pivot_partition _ _ points hnd (pivot_mem datas n_features points hne)

theorem build_left_nodup (datas : Nat → ℚ) (n_features : Nat) (points : List Nat)
    (hnd : points.Nodup) : (build_left datas n_features points).Nodup :=
  hnd.filter _

theorem build_right_nodup (datas : Nat → ℚ) (n_features : Nat) (points : List Nat)
    (hnd : points.Nodup) : (build_right datas n_features points).Nodup :=
  hnd.filter _

/-- On a list without repetition the ids of the built tree are a permutation
of the list. -/
theorem BuildTree_ids_perm (datas : Nat → ℚ) (n_features : Nat) (points : List Nat)
    (hne : points ≠ []) (hnd : points.Nodup) :
    ∃ t, BuildTree datas n_features points = some t ∧ (ids t).Perm points := by
  obtain ⟨t, ht, hP⟩ := BuildTree_induct datas n_features
    (fun points t => points.Nodup → (ids t).Perm points) (by
      intro points l r hne hl hr hnd
      have hL : (ids l).Perm (build_left datas n_features points) := by
        split at hl
        · next he => subst hl; rw [he]; exact List.Perm.refl _
        · exact hl (build_left_nodup datas n_features points hnd)
      have hR : (ids r).Perm (build_right datas n_features points) := by
        split at hr
        · next he => subst hr; rw [he]; exact List.Perm.refl _
        · exact hr (build_right_nodup datas n_features points hnd)
      simp only [ids]
      exact (List.Perm.cons _ (hL.append hR)).trans
        (perm_build_parts datas n_features points hne hnd).symm) points hne
  exact ⟨t, ht, hP hnd⟩

theorem BuildTree_singleton (datas : Nat → ℚ) (n_features : Nat) (i : Nat) :
    BuildTree datas n_features [i] = some (node i 0 null null) := by
  simp [BuildTree, BuildTreeAux, FindSplitDim, MidElement, nth_element, left_points,
    right_points]

/-- C3: for every `n_samples ≥ 1` the building constructor succeeds, the ids
stored in the nodes of its tree are a permutation of `[0, n_samples)` (every id
sits in exactly one node), the tree has exactly `n_samples` nodes, and a list of
exactly one point yields a node with no children. -/
theorem BuildTree_stores_each_id_once (datas : Nat → ℚ) (n_samples n_features : Nat)
    (p : Exponent) (hn : 1 ≤ n_samples) :
    (∃ self, KDTree.build datas n_samples n_features p = some self ∧
      BuildTree datas n_features (List.range n_samples) = some self.root ∧
      (ids self.root).Perm (List.range n_samples) ∧
      (ids self.root).Nodup ∧
      size self.root = n_samples) ∧
    ∀ i, BuildTree datas n_features [i] = some (node i 0 null null) := by
  have hne : List.range n_samples ≠ [] := by
    intro h
    have := congrArg List.length h
    simp at this
    omega
  obtain ⟨t, ht, hp⟩ := BuildTree_ids_perm datas n_features (List.range n_samples) hne
    (List.nodup_range n_samples)
  refine ⟨⟨KDTree.wrap t datas n_samples n_features p,
    by simp only [KDTree.build, KDTree.wrap, ht, Option.map_some'], ht, hp, ?_, ?_⟩,
    BuildTree_singleton datas n_features⟩
  · exact hp.nodup_iff.mpr (List.nodup_range n_samples)
  · show size t = n_samples
    rw [size_eq_length_ids, hp.length_eq, List.length_range]

/-- The ids of the tree over the three points (0,0), (1,1), (5,5). -/
theorem BuildTree_stores_each_id_once_witness :
    1 ≤ 3 ∧
    ((∃ self, KDTree.build (memory [0, 0, 1, 1, 5, 5]) 3 2 p_one = some self ∧
      BuildTree (memory [0, 0, 1, 1, 5, 5]) 2 (List.range 3) = some self.root ∧
      (ids self.root).Perm (List.range 3) ∧
      (ids self.root).Nodup ∧
      size self.root = 3) ∧
    ∀ i, BuildTree (memory [0, 0, 1, 1, 5, 5]) 2 [i] = some (node i 0 null null)) :=
  ⟨by decide, BuildTree_stores_each_id_once (memory [0, 0, 1, 1, 5, 5]) 3 2 p_one (by decide)⟩

/-! ## C4: the split dimension -/

theorem foldl_minmax_step (vs : List ℚ) :
    ∀ (mn mx : ℚ), mn ≤ mx →
      vs.foldl minmax_step (mn, mx) = (vs.foldl min mn, vs.foldl max mx) := by
  induction vs with
  | nil => intro mn mx _; rfl
  | cons v vs ih =>
    intro mn mx h
    simp only [List.foldl_cons]
    by_cases h1 : v > mx
    · have e : minmax_step (mn, mx) v = (mn, v) := by simp [minmax_step, h1]
      have hmn : mn ≤ v := le_trans h (le_of_lt h1)
      rw [e, ih mn v hmn, min_eq_left hmn, max_eq_right (le_of_lt h1)]
    · by_cases h2 : v < mn
      · have e : minmax_step (mn, mx) v = (v, mx) := by simp [minmax_step, h1, h2]
        have hmx : v ≤ mx := le_of_not_lt h1
        rw [e, ih v mx hmx, min_eq_right (le_of_lt h2), max_eq_left hmx]
      · have e : minmax_step (mn, mx) v = (mn, mx) := by simp [minmax_step, h1, h2]
        rw [e, ih mn mx h, min_eq_left (le_of_not_lt h2), max_eq_left (le_of_not_lt h1)]

theorem foldl_max_ge (vs : List ℚ) :
    ∀ a : ℚ, a ≤ vs.foldl max a ∧ ∀ x ∈ vs, x ≤ vs.foldl max a := by
  induction vs with
  | nil => intro a; exact ⟨le_refl a, by simp⟩
  | cons v vs ih =>
    intro a
    simp only [List.foldl_cons]
    obtain ⟨h1, h2⟩ := ih (max a v)
    refine ⟨le_trans (le_max_left a v) h1, ?_⟩
    intro x hx
    rcases List.mem_cons.mp hx with rfl | hx
    · exact le_trans (le_max_right a x) h1
    · exact h2 x hx

theorem foldl_min_le (vs : List ℚ) :
    ∀ a : ℚ, vs.foldl min a ≤ a ∧ ∀ x ∈ vs, vs.foldl min a ≤ x := by
  induction vs with
  | nil => intro a; exact ⟨le_refl a, by simp⟩
  | cons v vs ih =>
    intro a
    simp only [List.foldl_cons]
    obtain ⟨h1, h2⟩ := ih (min a v)
    refine ⟨le_trans h1 (min_le_left a v), ?_⟩
    intro x hx
    rcases List.mem_cons.mp hx with rfl | hx
    · exact le_trans h1 (min_le_right a x)
    · exact h2 x hx

theorem foldl_max_mem (vs : List ℚ) :
    ∀ a : ℚ, vs.foldl max a = a ∨ vs.foldl max a ∈ vs := by
  induction vs with
  | nil => intro a; exact Or.inl rfl
  | cons v vs ih =>
    intro a
    simp only [List.foldl_cons]
    rcases ih (max a v) with h | h
    · rcases max_choice a v with h' | h'
      · left; rw [h, h']
      · right; rw [h, h']; exact List.mem_cons_self _ _
    · right; exact List.mem_cons_of_mem _ h

theorem foldl_min_mem (vs : List ℚ) :
    ∀ a : ℚ, vs.foldl min a = a ∨ vs.foldl min a ∈ vs := by
  induction vs with
  | nil => intro a; exact Or.inl rfl
  | cons v vs ih =>
    intro a
    simp only [List.foldl_cons]
    rcases ih (min a v) with h | h
    · rcases min_choice a v with h' | h'
      · left; rw [h, h']
      · right; rw [h, h']; exact List.mem_cons_self _ _
    · right; exact List.mem_cons_of_mem _ h

/-- The quantity `spread` is the largest difference of two values of the list:
no two points differ by more at that dimension, and two points differ by
exactly that much. -/
theorem spread_spec (datas : Nat → ℚ) (n_features : Nat) (points : List Nat) (dim : Nat)
    (hne : points ≠ []) :
    (∀ a ∈ points, ∀ b ∈ points,
      GetDimVal datas n_features a dim - GetDimVal datas n_features b dim
        ≤ spread datas n_features points dim) ∧
    ∃ a ∈ points, ∃ b ∈ points,
      spread datas n_features points dim
        = GetDimVal datas n_features a dim - GetDimVal datas n_features b dim := by
  obtain ⟨i, rest, rfl⟩ := List.exists_cons_of_ne_nil hne
  constructor
  · intro a ha b hb
    have h1 := (foldl_max_ge ((i :: rest).map fun id => GetDimVal datas n_features id dim)
      (GetDimVal datas n_features i dim)).2 _ (List.mem_map_of_mem _ ha)
    have h2 := (foldl_min_le ((i :: rest).map fun id => GetDimVal datas n_features id dim)
      (GetDimVal datas n_features i dim)).2 _ (List.mem_map_of_mem _ hb)
    simp only [spread, List.map_cons, List.headD_cons] at h1 h2 ⊢
    linarith
  · have hmax : ∃ a ∈ i :: rest,
        ((i :: rest).map fun id => GetDimVal datas n_features id dim).foldl max
          (GetDimVal datas n_features i dim) = GetDimVal datas n_features a dim := by
      rcases foldl_max_mem ((i :: rest).map fun id => GetDimVal datas n_features id dim)
        (GetDimVal datas n_features i dim) with h | h
      · exact ⟨i, List.mem_cons_self _ _, h⟩
      · obtain ⟨a, ha, he⟩ := List.mem_map.mp h
        exact ⟨a, ha, he.symm⟩
    have hmin : ∃ b ∈ i :: rest,
        ((i :: rest).map fun id => GetDimVal datas n_features id dim).foldl min
          (GetDimVal datas n_features i dim) = GetDimVal datas n_features b dim := by
      rcases foldl_min_mem ((i :: rest).map fun id => GetDimVal datas n_features id dim)
        (GetDimVal datas n_features i dim) with h | h
      · exact ⟨i, List.mem_cons_self _ _, h⟩
      · obtain ⟨b, hb, he⟩ := List.mem_map.mp h
        exact ⟨b, hb, he.symm⟩
    obtain ⟨a, ha, hea⟩ := hmax
    obtain ⟨b, hb, heb⟩ := hmin
    refine ⟨a, ha, b, hb, ?_⟩
    simp only [spread, List.map_cons, List.headD_cons] at hea heb ⊢
    rw [hea, heb]

theorem spread_nonneg (datas : Nat → ℚ) (n_features : Nat) (points : List Nat) (dim : Nat) :
    0 ≤ spread datas n_features points dim := by
  have h1 := (foldl_max_ge (points.map fun id => GetDimVal datas n_features id dim)
    ((points.map fun id => GetDimVal datas n_features id dim).headD 0)).1
  have h2 := (foldl_min_le (points.map fun id => GetDimVal datas n_features id dim)
    ((points.map fun id => GetDimVal datas n_features id dim).headD 0)).1
  simp only [spread]
  linarith

theorem minmax_spread (datas : Nat → ℚ) (n_features : Nat) (points : List Nat) (dim : Nat)
    (hne : points ≠ []) :
    (minmax datas n_features points dim).2 - (minmax datas n_features points dim).1
      = spread datas n_features points dim := by
  obtain ⟨i, rest, rfl⟩ := List.exists_cons_of_ne_nil hne
  simp only [minmax, spread, List.getD_cons_zero, List.map_cons, List.headD_cons]
  rw [← List.map_cons (fun id => GetDimVal datas n_features id dim) i rest]
  rw [foldl_minmax_step _ _ _ (le_refl _)]

theorem split_step_eq (datas : Nat → ℚ) (n_features : Nat) (points : List Nat)
    (hne : points ≠ []) (best : Nat × ℚ) (dim : Nat) :
    split_step datas n_features points best dim =
      if spread datas n_features points dim > best.2
      then (dim, spread datas n_features points dim) else best := by
  simp only [split_step, minmax_spread datas n_features points dim hne]

theorem split_loop_spec (datas : Nat → ℚ) (n_features : Nat) (points : List Nat)
    (hne : points ≠ []) :
    ∀ m : Nat, 0 < m →
      ((List.range m).foldl (split_step datas n_features points) (0, -1)).1 < m ∧
      ((List.range m).foldl (split_step datas n_features points) (0, -1)).2
        = spread datas n_features points
            ((List.range m).foldl (split_step datas n_features points) (0, -1)).1 ∧
      (∀ d < m, spread datas n_features points d
        ≤ ((List.range m).foldl (split_step datas n_features points) (0, -1)).2) ∧
      (∀ d < ((List.range m).foldl (split_step datas n_features points) (0, -1)).1,
        spread datas n_features points d
          < ((List.range m).foldl (split_step datas n_features points) (0, -1)).2) := by
  intro m
  induction m with
  | zero => intro h; exact absurd h (lt_irrefl 0)
  | succ m ih =>
    intro _
    rw [List.range_succ, List.foldl_append]
    simp only [List.foldl_cons, List.foldl_nil]
    rcases Nat.eq_zero_or_pos m with hm | hm
    · subst hm
      have h0 := spread_nonneg datas n_features points 0
      have e : split_step datas n_features points (0, -1) 0
          = (0, spread datas n_features points 0) := by
        rw [split_step_eq datas n_features points hne]
        have : spread datas n_features points 0 > (-1 : ℚ) := by linarith
        simp [this]
      simp only [List.range_zero, List.foldl_nil, e]
      refine ⟨by omega, trivial, ?_, ?_⟩
      · intro d hd
        have : d = 0 := by omega
        subst this; exact le_refl _
      · intro d hd; omega
    · obtain ⟨h1, h2, h3, h4⟩ := ih hm
      generalize (List.range m).foldl (split_step datas n_features points) (0, -1) = best
        at h1 h2 h3 h4
      rw [split_step_eq datas n_features points hne]
      by_cases hgt : spread datas n_features points m > best.2
      · simp only [hgt, if_true]
        refine ⟨by omega, trivial, ?_, ?_⟩
        · intro d hd
          rcases Nat.lt_succ_iff_lt_or_eq.mp hd with h | h
          · exact le_trans (h3 d h) (le_of_lt hgt)
          · subst h; exact le_refl _
        · intro d hd
          exact lt_of_le_of_lt (h3 d hd) hgt
      · simp only [hgt, if_false]
        refine ⟨by omega, h2, ?_, h4⟩
        intro d hd
        rcases Nat.lt_succ_iff_lt_or_eq.mp hd with h | h
        · exact h3 d h
        · subst h; exact le_of_not_lt hgt

theorem nth_element_sorted (buf : List neighbor) : (nth_element buf).Sorted mid_cmp :=
  List.sorted_insertionSort mid_cmp buf

theorem nth_element_values_sorted (buf : List neighbor) :
    ((nth_element buf).map Prod.snd).Sorted (· ≤ ·) := by
  have h := nth_element_sorted buf
  exact List.pairwise_map.mpr h

/-- C5: for every non-empty list of point ids of length `len` and every
dimension `dim`, `MidElement` returns a pair `(id, v)` where `id` is a member
of the list, `v` is the value of point `id` at `dim`, and `v` is the element at
index `len / 2` of the list's values at `dim` arranged in non-decreasing
order (of every such arrangement). -/
theorem MidElement_is_median (datas : Nat → ℚ) (n_features : Nat) (points : List Nat)
    (dim : Nat) (hne : points ≠ []) :
    (MidElement datas n_features points dim).1 ∈ points ∧
    (MidElement datas n_features points dim).2
      = GetDimVal datas n_features (MidElement datas n_features points dim).1 dim ∧
    ∀ sorted : List ℚ,
      sorted.Perm (points.map fun i => GetDimVal datas n_features i dim) →
      sorted.Sorted (· ≤ ·) →
      sorted.get? (points.length / 2) = some (MidElement datas n_features points dim).2 := by
  refine ⟨MidElement_mem datas n_features points dim hne,
    MidElement_val datas n_features points dim hne, ?_⟩
  intro sorted hperm hsorted
  have hp2 : ((nth_element (points.map fun i => (i, GetDimVal datas n_features i dim))).map
      Prod.snd).Perm (points.map fun i => GetDimVal datas n_features i dim) := by
    have := (nth_element_perm (points.map fun i => (i, GetDimVal datas n_features i dim))).map
      Prod.snd
    simpa [List.map_map, Function.comp] using this
  have heq : sorted = (nth_element (points.map fun i => (i, GetDimVal datas n_features i dim))).map
      Prod.snd :=
    List.eq_of_perm_of_sorted (hperm.trans hp2.symm) hsorted (nth_element_values_sorted _)
  have hlt : points.length / 2 <
      (nth_element (points.map fun i => (i, GetDimVal datas n_features i dim))).length := by
    rw [nth_element_length, List.length_map]
    exact Nat.div_lt_self (List.length_pos.mpr hne) (by norm_num)
  rw [heq]
  unfold MidElement
  simp only []
  rw [List.getD_eq_getElem _ _ hlt, List.get?_eq_getElem?, List.getElem?_map,
    List.getElem?_eq_getElem hlt]
  rfl

/-- The values 5, 7, 0: the median position 1 holds the value 5 of point 0. -/
theorem MidElement_is_median_witness :
    [0, 1, 2] ≠ [] ∧ MidElement (memory [5, 7, 0]) 1 [0, 1, 2] 0 = (0, 5) ∧
    ((MidElement (memory [5, 7, 0]) 1 [0, 1, 2] 0).1 ∈ [0, 1, 2] ∧
    (MidElement (memory [5, 7, 0]) 1 [0, 1, 2] 0).2
      = GetDimVal (memory [5, 7, 0]) 1 (MidElement (memory [5, 7, 0]) 1 [0, 1, 2] 0).1 0 ∧
    ∀ sorted : List ℚ,
      sorted.Perm ([0, 1, 2].map fun i => GetDimVal (memory [5, 7, 0]) 1 i 0) →
      sorted.Sorted (· ≤ ·) →
      sorted.get? ([0, 1, 2].length / 2) = some (MidElement (memory [5, 7, 0]) 1 [0, 1, 2] 0).2) :=
  ⟨by decide, by decide!, MidElement_is_median (memory [5, 7, 0]) 1 [0, 1, 2] 0 (by decide)⟩

/-! ## The candidate heap -/

theorem heap_push_sorted (h : List neighbor) (t : neighbor) (hs : h.Sorted heap_order) :
    (heap_push h t).Sorted heap_order :=
  List.Sorted.orderedInsert t h hs

theorem heap_push_perm (h : List neighbor) (t : neighbor) : (heap_push h t).Perm (t :: h) :=
  List.perm_orderedInsert heap_order t h

theorem mem_heap_push {h : List neighbor} {t e : neighbor} :
    e ∈ heap_push h t ↔ e = t ∨ e ∈ h := by
  rw [(heap_push_perm h t).mem_iff, List.mem_cons]

theorem heap_push_length (h : List neighbor) (t : neighbor) :
    (heap_push h t).length = h.length + 1 :=
  List.orderedInsert_length heap_order h t

theorem Settled_of_visit {d : Nat → ℚ} {k : Nat} {ok : Nat → Prop} {h : List neighbor}
    {v : Nat → Bool} (id : Nat) (hk1 : 1 ≤ k) (hinv : HeapInv d k ok h v) {i : Nat}
    (hi : Settled d k h i) :
    Settled d k (visit k id (d id) h) i := by
  have hs := hinv.sorted
  have hlen := hinv.len
  unfold visit
  by_cases h1 : h.length < k
  · rw [if_pos h1]
    rcases hi with hi | ⟨hk, _⟩
    · left
      obtain ⟨e, he, rfl⟩ := List.mem_map.mp hi
      exact List.mem_map.mpr ⟨e, mem_heap_push.mpr (Or.inr he), rfl⟩
    · omega
  · rw [if_neg h1]
    by_cases h2 : d id < (heap_top h).2
    · rw [if_pos h2]
      cases h with
      | nil => simp only [List.length_nil] at h1; omega
      | cons top rest =>
        have hk : (top :: rest).length = k := by omega
        have hrest : ∀ e ∈ rest, e.2 ≤ top.2 := fun e he => List.rel_of_sorted_cons hs e he
        simp only [heap_top, List.headD_cons] at h2
        simp only [heap_pop, List.tail_cons]
        have hall : ∀ x : ℚ, top.2 ≤ x → ∀ e ∈ heap_push rest (id, d id), e.2 ≤ x := by
          intro x hx e he
          rcases mem_heap_push.mp he with rfl | he
          · exact le_trans (le_of_lt h2) hx
          · exact le_trans (hrest e he) hx
        have hlen' : (heap_push rest (id, d id)).length = k := by
          rw [heap_push_length]; simpa using hk
        rcases hi with hi | ⟨_, hi⟩
        · obtain ⟨e, he, rfl⟩ := List.mem_map.mp hi
          rcases List.mem_cons.mp he with rfl | he
          · right
            refine ⟨hlen', hall _ ?_⟩
            exact le_of_eq (hinv.entry e (List.mem_cons_self _ _)).2.1
          · left
            exact List.mem_map.mpr ⟨e, mem_heap_push.mpr (Or.inr he), rfl⟩
        · right
          exact ⟨hlen', hall _ (hi top (List.mem_cons_self _ _))⟩
    · rw [if_neg h2]; exact hi

theorem Settled_visit_self {d : Nat → ℚ} {k : Nat} {ok : Nat → Prop} {h : List neighbor}
    {v : Nat → Bool} (id : Nat) (hinv : HeapInv d k ok h v) :
    Settled d k (visit k id (d id) h) id := by
  have hs := hinv.sorted
  have hlen := hinv.len
  unfold visit
  by_cases h1 : h.length < k
  · rw [if_pos h1]
    left
    exact List.mem_map.mpr ⟨(id, d id), mem_heap_push.mpr (Or.inl rfl), rfl⟩
  · rw [if_neg h1]
    by_cases h2 : d id < (heap_top h).2
    · rw [if_pos h2]
      left
      exact List.mem_map.mpr ⟨(id, d id), mem_heap_push.mpr (Or.inl rfl), rfl⟩
    · rw [if_neg h2]
      right
      refine ⟨by omega, ?_⟩
      cases h with
      | nil => simp
      | cons top rest =>
        simp only [heap_top, List.headD_cons] at h2
        intro e he
        rcases List.mem_cons.mp he with rfl | he
        · exact le_of_not_lt h2
        · exact le_trans (List.rel_of_sorted_cons hs e he) (le_of_not_lt h2)

theorem HeapInv_visit {d : Nat → ℚ} {k : Nat} {ok : Nat → Prop} {h : List neighbor}
    {v : Nat → Bool} (id : Nat) (hk1 : 1 ≤ k) (hinv : HeapInv d k ok h v)
    (hok : ok id) (hv : v id = false) :
    HeapInv d k ok (visit k id (d id) h) (Function.update v id true) := by
  have hnotin : id ∉ h.map Prod.fst := by
    intro hmem
    obtain ⟨e, he, rfl⟩ := List.mem_map.mp hmem
    have := (hinv.entry e he).1
    rw [hv] at this
    cases this
  have hupd : ∀ j, v j = true → Function.update v id true j = true := by
    intro j hj
    by_cases hji : j = id
    · subst hji; simp
    · rw [Function.update_noteq hji]; exact hj
  have hsettled : ∀ i, ok i → Function.update v id true i = true →
      Settled d k (visit k id (d id) h) i := by
    intro i hoki hvi
    by_cases hii : i = id
    · subst hii; exact Settled_visit_self i hinv
    · rw [Function.update_noteq hii] at hvi
      exact Settled_of_visit id hk1 hinv (hinv.settled i hoki hvi)
  have hpush : ∀ h' : List neighbor, h'.Sorted heap_order → h'.length + 1 ≤ k →
      (h'.map Prod.fst).Nodup → id ∉ h'.map Prod.fst →
      (∀ e ∈ h', v e.1 = true ∧ e.2 = d e.1 ∧ ok e.1) →
      (heap_push h' (id, d id)).Sorted heap_order ∧ (heap_push h' (id, d id)).length ≤ k ∧
      ((heap_push h' (id, d id)).map Prod.fst).Nodup ∧
      ∀ e ∈ heap_push h' (id, d id),
        Function.update v id true e.1 = true ∧ e.2 = d e.1 ∧ ok e.1 := by
    intro h' hs' hl' hnd' hni' hent'
    refine ⟨heap_push_sorted h' _ hs', by rw [heap_push_length]; exact hl', ?_, ?_⟩
    · have hp := (heap_push_perm h' (id, d id)).map Prod.fst
      rw [hp.nodup_iff, List.map_cons]
      exact List.nodup_cons.mpr ⟨hni', hnd'⟩
    · intro e he
      rcases mem_heap_push.mp he with rfl | he
      · exact ⟨by simp, rfl, hok⟩
      · obtain ⟨a, b, c⟩ := hent' e he
        exact ⟨hupd _ a, b, c⟩
  by_cases h1 : h.length < k
  · obtain ⟨a, b, c, e⟩ := hpush h hinv.sorted (by omega) hinv.nodup hnotin hinv.entry
    have hvis : visit k id (d id) h = heap_push h (id, d id) := by simp [visit, h1]
    refine ⟨?_, ?_, ?_, ?_, hsettled⟩
    · rw [hvis]; exact a
    · rw [hvis]; exact b
    · rw [hvis]; exact c
    · rw [hvis]; exact e
  · by_cases h2 : d id < (heap_top h).2
    · have hvis : visit k id (d id) h = heap_push (heap_pop h) (id, d id) := by
        simp [visit, h1, h2]
      cases h with
      | nil => simp only [List.length_nil] at h1; omega
      | cons top rest =>
        have hlen := hinv.len
        simp only [List.length_cons] at hlen
        have hnd := hinv.nodup
        simp only [List.map_cons] at hnd hnotin
        obtain ⟨a, b, c, e⟩ := hpush rest hinv.sorted.of_cons (by omega)
          (List.nodup_cons.mp hnd).2 (fun hm => hnotin (List.mem_cons_of_mem _ hm))
          (fun e he => hinv.entry e (List.mem_cons_of_mem _ he))
        simp only [heap_pop, List.tail_cons] at hvis
        refine ⟨?_, ?_, ?_, ?_, hsettled⟩
        · rw [hvis]; exact a
        · rw [hvis]; exact b
        · rw [hvis]; exact c
        · rw [hvis]; exact e
    · have hvis : visit k id (d id) h = h := by simp [visit, h1, h2]
      refine ⟨?_, ?_, ?_, ?_, hsettled⟩
      · rw [hvis]; exact hinv.sorted
      · rw [hvis]; exact hinv.len
      · rw [hvis]; exact hinv.nodup
      · rw [hvis]
        intro e he
        obtain ⟨a, b, c⟩ := hinv.entry e he
        exact ⟨hupd _ a, b, c⟩

/-! ## Trees: nodes and ids -/

theorem mem_nodes_ne_null : ∀ {root t : tree_node}, t ∈ nodes root → t ≠ null
  | null, _, h => by simp [nodes] at h
  | node id s l r, t, h => by
    simp only [nodes, List.mem_cons, List.mem_append] at h
    rcases h with h | h | h
    · rw [h]; exact fun hc => by cases hc
    · exact mem_nodes_ne_null h
    · exact mem_nodes_ne_null h

theorem mem_nodes_self : ∀ {t : tree_node}, t ≠ null → t ∈ nodes t
  | null, h => absurd rfl h
  | node _ _ _ _, _ => List.mem_cons_self _ _

theorem nodes_trans : ∀ {root t u : tree_node}, t ∈ nodes root → u ∈ nodes t → u ∈ nodes root
  | null, _, _, h, _ => by simp [nodes] at h
  | node id s l r, t, u, h, hu => by
    simp only [nodes, List.mem_cons, List.mem_append] at h
    rcases h with h | h | h
    · rw [h] at hu; exact hu
    · have := nodes_trans h hu
      simp only [nodes, List.mem_cons, List.mem_append]
      exact Or.inr (Or.inl this)
    · have := nodes_trans h hu
      simp only [nodes, List.mem_cons, List.mem_append]
      exact Or.inr (Or.inr this)

theorem mem_nodes_left {root : tree_node} {id s : Nat} {l r : tree_node}
    (h : node id s l r ∈ nodes root) (hl : l ≠ null) : l ∈ nodes root :=
  nodes_trans h (by
    simp only [nodes, List.mem_cons, List.mem_append]
    exact Or.inr (Or.inl (mem_nodes_self hl)))

theorem mem_nodes_right {root : tree_node} {id s : Nat} {l r : tree_node}
    (h : node id s l r ∈ nodes root) (hr : r ≠ null) : r ∈ nodes root :=
  nodes_trans h (by
    simp only [nodes, List.mem_cons, List.mem_append]
    exact Or.inr (Or.inr (mem_nodes_self hr)))

theorem ids_subset_of_mem_nodes : ∀ {root t : tree_node}, t ∈ nodes root →
    ∀ i ∈ ids t, i ∈ ids root
  | null, _, h => by simp [nodes] at h
  | node id s l r, t, h => by
    intro i hi
    simp only [nodes, List.mem_cons, List.mem_append] at h
    simp only [ids, List.mem_cons, List.mem_append]
    rcases h with h | h | h
    · rw [h] at hi
      simpa only [ids, List.mem_cons, List.mem_append] using hi
    · exact Or.inr (Or.inl (ids_subset_of_mem_nodes h i hi))
    · exact Or.inr (Or.inr (ids_subset_of_mem_nodes h i hi))

theorem id_mem_ids : ∀ {t : tree_node}, t ≠ null → t.id ∈ ids t
  | null, h => absurd rfl h
  | node _ _ _ _, _ => List.mem_cons_self _ _

theorem id_mem_ids_of_mem_nodes {root t : tree_node} (h : t ∈ nodes root) : t.id ∈ ids root :=
  ids_subset_of_mem_nodes h _ (id_mem_ids (mem_nodes_ne_null h))

theorem isNull_eq_false {t : tree_node} (h : t ≠ null) : t.isNull = false := by
  cases t with
  | null => exact absurd rfl h
  | node _ _ _ _ => rfl

theorem ne_null_of_isNull {t : tree_node} (h : t.isNull = false) : t ≠ null := by
  intro hc; subst hc; cases h

theorem size_pos_of_ne_null : ∀ {t : tree_node}, t ≠ null → 0 < size t
  | null, h => absurd rfl h
  | node _ _ _ _, _ => Nat.succ_pos _

/-! ## One call of `HeapStackPush` -/

theorem SameModel_refl (a : KDTree) : SameModel a a := ⟨rfl, rfl, rfl, rfl, rfl⟩

theorem GetDist_congr {a b : KDTree} (h : SameModel a b) (i : Nat) (coor : Nat → ℚ) :
    GetDist a i coor = GetDist b i coor := by
  obtain ⟨h1, _, h3, _, h5⟩ := h
  simp only [GetDist, h1, h3, h5]

theorem Later_refl (d : Nat → ℚ) (k : Nat) (a : KDTree) : Later d k a a :=
  ⟨fun _ h => h, fun _ h => h, le_refl _⟩

theorem Later_trans {d : Nat → ℚ} {k : Nat} {a b c : KDTree} (h1 : Later d k a b)
    (h2 : Later d k b c) : Later d k a c :=
  ⟨fun i h => h2.1 i (h1.1 i h), fun i h => h2.2.1 i (h1.2.1 i h), le_trans h1.2.2 h2.2.2⟩

theorem visit_length_le (k : Nat) (id : Nat) (dist : ℚ) (h : List neighbor) (hk1 : 1 ≤ k) :
    h.length ≤ (visit k id dist h).length := by
  unfold visit
  split_ifs with h1 h2
  · rw [heap_push_length]; omega
  · cases h with
    | nil => simp only [List.length_nil] at h1; omega
    | cons top rest => simp only [heap_pop, List.tail_cons, heap_push_length, List.length_cons,
        le_refl]
  · exact le_refl _

theorem HeapStackPush_eq (self : KDTree) (paths : List tree_node) (node : tree_node)
    (coor : Nat → ℚ) (k : Nat) :
    HeapStackPush self paths node coor k =
      if self.visited_buf_ node.id = true then (self, node :: paths)
      else ({ self with
                visited_buf_ := Function.update self.visited_buf_ node.id true,
                k_neighbor_heap_ :=
                  visit k node.id (GetDist self node.id coor) self.k_neighbor_heap_ },
            node :: paths) := by
  have hg : ∀ v : Nat → Bool,
      GetDist { self with visited_buf_ := v } node.id coor = GetDist self node.id coor :=
    fun _ => rfl
  unfold HeapStackPush visit
  simp only [hg]
  split_ifs <;> rfl

theorem HeapStackPush_paths (self : KDTree) (paths : List tree_node) (node : tree_node)
    (coor : Nat → ℚ) (k : Nat) :
    (HeapStackPush self paths node coor k).2 = node :: paths := by
  rw [HeapStackPush_eq]
  split_ifs <;> rfl

/-- One call of `HeapStackPush` on a node of the tree keeps the invariant and
moves the search state forward. -/
theorem SearchInv_HeapStackPush {self0 : KDTree} {coor : Nat → ℚ} {k : Nat} (self : KDTree)
    (paths : List tree_node) {node : tree_node} (hk1 : 1 ≤ k)
    (hlt : ∀ i ∈ ids self0.root, i < self0.n_samples)
    (hinv : SearchInv self0 coor k (self, paths)) (hmem : node ∈ nodes self0.root) :
    SearchInv self0 coor k (HeapStackPush self paths node coor k) ∧
    Later (fun i => GetDist self0 i coor) k self (HeapStackPush self paths node coor k).1 := by
  have hid := id_mem_ids_of_mem_nodes hmem
  rw [HeapStackPush_eq]
  by_cases hv : self.visited_buf_ node.id = true
  · rw [if_pos hv]
    refine ⟨⟨hinv.model, hinv.heap, ?_, hinv.frame⟩, Later_refl _ _ _⟩
    intro t ht
    rcases List.mem_cons.mp ht with rfl | ht
    · exact ⟨hmem, hv⟩
    · exact hinv.stack t ht
  · rw [if_neg hv]
    have hvf : self.visited_buf_ node.id = false := by simpa using hv
    have hd : GetDist self node.id coor = GetDist self0 node.id coor :=
      (GetDist_congr hinv.model node.id coor).symm
    rw [hd]
    have hheap := HeapInv_visit (d := fun i => GetDist self0 i coor) node.id hk1 hinv.heap hid hvf
    have hupd : ∀ j, self.visited_buf_ j = true →
        Function.update self.visited_buf_ node.id true j = true := by
      intro j hj
      by_cases hji : j = node.id
      · rw [hji]; simp
      · rw [Function.update_noteq hji]; exact hj
    refine ⟨⟨hinv.model, hheap, ?_, ?_⟩, ?_, hupd, visit_length_le _ _ _ _ hk1⟩
    · intro t ht
      rcases List.mem_cons.mp ht with rfl | ht
      · exact ⟨hmem, by simp⟩
      · exact ⟨(hinv.stack t ht).1, hupd _ (hinv.stack t ht).2⟩
    · intro i hi
      have hne : i ≠ node.id := by
        intro hc
        have := hlt _ hid
        omega
      show Function.update self.visited_buf_ node.id true i = _
      rw [Function.update_noteq hne]
      exact hinv.frame i hi
    · intro i hi
      exact Settled_of_visit (d := fun i => GetDist self0 i coor) node.id hk1 hinv.heap hi

theorem SearchInv_push_if {self0 : KDTree} {coor : Nat → ℚ} {k : Nat}
    {st : KDTree × List tree_node} (c : Bool) (node : tree_node) (hk1 : 1 ≤ k)
    (hlt : ∀ i ∈ ids self0.root, i < self0.n_samples)
    (hinv : SearchInv self0 coor k st) (hmem : c = true → node ∈ nodes self0.root) :
    SearchInv self0 coor k (push_if c st node coor k) ∧
    Later (fun i => GetDist self0 i coor) k st.1 (push_if c st node coor k).1 ∧
    (push_if c st node coor k).2 = if c = true then node :: st.2 else st.2 := by
  unfold push_if
  cases c with
  | true =>
    simp only [if_true]
    obtain ⟨h1, h2⟩ := SearchInv_HeapStackPush st.1 st.2 hk1 hlt hinv
      (hmem rfl)
    exact ⟨h1, h2, HeapStackPush_paths _ _ _ _ _⟩
  | false =>
    exact ⟨hinv, Later_refl _ _ _, rfl⟩

/-! ## One iteration of the backtracking loop -/

/-- The shape of one iteration: a leaf changes nothing; otherwise the two
children are handed to two guarded calls of `HeapStackPush`, the first guarded
by its pointer alone, the second skipped only when it is null or pruned. -/
theorem backtrack_step_cases (coor : Nat → ℚ) (k : Nat) (p : tree_node)
    (st : KDTree × List tree_node) :
    (p.left.isNull = true ∧ p.right.isNull = true ∧ backtrack_step coor k p st = st) ∨
    ∃ (c1 c2 : Bool) (a b : tree_node),
      backtrack_step coor k p st = push_if c2 (push_if c1 st a coor k) b coor k ∧
      ((a = p.left ∧ b = p.right) ∨ (a = p.right ∧ b = p.left)) ∧
      c1 = !a.isNull ∧ (c2 = true → b.isNull = false) ∧
      (c2 = false → b.isNull = true ∨ FarPruned st.1 coor k p b) := by
  unfold backtrack_step
  by_cases hleaf : (p.left.isNull && p.right.isNull) = true
  · left
    rw [if_pos hleaf]
    simp only [Bool.and_eq_true] at hleaf
    exact ⟨hleaf.1, hleaf.2, rfl⟩
  · right
    rw [if_neg hleaf]
    by_cases hlen : st.1.k_neighbor_heap_.length < k
    · rw [if_pos hlen]
      refine ⟨!p.left.isNull, !p.right.isNull, p.left, p.right, rfl, Or.inl ⟨rfl, rfl⟩, rfl,
        ?_, ?_⟩
      · intro h; simpa using h
      · intro h; left; simpa using h
    · rw [if_neg hlen]
      simp only []
      by_cases hgt : coor p.split > GetDimVal st.1.datas st.1.n_features p.id p.split
      · rw [if_pos hgt]
        refine ⟨!p.right.isNull, _, p.right, p.left, rfl, Or.inr ⟨rfl, rfl⟩, rfl, ?_, ?_⟩
        · intro h
          simp only [Bool.and_eq_true, Bool.not_eq_true', decide_eq_true_eq] at h
          exact h.2
        · intro h
          simp only [Bool.and_eq_false_iff, Bool.not_eq_false', decide_eq_false_iff_not,
            not_lt] at h
          rcases h with h | h
          · right
            exact ⟨hlen, Or.inl ⟨rfl, hgt, h⟩⟩
          · left; exact h
      · rw [if_neg hgt]
        refine ⟨!p.left.isNull, _, p.left, p.right, rfl, Or.inl ⟨rfl, rfl⟩, rfl, ?_, ?_⟩
        · intro h
          simp only [Bool.and_eq_true, Bool.not_eq_true', decide_eq_true_eq] at h
          exact h.2
        · intro h
          simp only [Bool.and_eq_false_iff, Bool.not_eq_false', decide_eq_false_iff_not,
            not_lt] at h
          rcases h with h | h
          · right
            exact ⟨hlen, Or.inr ⟨rfl, le_of_not_lt hgt, h⟩⟩
          · left; exact h

theorem Cov_of_mem {sd : Nat → Prop} {paths : List tree_node} {t : tree_node}
    (h : t ∈ paths) : Cov sd paths t := by
  cases t with
  | null => trivial
  | node id s l r => exact Or.inl h

theorem Cov_of_all_settled {sd : Nat → Prop} {paths : List tree_node} :
    ∀ {t : tree_node}, (∀ i ∈ ids t, sd i) → Cov sd paths t
  | null, _ => trivial
  | node id s l r, h => by
    refine Or.inr ⟨h id (List.mem_cons_self _ _), ?_, ?_⟩
    · exact Cov_of_all_settled fun i hi =>
        h i (List.mem_cons_of_mem _ (List.mem_append_left _ hi))
    · exact Cov_of_all_settled fun i hi =>
        h i (List.mem_cons_of_mem _ (List.mem_append_right _ hi))

theorem Cov_mono {sd sd' : Nat → Prop} {paths paths' : List tree_node}
    (hsd : ∀ i, sd i → sd' i) (hp : ∀ x ∈ paths, Cov sd' paths' x) :
    ∀ {t : tree_node}, Cov sd paths t → Cov sd' paths' t
  | null, _ => trivial
  | node id s l r, h => by
    rcases h with h | ⟨h1, h2, h3⟩
    · exact hp _ h
    · exact Or.inr ⟨hsd id h1, Cov_mono hsd hp h2, Cov_mono hsd hp h3⟩

theorem Cov_nil {sd : Nat → Prop} : ∀ {t : tree_node}, Cov sd [] t → ∀ i ∈ ids t, sd i
  | null, _ => by simp [ids]
  | node id s l r, h => by
    rcases h with h | ⟨h1, h2, h3⟩
    · cases h
    · intro i hi
      simp only [ids, List.mem_cons, List.mem_append] at hi
      rcases hi with rfl | hi | hi
      · exact h1
      · exact Cov_nil h2 i hi
      · exact Cov_nil h3 i hi

theorem paths_weight_cons (t : tree_node) (paths : List tree_node) :
    paths_weight (t :: paths) = size t + paths_weight paths := by
  simp [paths_weight]

theorem SearchInv_pop {self0 self : KDTree} {coor : Nat → ℚ} {k : Nat} {p : tree_node}
    {paths : List tree_node} (hinv : SearchInv self0 coor k (self, p :: paths)) :
    SearchInv self0 coor k (self, paths) :=
  ⟨hinv.model, hinv.heap, fun t ht => hinv.stack t (List.mem_cons_of_mem _ ht), hinv.frame⟩

/-- A pruned far subtree holds no point that is closer to the query than a
candidate of the (full) heap. -/
theorem FarPruned_settled {self0 self : KDTree} {coor : Nat → ℚ} {k : Nat}
    {paths : List tree_node} {p b : tree_node}
    (hinv : SearchInv self0 coor k (self, paths)) (hp : p ∈ nodes self0.root)
    (hkd : KdInv self0.datas self0.n_features self0.root) (hdom : Dominates self0 coor)
    (hfar : FarPruned self coor k p b) :
    ∀ i ∈ ids b, Settled (fun i => GetDist self0 i coor) k self.k_neighbor_heap_ i := by
  obtain ⟨_, _, hdatas, _, hnf⟩ := hinv.model
  obtain ⟨hfull, hside⟩ := hfar
  have hlen : self.k_neighbor_heap_.length = k := by
    have h1 : self.k_neighbor_heap_.length ≤ k := hinv.heap.len
    omega
  have htop : ∀ e ∈ self.k_neighbor_heap_, e.2 ≤ (heap_top self.k_neighbor_heap_).2 := by
    have hs := hinv.heap.sorted
    intro e he
    cases hh : self.k_neighbor_heap_ with
    | nil => rw [hh] at he; cases he
    | cons top rest =>
      rw [hh] at he hs
      simp only [heap_top, List.headD_cons]
      rcases List.mem_cons.mp he with rfl | he
      · exact le_refl _
      · exact List.rel_of_sorted_cons hs e he
  cases p with
  | null => exact absurd rfl (mem_nodes_ne_null hp)
  | node id s l r =>
    obtain ⟨hl, hr⟩ := KdInv_nodes hkd id s l r hp
    have hsub := ids_subset_of_mem_nodes hp
    intro i hi
    right
    refine ⟨hlen, fun e he => le_trans (htop e he) ?_⟩
    simp only [tree_node.left, tree_node.right, tree_node.split, tree_node.id] at hside
    rw [← hdatas, ← hnf] at hside
    rcases hside with ⟨rfl, _, hle⟩ | ⟨rfl, _, hle⟩
    · have hmem : i ∈ ids (node id s b r) := by
        simp only [ids, List.mem_cons, List.mem_append]; exact Or.inr (Or.inl hi)
      have h1 := hl i hi
      have h2 := hdom _ hp i (hsub i hmem)
      simp only [tree_node.split] at h2
      have h3 := neg_abs_le (GetDimVal self0.datas self0.n_features i s - coor s)
      show _ ≤ GetDist self0 i coor
      linarith
    · have hmem : i ∈ ids (node id s l b) := by
        simp only [ids, List.mem_cons, List.mem_append]; exact Or.inr (Or.inr hi)
      have h1 := hr i hi
      have h2 := hdom _ hp i (hsub i hmem)
      simp only [tree_node.split] at h2
      have h3 := le_abs_self (GetDimVal self0.datas self0.n_features i s - coor s)
      show _ ≤ GetDist self0 i coor
      linarith

/-- Coverage passes through one iteration: the popped node is replaced by
children that are pushed, absent, or made of points the later state accepts. -/
theorem Cov_step {sd sd' : Nat → Prop} {paths paths' : List tree_node} {id s : Nat}
    {l r : tree_node} (hmono : ∀ i, sd i → sd' i) (hid : sd' id)
    (hsub : ∀ x ∈ paths, x ∈ paths')
    (hl : l = null ∨ l ∈ paths' ∨ ∀ i ∈ ids l, sd' i)
    (hr : r = null ∨ r ∈ paths' ∨ ∀ i ∈ ids r, sd' i) {t : tree_node}
    (ht : Cov sd (node id s l r :: paths) t) : Cov sd' paths' t := by
  have hchild : ∀ c : tree_node, (c = null ∨ c ∈ paths' ∨ ∀ i ∈ ids c, sd' i) →
      Cov sd' paths' c := by
    intro c hc
    rcases hc with rfl | hc | hc
    · trivial
    · exact Cov_of_mem hc
    · exact Cov_of_all_settled hc
  refine Cov_mono hmono ?_ ht
  intro x hx
  rcases List.mem_cons.mp hx with rfl | hx
  · exact Or.inr ⟨hid, hchild l hl, hchild r hr⟩
  · exact Cov_of_mem (hsub x hx)

/-- One iteration of the backtracking loop keeps the invariant, moves the
state forward, shrinks the weight of the path stack, keeps the rest of the
stack, and leaves each child of the popped node null, pushed or pruned. -/
theorem backtrack_step_spec {self0 self : KDTree} {coor : Nat → ℚ} {k : Nat} {p : tree_node}
    {paths : List tree_node} (hk1 : 1 ≤ k)
    (hlt : ∀ i ∈ ids self0.root, i < self0.n_samples)
    (hinv : SearchInv self0 coor k (self, p :: paths)) :
    SearchInv self0 coor k (backtrack_step coor k p (self, paths)) ∧
    Later (fun i => GetDist self0 i coor) k self (backtrack_step coor k p (self, paths)).1 ∧
    paths_weight (backtrack_step coor k p (self, paths)).2 < paths_weight (p :: paths) ∧
    (∀ x ∈ paths, x ∈ (backtrack_step coor k p (self, paths)).2) ∧
    (∀ c, c = p.left ∨ c = p.right →
      c = null ∨ c ∈ (backtrack_step coor k p (self, paths)).2 ∨ FarPruned self coor k p c) := by
  have hinv0 := (SearchInv_pop hinv)
  obtain ⟨hp, _⟩ := hinv.stack p (List.mem_cons_self _ _)
  have hpos := size_pos_of_ne_null (mem_nodes_ne_null hp)
  rcases backtrack_step_cases coor k p (self, paths) with
    ⟨hl, hr, he⟩ | ⟨c1, c2, a, b, he, hab, hc1, hc2t, hc2f⟩
  · rw [he]
    refine ⟨hinv0, Later_refl _ _ _, ?_, fun x hx => hx, ?_⟩
    · rw [paths_weight_cons]; show paths_weight paths < _; omega
    · intro c hc
      left
      rcases hc with rfl | rfl
      · cases hh : p.left with
        | null => rfl
        | node _ _ _ _ => rw [hh] at hl; cases hl
      · cases hh : p.right with
        | null => rfl
        | node _ _ _ _ => rw [hh] at hr; cases hr
  · rw [he]
    have hsize : size p = size p.left + size p.right + 1 := by
      cases p with
      | null => exact absurd rfl (mem_nodes_ne_null hp)
      | node _ _ _ _ => rfl
    have hmem_child : ∀ c : tree_node, (c = p.left ∨ c = p.right) → c.isNull = false →
        c ∈ nodes self0.root := by
      intro c hc hn
      cases p with
      | null => exact absurd rfl (mem_nodes_ne_null hp)
      | node id s l r =>
        rcases hc with rfl | rfl
        · exact mem_nodes_left hp (ne_null_of_isNull hn)
        · exact mem_nodes_right hp (ne_null_of_isNull hn)
    have ha : a = p.left ∨ a = p.right := by
      rcases hab with ⟨h, _⟩ | ⟨h, _⟩
      · exact Or.inl h
      · exact Or.inr h
    have hb : b = p.left ∨ b = p.right := by
      rcases hab with ⟨_, h⟩ | ⟨_, h⟩
      · exact Or.inr h
      · exact Or.inl h
    have hsum : size a + size b = size p.left + size p.right := by
      rcases hab with ⟨h1, h2⟩ | ⟨h1, h2⟩
      · rw [h1, h2]
      · rw [h1, h2]; omega
    obtain ⟨inv1, lat1, p1⟩ := SearchInv_push_if c1 a hk1 hlt hinv0
      (fun h => hmem_child a ha (by rw [hc1] at h; simpa using h))
    obtain ⟨inv2, lat2, p2⟩ := SearchInv_push_if c2 b hk1 hlt inv1
      (fun h => hmem_child b hb (hc2t h))
    have hsub1 : ∀ x ∈ paths, x ∈ (push_if c1 (self, paths) a coor k).2 := by
      intro x hx; rw [p1]; split_ifs
      · exact List.mem_cons_of_mem _ hx
      · exact hx
    have hsub2 : ∀ x ∈ (push_if c1 (self, paths) a coor k).2,
        x ∈ (push_if c2 (push_if c1 (self, paths) a coor k) b coor k).2 := by
      intro x hx; rw [p2]; split_ifs
      · exact List.mem_cons_of_mem _ hx
      · exact hx
    have hha : a = null ∨ a ∈ (push_if c2 (push_if c1 (self, paths) a coor k) b coor k).2 := by
      by_cases hn : a.isNull = true
      · left
        cases a with
        | null => rfl
        | node _ _ _ _ => cases hn
      · right
        apply hsub2
        rw [p1, hc1]
        simp [hn]
    have hhb : b = null ∨ b ∈ (push_if c2 (push_if c1 (self, paths) a coor k) b coor k).2 ∨
        FarPruned self coor k p b := by
      by_cases hc2 : c2 = true
      · right; left
        rw [p2, if_pos hc2]
        exact List.mem_cons_self _ _
      · rcases hc2f (by simpa using hc2) with hn | hfar
        · left
          cases b with
          | null => rfl
          | node _ _ _ _ => cases hn
        · right; right; exact hfar
    refine ⟨inv2, Later_trans lat1 lat2, ?_, fun x hx => hsub2 x (hsub1 x hx), ?_⟩
    · have w1 : paths_weight (push_if c1 (self, paths) a coor k).2
          ≤ size a + paths_weight paths := by
        rw [p1]; split_ifs
        · rw [paths_weight_cons]
        · show paths_weight paths ≤ _; omega
      have w2 : paths_weight (push_if c2 (push_if c1 (self, paths) a coor k) b coor k).2
          ≤ size b + paths_weight (push_if c1 (self, paths) a coor k).2 := by
        rw [p2]; split_ifs
        · rw [paths_weight_cons]
        · omega
      rw [paths_weight_cons]
      omega
    · intro c hc
      have hca : c = a ∨ c = b := by
        rcases hc with rfl | rfl
        · rcases hab with ⟨h, _⟩ | ⟨_, h⟩
          · exact Or.inl h.symm
          · exact Or.inr h.symm
        · rcases hab with ⟨_, h⟩ | ⟨h, _⟩
          · exact Or.inr h.symm
          · exact Or.inl h.symm
      rcases hca with rfl | rfl
      · rcases hha with h | h
        · exact Or.inl h
        · exact Or.inr (Or.inl h)
      · exact hhb

/-! ## The two loops of `FindKNearests` -/

theorem backtrack_nil (coor : Nat → ℚ) (k fuel : Nat) (self : KDTree) :
    backtrack coor k fuel (self, []) = some self := by
  cases fuel <;> rfl

theorem backtrack_cons (coor : Nat → ℚ) (k fuel : Nat) (self : KDTree) (p : tree_node)
    (paths : List tree_node) :
    backtrack coor k (fuel + 1) (self, p :: paths)
      = backtrack coor k fuel (backtrack_step coor k p (self, paths)) := rfl

/-- The backtracking loop ends with an empty path stack when its fuel is at
least the weight of the stack; it keeps the invariant, and a tree covered at
the start is covered at the end, for every notion `sdf` of an accepted point
that later states preserve, visited points satisfy and pruned points satisfy. -/
theorem backtrack_spec {self0 : KDTree} {coor : Nat → ℚ} {k : Nat} (hk1 : 1 ≤ k)
    (hlt : ∀ i ∈ ids self0.root, i < self0.n_samples)
    (sdf : KDTree → Nat → Prop)
    (hm : ∀ a b, Later (fun i => GetDist self0 i coor) k a b → b.k_neighbor_heap_.length ≤ k →
      ∀ i, sdf a i → sdf b i)
    (hv : ∀ a i, Settled (fun i => GetDist self0 i coor) k a.k_neighbor_heap_ i → sdf a i)
    (hf : ∀ a paths p b, SearchInv self0 coor k (a, paths) → p ∈ nodes self0.root →
      FarPruned a coor k p b → ∀ i ∈ ids b, sdf a i) :
    ∀ (fuel : Nat) (st : KDTree × List tree_node), SearchInv self0 coor k st →
      paths_weight st.2 ≤ fuel →
      ∃ self', backtrack coor k fuel st = some self' ∧ SearchInv self0 coor k (self', []) ∧
        Later (fun i => GetDist self0 i coor) k st.1 self' ∧
        ∀ t, Cov (sdf st.1) st.2 t → Cov (sdf self') [] t := by
  intro fuel
  induction fuel with
  | zero =>
    rintro ⟨self, paths⟩ hinv hw
    cases paths with
    | nil =>
      exact ⟨self, backtrack_nil _ _ _ _, hinv, Later_refl _ _ _, fun _ h => h⟩
    | cons p rest =>
      have hp := (hinv.stack p (List.mem_cons_self _ _)).1
      have := size_pos_of_ne_null (mem_nodes_ne_null hp)
      simp only [paths_weight_cons] at hw
      omega
  | succ fuel ih =>
    rintro ⟨self, paths⟩ hinv hw
    cases paths with
    | nil =>
      exact ⟨self, backtrack_nil _ _ _ _, hinv, Later_refl _ _ _, fun _ h => h⟩
    | cons p rest =>
      obtain ⟨hp, hpv⟩ := hinv.stack p (List.mem_cons_self _ _)
      obtain ⟨inv', lat, hwt, hsub, hch⟩ := backtrack_step_spec hk1 hlt hinv
      obtain ⟨self', he, invf, latf, hcov⟩ := ih (backtrack_step coor k p (self, rest)) inv'
        (by simp only at hw; omega)
      refine ⟨self', by rw [backtrack_cons]; exact he, invf, Later_trans lat latf, ?_⟩
      intro t ht
      apply hcov
      have hset := hinv.heap.settled p.id (id_mem_ids_of_mem_nodes hp) hpv
      have hmono := hm self (backtrack_step coor k p (self, rest)).1 lat inv'.heap.len
      have hchild : ∀ c, c = p.left ∨ c = p.right →
          c = null ∨ c ∈ (backtrack_step coor k p (self, rest)).2 ∨
            ∀ i ∈ ids c, sdf (backtrack_step coor k p (self, rest)).1 i := by
        intro c hc
        rcases hch c hc with h | h | h
        · exact Or.inl h
        · exact Or.inr (Or.inl h)
        · exact Or.inr (Or.inr fun i hi => hmono i (hf self rest p c (SearchInv_pop hinv) hp h i hi))
      cases p with
      | null => exact absurd rfl (mem_nodes_ne_null hp)
      | node id s l r =>
        exact Cov_step hmono (hv _ _ (lat.1 _ hset)) hsub (hchild l (Or.inl rfl))
          (hchild r (Or.inr rfl)) ht

/-- The descent loop keeps the invariant, keeps the stack it started from and
leaves the node it started at on the stack. -/
theorem descend_spec {self0 : KDTree} {coor : Nat → ℚ} {k : Nat} (hk1 : 1 ≤ k)
    (hlt : ∀ i ∈ ids self0.root, i < self0.n_samples) :
    ∀ (t : tree_node) (st : KDTree × List tree_node), SearchInv self0 coor k st →
      (t = null ∨ t ∈ nodes self0.root) →
      SearchInv self0 coor k (descend coor k t st) ∧
      Later (fun i => GetDist self0 i coor) k st.1 (descend coor k t st).1 ∧
      (∀ x ∈ st.2, x ∈ (descend coor k t st).2) ∧
      (t ≠ null → t ∈ (descend coor k t st).2)
  | null, st, hinv, _ => ⟨hinv, Later_refl _ _ _, fun _ h => h, fun h => absurd rfl h⟩
  | node id s l r, st, hinv, ht => by
    have hmem : node id s l r ∈ nodes self0.root := by
      rcases ht with h | h
      · cases h
      · exact h
    obtain ⟨inv1, lat1⟩ := SearchInv_HeapStackPush st.1 st.2 hk1 hlt hinv
      hmem
    have p1 := HeapStackPush_paths st.1 st.2 (node id s l r) coor k
    have hchild : ∀ c : tree_node, (c = l ∨ c = r) → c = null ∨ c ∈ nodes self0.root := by
      intro c hc
      by_cases hn : c = null
      · exact Or.inl hn
      · right
        rcases hc with rfl | rfl
        · exact mem_nodes_left hmem hn
        · exact mem_nodes_right hmem hn
    have key : ∀ c : tree_node, (c = l ∨ c = r) →
        SearchInv self0 coor k
          (descend coor k c (HeapStackPush st.1 st.2 (node id s l r) coor k)) →
        Later (fun i => GetDist self0 i coor) k
          (HeapStackPush st.1 st.2 (node id s l r) coor k).1
          (descend coor k c (HeapStackPush st.1 st.2 (node id s l r) coor k)).1 →
        (∀ x ∈ (HeapStackPush st.1 st.2 (node id s l r) coor k).2,
          x ∈ (descend coor k c (HeapStackPush st.1 st.2 (node id s l r) coor k)).2) →
        SearchInv self0 coor k
          (descend coor k c (HeapStackPush st.1 st.2 (node id s l r) coor k)) ∧
        Later (fun i => GetDist self0 i coor) k st.1
          (descend coor k c (HeapStackPush st.1 st.2 (node id s l r) coor k)).1 ∧
        (∀ x ∈ st.2,
          x ∈ (descend coor k c (HeapStackPush st.1 st.2 (node id s l r) coor k)).2) ∧
        (node id s l r ≠ null →
          node id s l r ∈ (descend coor k c (HeapStackPush st.1 st.2 (node id s l r) coor k)).2) := by
      intro c _ h1 h2 h3
      refine ⟨h1, Later_trans lat1 h2, ?_, ?_⟩
      · intro x hx; apply h3; rw [p1]; exact List.mem_cons_of_mem _ hx
      · intro _; apply h3; rw [p1]; exact List.mem_cons_self _ _
    unfold descend
    simp only []
    split_ifs
    · obtain ⟨a, b, c, _⟩ := descend_spec hk1 hlt l _ inv1 (hchild l (Or.inl rfl))
      exact key l (Or.inl rfl) a b c
    · obtain ⟨a, b, c, _⟩ := descend_spec hk1 hlt r _ inv1 (hchild r (Or.inr rfl))
      exact key r (Or.inr rfl) a b c

/-! ## The whole of `FindKNearests` -/

theorem drain_eq : ∀ h : List neighbor, drain h = h
  | [] => rfl
  | t :: rest => by rw [drain, drain_eq rest]

theorem FindKNearests_eq (self : KDTree) (coor : Nat → ℚ) (k : Nat) :
    FindKNearests self coor k =
      match backtrack coor k
          (paths_weight (descend coor k self.root (clear_visited self, [])).2)
          (descend coor k self.root (clear_visited self, [])) with
      | none => none
      | some self' => some (drain self'.k_neighbor_heap_, { self' with k_neighbor_heap_ := [] }) :=
  rfl

theorem SearchInv_init (self : KDTree) (coor : Nat → ℚ) (k : Nat)
    (hheap : self.k_neighbor_heap_ = [])
    (hlt : ∀ i ∈ ids self.root, i < self.n_samples) :
    SearchInv (clear_visited self) coor k (clear_visited self, []) := by
  refine ⟨SameModel_refl _, ⟨?_, ?_, ?_, ?_, ?_⟩, ?_, fun _ _ => rfl⟩
  · show List.Sorted heap_order self.k_neighbor_heap_
    rw [hheap]; exact List.sorted_nil
  · show self.k_neighbor_heap_.length ≤ k
    rw [hheap]; exact Nat.zero_le _
  · show (self.k_neighbor_heap_.map Prod.fst).Nodup
    rw [hheap]; exact List.nodup_nil
  · intro e he
    have he' : e ∈ self.k_neighbor_heap_ := he
    rw [hheap] at he'
    cases he'
  · intro i hi hv
    have h1 : i < self.n_samples := hlt i hi
    have h2 : (if i < self.n_samples then false else self.visited_buf_ i) = true := hv
    rw [if_pos h1] at h2
    cases h2
  · intro t ht
    cases ht

/-- What one call of `FindKNearests` does on an object whose candidate heap is
empty and whose tree holds ids below `n_samples`: it returns; the object keeps
its tree, data and exponent, has an empty heap again and the same visited flags
outside the tree's ids; the result is in non-increasing order of distance, has
at most `k` entries with pairwise different ids of the tree, each with the
distance `GetDist` gives it; every point of the tree is in the result unless
the result has `k` entries; and when the tree satisfies the partition
invariant and `GetDist` dominates the distance along every split dimension,
every point left out is at least as far as every point returned. -/
theorem FindKNearests_spec (self : KDTree) (coor : Nat → ℚ) (k : Nat) (hk1 : 1 ≤ k)
    (hheap : self.k_neighbor_heap_ = [])
    (hlt : ∀ i ∈ ids self.root, i < self.n_samples) :
    ∃ res self', FindKNearests self coor k = some (res, self') ∧
      SameModel self self' ∧ self'.k_neighbor_heap_ = [] ∧
      (∀ i, self.n_samples ≤ i → self'.visited_buf_ i = self.visited_buf_ i) ∧
      HeapInv (fun i => GetDist self i coor) k (fun i => i ∈ ids self.root) res
        self'.visited_buf_ ∧
      (∀ i ∈ ids self.root, Counted k res i) ∧
      (KdInv self.datas self.n_features self.root → Dominates self coor →
        ∀ i ∈ ids self.root, Settled (fun i => GetDist self i coor) k res i) := by
  have hinit := SearchInv_init self coor k hheap hlt
  have hlt0 : ∀ i ∈ ids (clear_visited self).root, i < (clear_visited self).n_samples := hlt
  obtain ⟨inv1, _, _, hroot⟩ := descend_spec hk1 hlt0 (clear_visited self).root
    (clear_visited self, []) hinit (by
      by_cases hn : (clear_visited self).root = null
      · exact Or.inl hn
      · exact Or.inr (mem_nodes_self hn))
  obtain ⟨self', he, invf, _, hcov⟩ := backtrack_spec hk1 hlt0
    (fun a i => Counted k a.k_neighbor_heap_ i ∧
      (KdInv self.datas self.n_features self.root → Dominates self coor →
        Settled (fun i => GetDist (clear_visited self) i coor) k a.k_neighbor_heap_ i))
    (by
      intro a b lat hlen i hi
      refine ⟨?_, fun h1 h2 => lat.1 i (hi.2 h1 h2)⟩
      rcases hi.1 with h | h
      · rcases lat.1 i (Or.inl h) with h' | h'
        · exact Or.inl h'
        · exact Or.inr h'.1
      · right
        have := lat.2.2
        omega)
    (by
      intro a i hi
      refine ⟨?_, fun _ _ => hi⟩
      rcases hi with h | h
      · exact Or.inl h
      · exact Or.inr h.1)
    (by
      intro a paths p b hinv hp hfar i hi
      refine ⟨?_, fun h1 h2 => FarPruned_settled hinv hp h1 h2 hfar i hi⟩
      right
      have h1 : a.k_neighbor_heap_.length ≤ k := hinv.heap.len
      have h2 := hfar.1
      omega)
    (paths_weight (descend coor k self.root (clear_visited self, [])).2)
    (descend coor k self.root (clear_visited self, [])) inv1 (le_refl _)
  have hall := Cov_nil (hcov self.root (by
    by_cases hn : self.root = null
    · rw [hn]; trivial
    · exact Cov_of_mem (hroot hn)))
  refine ⟨self'.k_neighbor_heap_, { self' with k_neighbor_heap_ := [] }, ?_, ?_, rfl, ?_, ?_,
    fun i hi => (hall i hi).1, fun h1 h2 i hi => (hall i hi).2 h1 h2⟩
  · rw [FindKNearests_eq, he]
    simp only [drain_eq]
  · exact invf.model
  · intro i hi
    have h1 : self'.visited_buf_ i = (clear_visited self).visited_buf_ i := invf.frame i hi
    have h2 : (clear_visited self).visited_buf_ i
        = if i < self.n_samples then false else self.visited_buf_ i := rfl
    show self'.visited_buf_ i = _
    rw [h1, h2, if_neg (by omega)]
  · exact invf.heap

/-! ## The result as the `k` smallest distances -/

theorem take_sorted_of_split (A R rest : List ℚ) (hperm : A.Perm (R ++ rest))
    (hle : ∀ x ∈ R, ∀ y ∈ rest, x ≤ y) :
    ((A.insertionSort (· ≤ ·)).take R.length).Perm R := by
  have hs : (R.insertionSort (· ≤ ·) ++ rest.insertionSort (· ≤ ·)).Sorted (· ≤ ·) := by
    apply List.pairwise_append.mpr
    refine ⟨List.sorted_insertionSort _ R, List.sorted_insertionSort _ rest, ?_⟩
    intro a ha b hb
    exact hle a ((List.perm_insertionSort _ R).mem_iff.mp ha) b
      ((List.perm_insertionSort _ rest).mem_iff.mp hb)
  have hp : (A.insertionSort (· ≤ ·)).Perm
      (R.insertionSort (· ≤ ·) ++ rest.insertionSort (· ≤ ·)) :=
    ((List.perm_insertionSort _ A).trans hperm).trans
      ((List.perm_insertionSort _ R).symm.append (List.perm_insertionSort _ rest).symm)
  have he := List.eq_of_perm_of_sorted hp (List.sorted_insertionSort _ A) hs
  rw [he, List.take_left' (List.length_insertionSort _ R)]
  exact List.perm_insertionSort _ R

theorem perm_append_filter_not_mem (I R : List Nat) (hI : I.Nodup) (hR : R.Nodup)
    (hsub : ∀ i ∈ R, i ∈ I) : I.Perm (R ++ I.filter fun i => decide (i ∉ R)) := by
  have h1 : (I.filter fun i => decide (i ∈ R)).Perm R := by
    apply (List.perm_ext_iff_of_nodup (hI.filter _) hR).mpr
    intro a
    simp only [List.mem_filter, decide_eq_true_eq]
    exact ⟨fun h => h.2, fun h => ⟨hsub a h, h⟩⟩
  have h2 := (List.filter_append_perm (fun i => decide (i ∈ R)) I).symm
  have h3 : (I.filter fun x => !decide (x ∈ R)) = I.filter fun i => decide (i ∉ R) := by
    apply List.filter_congr
    intro x _
    simp
  rw [h3] at h2
  exact h2.trans (h1.append_right _)

theorem length_eq_min_of_counted {d : Nat → ℚ} {k : Nat} {I : List Nat} {res : List neighbor}
    {v : Nat → Bool} (hI : I.Nodup) (hinv : HeapInv d k (fun i => i ∈ I) res v)
    (hc : ∀ i ∈ I, Counted k res i) : res.length = min k I.length := by
  have h1 := hinv.len
  have h2 : res.length ≤ I.length := by
    have hsub : res.map Prod.fst ⊆ I := by
      intro i hi
      obtain ⟨e, he, rfl⟩ := List.mem_map.mp hi
      exact (hinv.entry e he).2.2
    have := (hinv.nodup.subperm hsub).length_le
    simpa using this
  by_cases hk : res.length = k
  · omega
  · have hsub : I ⊆ res.map Prod.fst := by
      intro i hi
      rcases hc i hi with h | h
      · exact h
      · exact absurd h hk
    have := (hI.subperm hsub).length_le
    simp only [List.length_map] at this
    omega

theorem map_snd_eq_map_dist {d : Nat → ℚ} {k : Nat} {ok : Nat → Prop} {res : List neighbor}
    {v : Nat → Bool} (hinv : HeapInv d k ok res v) :
    res.map Prod.snd = (res.map Prod.fst).map d := by
  rw [List.map_map]
  apply List.map_congr_left
  intro e he
  exact (hinv.entry e he).2.1

/-- A heap that settles every point of a list of pairwise different ids and
has `k` entries holds the `k` smallest distances of the list. -/
theorem perm_take_of_settled {d : Nat → ℚ} {k : Nat} {I : List Nat} {res : List neighbor}
    {v : Nat → Bool} (hI : I.Nodup) (hinv : HeapInv d k (fun i => i ∈ I) res v)
    (hlen : res.length = k) (hs : ∀ i ∈ I, Settled d k res i) :
    (res.map Prod.snd).Perm (((I.map d).insertionSort (· ≤ ·)).take k) := by
  have hsub : ∀ i ∈ res.map Prod.fst, i ∈ I := by
    intro i hi
    obtain ⟨e, he, rfl⟩ := List.mem_map.mp hi
    exact (hinv.entry e he).2.2
  have hp := (perm_append_filter_not_mem I (res.map Prod.fst) hI hinv.nodup hsub).map d
  rw [List.map_append, ← map_snd_eq_map_dist hinv] at hp
  have hle : ∀ x ∈ res.map Prod.snd,
      ∀ y ∈ (I.filter fun i => decide (i ∉ res.map Prod.fst)).map d, x ≤ y := by
    intro x hx y hy
    obtain ⟨e, he, rfl⟩ := List.mem_map.mp hx
    obtain ⟨i, hi, rfl⟩ := List.mem_map.mp hy
    simp only [List.mem_filter, decide_eq_true_eq] at hi
    rcases hs i hi.1 with h | h
    · exact absurd h hi.2
    · exact h.2 e he
  have := take_sorted_of_split _ _ _ hp hle
  rw [List.length_map, hlen] at this
  exact this.symm

/-! ## Trees made by the building constructor -/

theorem FindSplitDim_lt (datas : Nat → ℚ) (n_features : Nat) (points : List Nat)
    (hne : points ≠ []) (hnf : 1 ≤ n_features) :
    FindSplitDim datas n_features points < n_features := by
  unfold FindSplitDim
  split_ifs
  · omega
  · exact (split_loop_spec datas n_features points hne n_features (by omega)).1

theorem BuildTree_split_lt (datas : Nat → ℚ) (n_features : Nat) (hnf : 1 ≤ n_features)
    (points : List Nat) (hne : points ≠ []) :
    ∃ t, BuildTree datas n_features points = some t ∧
      ∀ x ∈ nodes t, x.split < n_features := by
  apply BuildTree_induct datas n_features (fun _ t => ∀ x ∈ nodes t, x.split < n_features) _
    points hne
  intro points l r hne hl hr
  have hL : ∀ x ∈ nodes l, x.split < n_features := by
    split at hl
    · subst hl; intro x hx; simp [nodes] at hx
    · exact hl
  have hR : ∀ x ∈ nodes r, x.split < n_features := by
    split at hr
    · subst hr; intro x hx; simp [nodes] at hx
    · exact hr
  intro x hx
  simp only [nodes, List.mem_cons, List.mem_append] at hx
  rcases hx with rfl | hx | hx
  · exact FindSplitDim_lt datas n_features points hne hnf
  · exact hL x hx
  · exact hR x hx

/-- What the building constructor returns for at least one point. -/
theorem KDTree_build_spec (datas : Nat → ℚ) (n_samples n_features : Nat) (p : Exponent)
    (hn : 1 ≤ n_samples) :
    ∃ root, KDTree.build datas n_samples n_features p
        = some (KDTree.wrap root datas n_samples n_features p) ∧
      BuildTree datas n_features (List.range n_samples) = some root ∧
      (ids root).Perm (List.range n_samples) ∧
      KdInv datas n_features root ∧
      (1 ≤ n_features → ∀ x ∈ nodes root, x.split < n_features) := by
  have hne : List.range n_samples ≠ [] := by
    intro h
    have := congrArg List.length h
    simp at this
    omega
  obtain ⟨t, ht, hp⟩ := BuildTree_ids_perm datas n_features (List.range n_samples) hne
    (List.nodup_range n_samples)
  obtain ⟨t', ht', _, hkd⟩ := BuildTree_sub_inv datas n_features (List.range n_samples) hne
  have e1 : t' = t := Option.some.inj (ht'.symm.trans ht)
  subst e1
  refine ⟨t', by simp only [KDTree.build, KDTree.wrap, ht, Option.map_some'], ht, hp, hkd, ?_⟩
  intro hnf
  obtain ⟨t'', ht'', hs⟩ := BuildTree_split_lt datas n_features hnf (List.range n_samples) hne
  have e2 : t'' = t' := Option.some.inj (ht''.symm.trans ht)
  subst e2
  exact hs

/-! ## Search on a built tree -/

theorem le_foldl_add_of_nonneg (f : Nat → ℚ) (hf : ∀ t, 0 ≤ f t) :
    ∀ (n : Nat), 0 ≤ (List.range n).foldl (fun acc t => acc + f t) 0 ∧
      ∀ t < n, f t ≤ (List.range n).foldl (fun acc t => acc + f t) 0 := by
  intro n
  induction n with
  | zero => exact ⟨le_refl _, fun t ht => absurd ht (Nat.not_lt_zero t)⟩
  | succ n ih =>
    rw [List.range_succ, List.foldl_append]
    simp only [List.foldl_cons, List.foldl_nil]
    obtain ⟨h0, h1⟩ := ih
    refine ⟨add_nonneg h0 (hf n), ?_⟩
    intro t ht
    rcases Nat.lt_succ_iff_lt_or_eq.mp ht with h | h
    · have := h1 t h
      have := hf n
      linarith
    · subst h
      linarith

/-- When `pow(x, p)` is never negative, `pow(x, 1.0 / p)` is monotone and
`pow(pow(x, p), 1.0 / p)` is at least `|x|` (as for `p = 2` in exact
arithmetic), the value of `GetDist` is at least the distance along each
coordinate. -/
theorem GetDist_dominates (self : KDTree) (coor : Nat → ℚ)
    (hpow : ∀ x, 0 ≤ self.p.pow_p x) (hmono : ∀ x y, x ≤ y → self.p.pow_inv_p x ≤ self.p.pow_inv_p y)
    (hroot : ∀ x, |x| ≤ self.p.pow_inv_p (self.p.pow_p x)) (i t : Nat)
    (ht : t < self.n_features) :
    |GetDimVal self.datas self.n_features i t - coor t| ≤ GetDist self i coor := by
  have h := (le_foldl_add_of_nonneg
    (fun t => self.p.pow_p (self.datas (i * self.n_features + t) - coor t))
    (fun _ => hpow _) self.n_features).2 t ht
  exact le_trans (hroot _) (hmono _ _ h)

/-- On a tree made by the building constructor, with `1 ≤ k ≤ n_samples`,
`n_features ≥ 1` and a `GetDist` that dominates the distance along every
coordinate, `FindKNearests` returns `k` pairs `(id, d)` with `d` the distance
`GetDist` gives point `id`, and the returned distances are, as a multiset, the
`k` smallest of the distances of all stored points. -/
theorem FindKNearests_k_smallest {datas : Nat → ℚ} {n_samples n_features : Nat} {p : Exponent}
    {self : KDTree} (hb : KDTree.build datas n_samples n_features p = some self)
    (coor : Nat → ℚ) (k : Nat) (hk1 : 1 ≤ k) (hkn : k ≤ n_samples) (hnf : 1 ≤ n_features)
    (hdom : ∀ i < n_samples, ∀ t < n_features,
      |GetDimVal datas n_features i t - coor t| ≤ GetDist self i coor) :
    ∃ res self', FindKNearests self coor k = some (res, self') ∧ res.length = k ∧
      (∀ e ∈ res, e.1 < n_samples ∧ e.2 = GetDist self e.1 coor) ∧
      (res.map Prod.snd).Perm
        ((((List.range n_samples).map fun i => GetDist self i coor).insertionSort
          (· ≤ ·)).take k) := by
  obtain ⟨root, hb', _, hperm, hkd, hsplit⟩ :=
    KDTree_build_spec datas n_samples n_features p (by omega)
  have hself : self = KDTree.wrap root datas n_samples n_features p :=
    Option.some.inj (hb.symm.trans hb')
  subst hself
  have hnd : (ids root).Nodup := hperm.nodup_iff.mpr (List.nodup_range n_samples)
  have hlt : ∀ i ∈ ids root, i < n_samples := fun i hi =>
    List.mem_range.mp (hperm.mem_iff.mp hi)
  obtain ⟨res, self', he, _, _, _, hinv, hc, hs⟩ :=
    FindKNearests_spec (KDTree.wrap root datas n_samples n_features p) coor k hk1 rfl hlt
  have hlen : res.length = k := by
    have h1 := length_eq_min_of_counted hnd hinv hc
    have h2 : (ids root).length = n_samples := by rw [hperm.length_eq, List.length_range]
    rw [h1, h2]
    exact Nat.min_eq_left hkn
  have hdomin : Dominates (KDTree.wrap root datas n_samples n_features p) coor := by
    intro t ht i hi
    exact hdom i (hlt i hi) t.split (hsplit hnf t ht)
  have hsettled := hs hkd hdomin
  have hp := perm_take_of_settled hnd hinv hlen hsettled
  have hsort : ((ids root).map fun i =>
        GetDist (KDTree.wrap root datas n_samples n_features p) i coor).insertionSort (· ≤ ·)
      = ((List.range n_samples).map fun i =>
        GetDist (KDTree.wrap root datas n_samples n_features p) i coor).insertionSort (· ≤ ·) :=
    List.eq_of_perm_of_sorted
      (((List.perm_insertionSort _ _).trans (hperm.map _)).trans
        (List.perm_insertionSort _ _).symm)
      (List.sorted_insertionSort _ _) (List.sorted_insertionSort _ _)
  refine ⟨res, self', he, hlen, ?_, ?_⟩
  · intro e he'
    obtain ⟨_, h2, h3⟩ := hinv.entry e he'
    exact ⟨hlt _ h3, h2⟩
  · rw [← hsort]; exact hp

/-- With `k = n_samples` the search on a built tree returns every id of
`[0, n_samples)` exactly once, whatever `GetDist` computes. -/
theorem FindKNearests_all_ids {datas : Nat → ℚ} {n_samples n_features : Nat} {p : Exponent}
    {self : KDTree} (hb : KDTree.build datas n_samples n_features p = some self)
    (coor : Nat → ℚ) (hn : 1 ≤ n_samples) :
    ∃ res self', FindKNearests self coor n_samples = some (res, self') ∧
      res.length = n_samples ∧ (res.map Prod.fst).Perm (List.range n_samples) := by
  obtain ⟨root, hb', _, hperm, _, _⟩ := KDTree_build_spec datas n_samples n_features p hn
  have hself : self = KDTree.wrap root datas n_samples n_features p :=
    Option.some.inj (hb.symm.trans hb')
  subst hself
  have hnd : (ids root).Nodup := hperm.nodup_iff.mpr (List.nodup_range n_samples)
  have hlt : ∀ i ∈ ids root, i < n_samples := fun i hi =>
    List.mem_range.mp (hperm.mem_iff.mp hi)
  obtain ⟨res, self', he, _, _, _, hinv, hc, _⟩ :=
    FindKNearests_spec (KDTree.wrap root datas n_samples n_features p) coor n_samples hn rfl hlt
  have h2 : (ids root).length = n_samples := by rw [hperm.length_eq, List.length_range]
  have hlen : res.length = n_samples := by
    have h1 := length_eq_min_of_counted hnd hinv hc
    rw [h1, h2]
    exact Nat.min_self _
  refine ⟨res, self', he, hlen, ?_⟩
  have hsub : res.map Prod.fst ⊆ ids root := by
    intro i hi
    obtain ⟨e, he', rfl⟩ := List.mem_map.mp hi
    exact (hinv.entry e he').2.2
  have hsp := hinv.nodup.subperm hsub
  have hle : (ids root).length ≤ (res.map Prod.fst).length := by
    rw [List.length_map, hlen, h2]
  exact (hsp.perm_of_length_le hle).trans hperm

theorem KDTree_build_eq_wrap {datas : Nat → ℚ} {n_samples n_features : Nat} {root : tree_node}
    (p : Exponent) (h : BuildTree datas n_features (List.range n_samples) = some root) :
    KDTree.build datas n_samples n_features p
      = some (KDTree.wrap root datas n_samples n_features p) := by
  simp only [KDTree.build, KDTree.wrap, h, Option.map_some']

/-- The scenario of the specification: points (0,0), (1,1), (5,5), exponent 2,
query (0.9, 0.9), `k = 1`; the search returns point 1 at distance 0.1414. -/
theorem FindKNearests_k_smallest_witness :
    (∃ self, KDTree.build (memory [0, 0, 1, 1, 5, 5]) 3 2 p_two = some self ∧
      (FindKNearests self (query [9 / 10, 9 / 10]) 1).map Prod.fst
        = some [(1, 1414 / 10000)]) ∧
    ∃ self, KDTree.build (memory [0, 0, 1, 1, 5, 5]) 3 2 p_two = some self ∧
      ∃ res self', FindKNearests self (query [9 / 10, 9 / 10]) 1 = some (res, self') ∧
        res.length = 1 ∧
        (∀ e ∈ res, e.1 < 3 ∧ e.2 = GetDist self e.1 (query [9 / 10, 9 / 10])) ∧
        (res.map Prod.snd).Perm
          ((((List.range 3).map fun i =>
            GetDist self i (query [9 / 10, 9 / 10])).insertionSort (· ≤ ·)).take 1) := by
  have hb : KDTree.build (memory [0, 0, 1, 1, 5, 5]) 3 2 p_two
      = some (KDTree.wrap (node 1 0 (node 0 0 null null) (node 2 0 null null))
          (memory [0, 0, 1, 1, 5, 5]) 3 2 p_two) :=
    KDTree_build_eq_wrap p_two (by decide!)
  exact ⟨⟨_, hb, by decide!⟩, _, hb,
    FindKNearests_k_smallest hb (query [9 / 10, 9 / 10]) 1 (by decide) (by decide) (by decide)
      (by decide!)⟩

/-! ## C1, C6, C9: the distance without the absolute value -/

/-- C9 (failing input): with `p = 1`, one stored point `x = (0)` and the query
`y = (1)`, `GetDist` returns `0 - 1 = -1`, not `|0 - 1| = 1`: the difference is
raised to the power without taking its absolute value, and the result is
negative. -/
theorem GetDist_omits_absolute_value :
    GetDist (KDTree.wrap null (memory [0]) 1 1 p_one) 0 (query [1]) = -1 ∧
    |GetDimVal (memory [0]) 1 0 0 - query [1] 0| = 1 := by
  decide!

/-- C1 (failing input): stored points 5, 7, 0 (one feature), `p = 1`, query 10,
`k = 1`.  The tree is built, the search returns point 0 with "distance" -5,
although point 1 is the nearest (|7 - 10| = 3 < |5 - 10| = 5) and although
`GetDist` itself gives point 2 the smaller value -10: the result agrees with
no brute-force scan. -/
theorem FindKNearests_p_one_misses_nearest :
    ∃ self, KDTree.build (memory [5, 7, 0]) 3 1 p_one = some self ∧
      (FindKNearests self (query [10]) 1).map Prod.fst = some [(0, -5)] ∧
      GetDist self 2 (query [10]) = -10 ∧
      |GetDimVal (memory [5, 7, 0]) 1 1 0 - query [10] 0| = 3 ∧
      |GetDimVal (memory [5, 7, 0]) 1 0 0 - query [10] 0| = 5 :=
  ⟨KDTree.wrap (node 0 0 (node 2 0 null null) (node 1 0 null null)) (memory [5, 7, 0]) 3 1 p_one,
    KDTree_build_eq_wrap p_one (by decide!), by decide!, by decide!, by decide!, by decide!⟩

/-- C6 (failing input): stored points 2, 4, 0 (one feature), `p = 1`, query 6.
With `k = 3 = n_samples` all three ids are returned, but with `k = 1` the
search returns point 0 with "distance" -4, which is not the minimum over the
stored points: `GetDist` gives point 2 the value -6, and the nearest point is
point 1 (|4 - 6| = 2 < |2 - 6| = 4). -/
theorem FindKNearests_p_one_k_one_not_minimum :
    ∃ self, KDTree.build (memory [2, 4, 0]) 3 1 p_one = some self ∧
      (FindKNearests self (query [6]) 3).map (fun r => r.1.map Prod.fst) = some [1, 0, 2] ∧
      (FindKNearests self (query [6]) 1).map Prod.fst = some [(0, -4)] ∧
      GetDist self 2 (query [6]) = -6 ∧
      |GetDimVal (memory [2, 4, 0]) 1 1 0 - query [6] 0| = 2 ∧
      |GetDimVal (memory [2, 4, 0]) 1 0 0 - query [6] 0| = 4 :=
  ⟨KDTree.wrap (node 0 0 (node 2 0 null null) (node 1 0 null null)) (memory [2, 4, 0]) 3 1 p_one,
    KDTree_build_eq_wrap p_one (by decide!), by decide!, by decide!, by decide!, by decide!,
    by decide!⟩

/-! ## C7: two calls in a row -/

theorem clear_visited_congr {a b : KDTree} (hm : SameModel a b)
    (hh : a.k_neighbor_heap_ = b.k_neighbor_heap_)
    (hv : ∀ i, a.n_samples ≤ i → b.visited_buf_ i = a.visited_buf_ i) :
    clear_visited b = clear_visited a := by
  obtain ⟨h1, h2, h3, h4, h5⟩ := hm
  cases a
  cases b
  simp only at h1 h2 h3 h4 h5 hh hv
  subst h1 h2 h3 h4 h5 hh
  simp only [clear_visited, KDTree.mk.injEq, true_and]
  funext i
  split_ifs with hi
  · rfl
  · exact hv i (by omega)

/-- C7: on an object whose candidate heap is empty (as the constructors leave
it) and whose tree holds ids below `n_samples`, a call of `FindKNearests` with
`k ≥ 1` returns, leaves the heap empty again, and a second call with the same
query and the same `k` starts from the same cleared state and returns the very
same sequence of `(id, distance)` pairs. -/
theorem FindKNearests_twice (self : KDTree) (coor : Nat → ℚ) (k : Nat) (hk1 : 1 ≤ k)
    (hheap : self.k_neighbor_heap_ = [])
    (hlt : ∀ i ∈ ids self.root, i < self.n_samples) :
    ∃ res self1 self2, FindKNearests self coor k = some (res, self1) ∧
      self1.k_neighbor_heap_ = [] ∧ clear_visited self1 = clear_visited self ∧
      FindKNearests self1 coor k = some (res, self2) := by
  obtain ⟨res, self1, he, hm, hh, hv, _⟩ := FindKNearests_spec self coor k hk1 hheap hlt
  have hc : clear_visited self1 = clear_visited self :=
    clear_visited_congr hm (hheap.trans hh.symm) hv
  have hroot : self1.root = self.root := hm.2.1.symm
  have he2 : FindKNearests self1 coor k = FindKNearests self coor k := by
    rw [FindKNearests_eq, FindKNearests_eq, hc, hroot]
  exact ⟨res, self1, self1, he, hh, hc, he2.trans he⟩

/-- Two calls on the tree over the points 5, 7, 0 with the query 10 and `k = 2`. -/
theorem FindKNearests_twice_witness :
    1 ≤ 2 ∧
    (KDTree.wrap (node 0 0 (node 2 0 null null) (node 1 0 null null))
      (memory [5, 7, 0]) 3 1 p_one).k_neighbor_heap_ = [] ∧
    ∃ res self1 self2,
      FindKNearests (KDTree.wrap (node 0 0 (node 2 0 null null) (node 1 0 null null))
        (memory [5, 7, 0]) 3 1 p_one) (query [10]) 2 = some (res, self1) ∧
      self1.k_neighbor_heap_ = [] ∧
      clear_visited self1 = clear_visited (KDTree.wrap
        (node 0 0 (node 2 0 null null) (node 1 0 null null)) (memory [5, 7, 0]) 3 1 p_one) ∧
      FindKNearests self1 (query [10]) 2 = some (res, self2) :=
  ⟨by decide, rfl,
    FindKNearests_twice (KDTree.wrap (node 0 0 (node 2 0 null null) (node 1 0 null null))
      (memory [5, 7, 0]) 3 1 p_one) (query [10]) 2 (by decide) rfl (by decide)⟩

/-! ## C8: the order of the result -/

theorem free_loop_nil (fuel : Nat) (freed : List tree_node) :
    free_loop fuel [] freed = some freed := by
  cases fuel <;> rfl

theorem free_loop_spec : ∀ (fuel : Nat) (stack freed : List tree_node),
    (∀ t ∈ stack, t ≠ null) → paths_weight stack ≤ fuel →
    ∃ out, free_loop fuel stack freed = some (freed ++ out) ∧ out.Perm (all_nodes stack)
  | fuel, [], freed, _, _ => ⟨[], by rw [free_loop_nil, List.append_nil], List.Perm.refl _⟩
  | 0, t :: stack, _, hnn, hw => by
    have := size_pos_of_ne_null (hnn t (List.mem_cons_self _ _))
    rw [paths_weight_cons] at hw
    omega
  | fuel + 1, null :: stack, _, hnn, _ => absurd rfl (hnn null (List.mem_cons_self _ _))
  | fuel + 1, node id s l r :: stack, freed, hnn, hw => by
    have hrest : ∀ t ∈ stack, t ≠ null := fun t ht => hnn t (List.mem_cons_of_mem _ ht)
    have hpush : ∀ (c : tree_node) (st : List tree_node), (∀ t ∈ st, t ≠ null) →
        (∀ t ∈ (if c.isNull then st else c :: st), t ≠ null) ∧
        paths_weight (if c.isNull then st else c :: st) = size c + paths_weight st ∧
        all_nodes (if c.isNull then st else c :: st) = nodes c ++ all_nodes st := by
      intro c st hst
      cases c with
      | null => exact ⟨by simpa [isNull] using hst, by simp [isNull, size], by simp [isNull, nodes]⟩
      | node a b c d =>
        refine ⟨?_, ?_, ?_⟩
        · intro t ht
          simp only [isNull, Bool.false_eq_true, if_false, List.mem_cons] at ht
          rcases ht with rfl | ht
          · exact fun h => by cases h
          · exact hst t ht
        · simp only [isNull, Bool.false_eq_true, if_false, paths_weight_cons]
        · simp only [isNull, Bool.false_eq_true, if_false, all_nodes]
    obtain ⟨n1, w1, a1⟩ := hpush l stack hrest
    obtain ⟨n2, w2, a2⟩ := hpush r _ n1
    rw [paths_weight_cons] at hw
    have hsize : size (node id s l r) = size l + size r + 1 := rfl
    obtain ⟨out, he, hp⟩ := free_loop_spec fuel
      (if r.isNull then (if l.isNull then stack else l :: stack)
        else r :: (if l.isNull then stack else l :: stack))
      (freed ++ [node id s l r]) n2 (by omega)
    refine ⟨node id s l r :: out, ?_, ?_⟩
    · simp only [free_loop]
      rw [he]
      simp
    · rw [a2, a1] at hp
      simp only [all_nodes, nodes, List.cons_append]
      refine List.Perm.cons _ (hp.trans ?_)
      rw [← List.append_assoc]
      exact List.Perm.append_right _ List.perm_append_comm

theorem nodes_map_id : ∀ t : tree_node, (nodes t).map tree_node.id = ids t
  | null => rfl
  | node id s l r => by
    simp only [nodes, ids, List.map_cons, List.map_append, nodes_map_id l, nodes_map_id r,
      tree_node.id]

theorem length_nodes : ∀ t : tree_node, (nodes t).length = size t
  | null => rfl
  | node id s l r => by
    simp only [nodes, size, List.length_cons, List.length_append, length_nodes l, length_nodes r]

/-- C10: for every tree with a non-null root the loop of `free_tree_memory`
terminates and the sequence of released nodes is a permutation of the nodes of
the tree (each node is released exactly once); after the building constructor
for `n_samples ≥ 1` points, exactly `n_samples` nodes are released and they
carry the ids `0 .. n_samples - 1`, each once. -/
theorem free_tree_memory_releases_each_node_once (root : tree_node) (hroot : root ≠ null) :
    (∃ freed, free_tree_memory root = some freed ∧ freed.Perm (nodes root) ∧
      freed.length = size root) ∧
    (∀ (datas : Nat → ℚ) (n_samples n_features : Nat) (p : Exponent) (self : KDTree),
      1 ≤ n_samples → KDTree.build datas n_samples n_features p = some self →
      ∃ freed, free_tree_memory self.root = some freed ∧ freed.Perm (nodes self.root) ∧
        freed.length = n_samples ∧
        (freed.map tree_node.id).Perm (List.range n_samples)) := by
  have hmain : ∀ t : tree_node, t ≠ null →
      ∃ freed, free_tree_memory t = some freed ∧ freed.Perm (nodes t) ∧
        freed.length = size t := by
    intro t ht
    obtain ⟨out, he, hp⟩ := free_loop_spec (size t + 1) [t] []
      (by
        intro x hx
        rw [List.mem_singleton] at hx
        rw [hx]; exact ht)
      (by rw [paths_weight_cons]; simp [paths_weight])
    simp only [all_nodes, List.append_nil, List.nil_append] at hp he
    exact ⟨out, he, hp, by rw [hp.length_eq, length_nodes]⟩
  refine ⟨hmain root hroot, ?_⟩
  intro datas n_samples n_features p self hn hb
  obtain ⟨t, hb', _, hperm, _, _⟩ := KDTree_build_spec datas n_samples n_features p hn
  have hself : self = KDTree.wrap t datas n_samples n_features p :=
    Option.some.inj (hb.symm.trans hb')
  subst hself
  have hne : t ≠ null := by
    intro hc
    subst hc
    have := hperm.length_eq
    simp [ids] at this
    omega
  obtain ⟨freed, he, hp, hl⟩ := hmain t hne
  refine ⟨freed, he, hp, ?_, ?_⟩
  · rw [hl, size_eq_length_ids, hperm.length_eq, List.length_range]
  · exact ((hp.map tree_node.id).trans (by rw [nodes_map_id])).trans hperm

/-- Teardown of the tree over the points 5, 7, 0. -/
theorem free_tree_memory_releases_each_node_once_witness :
    node 0 0 (node 2 0 null null) (node 1 0 null null) ≠ null ∧
    free_tree_memory (node 0 0 (node 2 0 null null) (node 1 0 null null))
      = some [node 0 0 (node 2 0 null null) (node 1 0 null null), node 1 0 null null,
          node 2 0 null null] ∧
    ((∃ freed, free_tree_memory (node 0 0 (node 2 0 null null) (node 1 0 null null))
        = some freed ∧
      freed.Perm (nodes (node 0 0 (node 2 0 null null) (node 1 0 null null))) ∧
      freed.length = size (node 0 0 (node 2 0 null null) (node 1 0 null null))) ∧
    (∀ (datas : Nat → ℚ) (n_samples n_features : Nat) (p : Exponent) (self : KDTree),
      1 ≤ n_samples → KDTree.build datas n_samples n_features p = some self →
      ∃ freed, free_tree_memory self.root = some freed ∧ freed.Perm (nodes self.root) ∧
        freed.length = n_samples ∧
        (freed.map tree_node.id).Perm (List.range n_samples))) :=
  ⟨by decide, by decide,
    free_tree_memory_releases_each_node_once (node 0 0 (node 2 0 null null) (node 1 0 null null))
      (by decide)⟩

/-! ## C11: the empty point set -/

theorem copy_from_some (k_nearest : List neighbor) :
    ∀ (n i : Nat), i + n ≤ k_nearest.length →
      copy_from k_nearest i n
        = some (((k_nearest.drop i).take n).map Prod.fst, ((k_nearest.drop i).take n).map Prod.snd)
  | 0, i, _ => by simp [copy_from]
  | n + 1, i, h => by
    have hi : i < k_nearest.length := by omega
    have ih := copy_from_some k_nearest n (i + 1) (by omega)
    rw [copy_from, List.get?_eq_getElem?, List.getElem?_eq_getElem hi, ih]
    have hd : k_nearest.drop i = k_nearest[i] :: k_nearest.drop (i + 1) :=
      List.drop_eq_getElem_cons hi
    simp only [hd, List.take_succ_cons, List.map_cons]

theorem copy_from_none (k_nearest : List neighbor) :
    ∀ (n i : Nat), 1 ≤ n → k_nearest.length < i + n → copy_from k_nearest i n = none
  | 0, _, h, _ => absurd h (by decide)
  | n + 1, i, _, h => by
    rw [copy_from]
    by_cases hi : i < k_nearest.length
    · have ih := copy_from_none k_nearest n (i + 1) (by omega) (by omega)
      rw [ih]
      cases k_nearest.get? i <;> rfl
    · rw [List.get?_eq_getElem?, List.getElem?_eq_none (by omega)]

/-- C12: on a tree made by the building constructor for `n_samples ≥ 1` points
no check of `k` is made.  For `k > n_samples` `FindKNearests` marks every point
visited and returns exactly `n_samples` pairs, one for each id, so the copy loop
of `CFindKNearests` and `find_k_nearests`, which reads the entries `0 .. k - 1`,
reads past the end of the result (`none` in the model).  For
`1 ≤ k ≤ n_samples` the result has exactly `k` entries, every read of the copy
loop is in bounds, and the ids and distances of the result are copied out. -/
theorem CFindKNearests_bounds {datas : Nat → ℚ} {n_samples n_features : Nat} {p : Exponent}
    {self : KDTree} (hb : KDTree.build datas n_samples n_features p = some self)
    (hn : 1 ≤ n_samples) (labels coor : Nat → ℚ) (k : Nat) :
    (n_samples < k →
      ∃ res final, FindKNearests self coor k = some (res, final) ∧
        res.length = n_samples ∧ (res.map Prod.fst).Perm (List.range n_samples) ∧
        (∀ i < n_samples, final.visited_buf_ i = true) ∧
        CFindKNearests self coor k = none ∧
        find_k_nearests (tree_model.mk self.root datas labels n_samples n_features p) coor k
          = none) ∧
    (1 ≤ k → k ≤ n_samples →
      ∃ res final, FindKNearests self coor k = some (res, final) ∧
        res.length = k ∧ (∀ i < k, (res.get? i).isSome = true) ∧
        CFindKNearests self coor k = some ((res.map Prod.fst, res.map Prod.snd), final) ∧
        find_k_nearests (tree_model.mk self.root datas labels n_samples n_features p) coor k
          = some (res.map Prod.fst, res.map Prod.snd)) := by
  obtain ⟨root, hb', _, hperm, _, _⟩ := KDTree_build_spec datas n_samples n_features p hn
  have hself : self = KDTree.wrap root datas n_samples n_features p :=
    Option.some.inj (hb.symm.trans hb')
  subst hself
  have hnd : (ids root).Nodup := hperm.nodup_iff.mpr (List.nodup_range n_samples)
  have hlt : ∀ i ∈ ids root, i < n_samples := fun i hi =>
    List.mem_range.mp (hperm.mem_iff.mp hi)
  have h2 : (ids root).length = n_samples := by rw [hperm.length_eq, List.length_range]
  have hfind : ∀ res final, FindKNearests (KDTree.wrap root datas n_samples n_features p) coor k
      = some (res, final) →
      find_k_nearests (tree_model.mk root datas labels n_samples n_features p) coor k
        = copy_from res 0 k := by
    intro res final he
    show (match FindKNearests (KDTree.wrap root datas n_samples n_features p) coor k with
      | none => none
      | some (k_nearest, _) => copy_from k_nearest 0 k) = _
    rw [he]
  have hcfind : ∀ res final, FindKNearests (KDTree.wrap root datas n_samples n_features p) coor k
      = some (res, final) →
      CFindKNearests (KDTree.wrap root datas n_samples n_features p) coor k
        = (copy_from res 0 k).map fun out => (out, final) := by
    intro res final he
    simp only [CFindKNearests, he]
  constructor
  · intro hk
    obtain ⟨res, final, he, _, _, _, hinv, hc, _⟩ :=
      FindKNearests_spec (KDTree.wrap root datas n_samples n_features p) coor k (by omega) rfl hlt
    have hlen : res.length = n_samples := by
      have h1 := length_eq_min_of_counted hnd hinv hc
      rw [h1, h2]
      exact Nat.min_eq_right (by omega)
    have hsub : res.map Prod.fst ⊆ ids root := by
      intro i hi
      obtain ⟨e, he', rfl⟩ := List.mem_map.mp hi
      exact (hinv.entry e he').2.2
    have hpermres : (res.map Prod.fst).Perm (List.range n_samples) :=
      ((hinv.nodup.subperm hsub).perm_of_length_le
        (by rw [List.length_map, hlen, h2])).trans hperm
    have hnone : copy_from res 0 k = none :=
      copy_from_none res k 0 (by omega) (by omega)
    refine ⟨res, final, he, hlen, hpermres, ?_, ?_, ?_⟩
    · intro i hi
      have hmem : i ∈ res.map Prod.fst := hpermres.mem_iff.mpr (List.mem_range.mpr hi)
      obtain ⟨e, he', rfl⟩ := List.mem_map.mp hmem
      exact (hinv.entry e he').1
    · rw [hcfind res final he, hnone]; rfl
    · exact (hfind res final he).trans hnone
  · intro hk1 hkn
    obtain ⟨res, final, he, _, _, _, hinv, hc, _⟩ :=
      FindKNearests_spec (KDTree.wrap root datas n_samples n_features p) coor k hk1 rfl hlt
    have hlen : res.length = k := by
      have h1 := length_eq_min_of_counted hnd hinv hc
      rw [h1, h2]
      exact Nat.min_eq_left hkn
    have hsome : copy_from res 0 k = some (res.map Prod.fst, res.map Prod.snd) := by
      rw [copy_from_some res k 0 (by omega), List.drop_zero, ← hlen, List.take_length]
    refine ⟨res, final, he, hlen, ?_, ?_, ?_⟩
    · intro i hi
      rw [List.get?_eq_getElem?, List.getElem?_eq_getElem (by omega)]
      rfl
    · rw [hcfind res final he, hsome]; rfl
    · exact (hfind res final he).trans hsome

/-- The points 5, 7, 0: with `k = 4` the copy loop reads past the three
returned pairs, with `k = 2` it copies two ids and two distances. -/
theorem CFindKNearests_bounds_witness :
    (CFindKNearests (KDTree.wrap (node 0 0 (node 2 0 null null) (node 1 0 null null))
        (memory [5, 7, 0]) 3 1 p_one) (query [10]) 4).isNone = true ∧
    (CFindKNearests (KDTree.wrap (node 0 0 (node 2 0 null null) (node 1 0 null null))
        (memory [5, 7, 0]) 3 1 p_one) (query [10]) 2).map Prod.fst
      = some ([1, 0], [-3, -5]) ∧
    1 ≤ 3 ∧
    ((3 < 4 →
      ∃ res final, FindKNearests (KDTree.wrap (node 0 0 (node 2 0 null null)
          (node 1 0 null null)) (memory [5, 7, 0]) 3 1 p_one) (query [10]) 4
          = some (res, final) ∧
        res.length = 3 ∧ (res.map Prod.fst).Perm (List.range 3) ∧
        (∀ i < 3, final.visited_buf_ i = true) ∧
        CFindKNearests (KDTree.wrap (node 0 0 (node 2 0 null null) (node 1 0 null null))
          (memory [5, 7, 0]) 3 1 p_one) (query [10]) 4 = none ∧
        find_k_nearests (tree_model.mk (KDTree.wrap (node 0 0 (node 2 0 null null)
          (node 1 0 null null)) (memory [5, 7, 0]) 3 1 p_one).root (memory [5, 7, 0])
          (memory []) 3 1 p_one) (query [10]) 4 = none) ∧
    (1 ≤ 4 → 4 ≤ 3 →
      ∃ res final, FindKNearests (KDTree.wrap (node 0 0 (node 2 0 null null)
          (node 1 0 null null)) (memory [5, 7, 0]) 3 1 p_one) (query [10]) 4
          = some (res, final) ∧
        res.length = 4 ∧ (∀ i < 4, (res.get? i).isSome = true) ∧
        CFindKNearests (KDTree.wrap (node 0 0 (node 2 0 null null) (node 1 0 null null))
          (memory [5, 7, 0]) 3 1 p_one) (query [10]) 4
          = some ((res.map Prod.fst, res.map Prod.snd), final) ∧
        find_k_nearests (tree_model.mk (KDTree.wrap (node 0 0 (node 2 0 null null)
          (node 1 0 null null)) (memory [5, 7, 0]) 3 1 p_one).root (memory [5, 7, 0])
          (memory []) 3 1 p_one) (query [10]) 4
          = some (res.map Prod.fst, res.map Prod.snd))) :=
  ⟨by decide!, by decide!, by decide,
    CFindKNearests_bounds (KDTree_build_eq_wrap p_one (by decide!)) (by decide) (memory [])
      (query [10]) 4⟩

/-! ## C14: termination of the search -/

theorem push_if_paths (c : Bool) (st : KDTree × List tree_node) (node : tree_node)
    (coor : Nat → ℚ) (k : Nat) :
    (push_if c st node coor k).2 = if c = true then node :: st.2 else st.2 := by
  unfold push_if
  cases c with
  | true => simp only [if_true]; exact HeapStackPush_paths _ _ _ _ _
  | false => rfl

/-- One iteration of the backtracking loop puts in place of the popped node a
list `cs` of at most two of its own non-null children. -/
theorem backtrack_step_children (coor : Nat → ℚ) (k : Nat) (p : tree_node)
    (st : KDTree × List tree_node) :
    ∃ cs : List tree_node, (backtrack_step coor k p st).2 = cs ++ st.2 ∧
      (∀ c ∈ cs, (c = p.left ∨ c = p.right) ∧ c ≠ null) ∧
      paths_weight cs ≤ size p.left + size p.right ∧ cs.length ≤ 2 := by
  rcases backtrack_step_cases coor k p st with
    ⟨_, _, he⟩ | ⟨c1, c2, a, b, he, hab, hc1, hc2t, _⟩
  · exact ⟨[], (by rw [he]; rfl), (fun c hc => by cases hc), Nat.zero_le _, Nat.zero_le _⟩
  · have ha : a = p.left ∨ a = p.right := by
      rcases hab with ⟨h, _⟩ | ⟨h, _⟩
      · exact Or.inl h
      · exact Or.inr h
    have hb : b = p.left ∨ b = p.right := by
      rcases hab with ⟨_, h⟩ | ⟨_, h⟩
      · exact Or.inr h
      · exact Or.inl h
    have hsum : size a + size b = size p.left + size p.right := by
      rcases hab with ⟨h1, h2⟩ | ⟨h1, h2⟩
      · rw [h1, h2]
      · rw [h1, h2]; omega
    refine ⟨(if c2 = true then [b] else []) ++ (if c1 = true then [a] else []), ?_, ?_, ?_,
      by cases c1 <;> cases c2 <;> simp⟩
    · rw [he, push_if_paths, push_if_paths]
      cases c1 <;> cases c2 <;> rfl
    · intro c hc
      rcases List.mem_append.mp hc with h | h
      · by_cases h2 : c2 = true
        · rw [if_pos h2, List.mem_singleton] at h
          subst h
          exact ⟨hb, ne_null_of_isNull (hc2t h2)⟩
        · rw [if_neg h2] at h; cases h
      · by_cases h1 : c1 = true
        · rw [if_pos h1, List.mem_singleton] at h
          subst h
          refine ⟨ha, ne_null_of_isNull ?_⟩
          rw [hc1] at h1
          simpa using h1
        · rw [if_neg h1] at h; cases h
    · have w : ∀ (c : Bool) (x : tree_node),
          paths_weight (if c = true then [x] else []) ≤ size x := by
        intro c x
        cases c
        · exact Nat.zero_le _
        · simp [paths_weight]
      have hw : paths_weight ((if c2 = true then [b] else []) ++ (if c1 = true then [a] else []))
          = paths_weight (if c2 = true then [b] else [])
            + paths_weight (if c1 = true then [a] else []) := by
        simp [paths_weight]
      have := w c1 a
      have := w c2 b
      omega

theorem paths_weight_append (xs ys : List tree_node) :
    paths_weight (xs ++ ys) = paths_weight xs + paths_weight ys := by
  simp [paths_weight]

theorem size_eq_children : ∀ {p : tree_node}, p ≠ null →
    size p = size p.left + size p.right + 1
  | null, h => absurd rfl h
  | node _ _ _ _, _ => rfl

theorem backtrack_step_weight_lt (coor : Nat → ℚ) (k : Nat) (p : tree_node)
    (st : KDTree × List tree_node) (hp : p ≠ null) :
    paths_weight (backtrack_step coor k p st).2 < paths_weight (p :: st.2) := by
  obtain ⟨cs, he, _, hw, _⟩ := backtrack_step_children coor k p st
  rw [he, paths_weight_append, paths_weight_cons, size_eq_children hp]
  omega

theorem backtrack_step_nonnull (coor : Nat → ℚ) (k : Nat) (p : tree_node)
    (st : KDTree × List tree_node) (hst : ∀ t ∈ st.2, t ≠ null) :
    ∀ t ∈ (backtrack_step coor k p st).2, t ≠ null := by
  obtain ⟨cs, he, hcs, _, _⟩ := backtrack_step_children coor k p st
  intro t ht
  rw [he] at ht
  rcases List.mem_append.mp ht with h | h
  · exact (hcs t h).2
  · exact hst t h

theorem backtrack_total (coor : Nat → ℚ) (k : Nat) :
    ∀ (fuel : Nat) (st : KDTree × List tree_node), (∀ t ∈ st.2, t ≠ null) →
      paths_weight st.2 ≤ fuel → ∃ final, backtrack coor k fuel st = some final := by
  intro fuel
  induction fuel with
  | zero =>
    rintro ⟨self, paths⟩ hnn hw
    cases paths with
    | nil => exact ⟨self, backtrack_nil _ _ _ _⟩
    | cons p rest =>
      have := size_pos_of_ne_null (hnn p (List.mem_cons_self _ _))
      simp only [paths_weight_cons] at hw
      omega
  | succ fuel ih =>
    rintro ⟨self, paths⟩ hnn hw
    cases paths with
    | nil => exact ⟨self, backtrack_nil _ _ _ _⟩
    | cons p rest =>
      have hp := hnn p (List.mem_cons_self _ _)
      have hlt := backtrack_step_weight_lt coor k p (self, rest) hp
      have hnn' := backtrack_step_nonnull coor k p (self, rest)
        (fun t ht => hnn t (List.mem_cons_of_mem _ ht))
      obtain ⟨final, he⟩ := ih (backtrack_step coor k p (self, rest)) hnn'
        (by simp only at hw hlt; omega)
      exact ⟨final, by rw [backtrack_cons]; exact he⟩

theorem descend_nonnull (coor : Nat → ℚ) (k : Nat) :
    ∀ (t : tree_node) (st : KDTree × List tree_node), (∀ x ∈ st.2, x ≠ null) →
      ∀ x ∈ (descend coor k t st).2, x ≠ null
  | null, _, h => h
  | node id s l r, st, h => by
    have h1 : ∀ x ∈ (HeapStackPush st.1 st.2 (node id s l r) coor k).2, x ≠ null := by
      intro x hx
      rw [HeapStackPush_paths] at hx
      rcases List.mem_cons.mp hx with rfl | hx
      · exact fun hc => by cases hc
      · exact h x hx
    unfold descend
    simp only []
    split_ifs
    · exact descend_nonnull coor k l _ h1
    · exact descend_nonnull coor k r _ h1

theorem FindKNearests_total (self : KDTree) (coor : Nat → ℚ) (k : Nat) :
    ∃ res final, FindKNearests self coor k = some (res, final) := by
  obtain ⟨final, he⟩ := backtrack_total coor k
    (paths_weight (descend coor k self.root (clear_visited self, [])).2)
    (descend coor k self.root (clear_visited self, []))
    (descend_nonnull coor k self.root (clear_visited self, []) (fun x hx => by cases hx))
    (le_refl _)
  exact ⟨_, _, by rw [FindKNearests_eq, he]⟩

/-- C14: for every tree, query and `k` (also `k = 0`), whatever the heap and
the visited flags hold at the start, `FindKNearests` terminates with a result.
Every iteration of the backtracking loop replaces the popped node on the path
stack by at most two of its own children (so a node can come back onto the
stack), the stack never holds a null pointer, and the number of subtree nodes
summed over the stack strictly decreases with each iteration. -/
theorem FindKNearests_terminates (self : KDTree) (coor : Nat → ℚ) (k : Nat) :
    (∃ res final, FindKNearests self coor k = some (res, final)) ∧
    (∀ (p : tree_node) (st : KDTree × List tree_node),
      ∃ cs : List tree_node, (backtrack_step coor k p st).2 = cs ++ st.2 ∧
        cs.length ≤ 2 ∧ ∀ c ∈ cs, (c = p.left ∨ c = p.right) ∧ c ≠ null) ∧
    (∀ (p : tree_node) (st : KDTree × List tree_node), p ≠ null →
      paths_weight (backtrack_step coor k p st).2 < paths_weight (p :: st.2)) ∧
    (∀ x ∈ (descend coor k self.root (clear_visited self, [])).2, x ≠ null) := by
  refine ⟨FindKNearests_total self coor k, ?_, backtrack_step_weight_lt coor k,
    descend_nonnull coor k self.root (clear_visited self, []) (fun x hx => by cases hx)⟩
  intro p st
  obtain ⟨cs, he, hcs, _, hlen⟩ := backtrack_step_children coor k p st
  exact ⟨cs, he, hlen, hcs⟩

/-! ## C19: voting -/

theorem mem_counter_add {counter : List (Int × Nat)} {t : Int} {e : Int × Nat}
    (he : e ∈ counter_add counter t) :
    (e.1 = t ∧ ((∃ c, (t, c) ∈ counter ∧ e.2 = c + 1) ∨
      ((∀ c, (t, c) ∉ counter) ∧ e.2 = 1))) ∨ (e.1 ≠ t ∧ e ∈ counter) := by
  unfold counter_add at he
  by_cases hany : counter.any (fun e => decide (e.1 = t)) = true
  · rw [if_pos hany] at he
    obtain ⟨e0, he0, rfl⟩ := List.mem_map.mp he
    by_cases h0 : e0.1 = t
    · left
      simp only [h0, if_true]
      refine ⟨trivial, Or.inl ⟨e0.2, ?_, rfl⟩⟩
      rw [← h0]; exact he0
    · right
      simp only [h0, if_false]
      exact ⟨h0, he0⟩
  · rw [if_neg hany] at he
    have hno : ∀ c, (t, c) ∉ counter := by
      intro c hc
      apply hany
      exact List.any_eq_true.mpr ⟨(t, c), hc, by simp⟩
    rcases List.mem_append.mp he with h | h
    · right
      refine ⟨?_, h⟩
      intro hc
      exact hno e.2 (by rw [← hc]; exact h)
    · rw [List.mem_singleton] at h
      left
      rw [h]
      exact ⟨rfl, Or.inr ⟨hno, rfl⟩⟩

theorem counter_add_keeps {counter : List (Int × Nat)} (t : Int) {e : Int × Nat}
    (he : e ∈ counter) : ∃ e' ∈ counter_add counter t, e'.1 = e.1 := by
  unfold counter_add
  split_ifs
  · refine ⟨_, List.mem_map_of_mem _ he, ?_⟩
    split_ifs <;> rfl
  · exact ⟨e, List.mem_append_left _ he, rfl⟩

theorem counter_add_has (counter : List (Int × Nat)) (t : Int) :
    ∃ e ∈ counter_add counter t, e.1 = t := by
  unfold counter_add
  by_cases hany : counter.any (fun e => decide (e.1 = t)) = true
  · rw [if_pos hany]
    obtain ⟨e, he, ht⟩ := List.any_eq_true.mp hany
    have ht' : e.1 = t := by simpa using ht
    refine ⟨_, List.mem_map_of_mem _ he, ?_⟩
    simp only [ht', if_true]
  · rw [if_neg hany]
    exact ⟨(t, 1), List.mem_append_right _ (List.mem_singleton.mpr rfl), rfl⟩

theorem counter_add_inv {counter : List (Int × Nat)} {seen : List Int} (t : Int)
    (h1 : ∀ e ∈ counter, e.2 = seen.count e.1 ∧ 0 < e.2)
    (h2 : ∀ u ∈ seen, ∃ e ∈ counter, e.1 = u) :
    (∀ e ∈ counter_add counter t, e.2 = (seen ++ [t]).count e.1 ∧ 0 < e.2) ∧
    (∀ u ∈ seen ++ [t], ∃ e ∈ counter_add counter t, e.1 = u) := by
  constructor
  · intro e he
    rw [List.count_append]
    rcases mem_counter_add he with ⟨ht, hc | hc⟩ | ⟨hne, hmem⟩
    · obtain ⟨c, hc1, hc2⟩ := hc
      have := (h1 _ hc1).1
      simp only at this
      rw [ht, hc2, this]
      simp
    · obtain ⟨hno, hc2⟩ := hc
      have hzero : seen.count t = 0 := by
        by_contra hpos
        have hmem : t ∈ seen := List.count_pos_iff.mp (Nat.pos_of_ne_zero hpos)
        obtain ⟨e', he', hk⟩ := h2 t hmem
        apply hno e'.2
        rw [← hk]
        exact he'
      rw [ht, hc2, hzero]
      simp
    · obtain ⟨a, b⟩ := h1 e hmem
      refine ⟨?_, b⟩
      rw [a]
      have : List.count e.1 [t] = 0 := by
        rw [List.count_eq_zero]
        intro hc
        exact hne (List.mem_singleton.mp hc)
      rw [this, Nat.add_zero]
  · intro u hu
    rcases List.mem_append.mp hu with h | h
    · obtain ⟨e, he, hk⟩ := h2 u h
      obtain ⟨e', he', hk'⟩ := counter_add_keeps t he
      exact ⟨e', he', hk'.trans hk⟩
    · rw [List.mem_singleton] at h
      rw [h]
      exact counter_add_has counter t

theorem count_labels_fold (arr : List ℚ) :
    ∀ (counter : List (Int × Nat)) (seen : List Int),
      (∀ e ∈ counter, e.2 = seen.count e.1 ∧ 0 < e.2) →
      (∀ u ∈ seen, ∃ e ∈ counter, e.1 = u) →
      (∀ e ∈ arr.foldl (fun counter x => counter_add counter (trunc_int x)) counter,
        e.2 = (seen ++ arr.map trunc_int).count e.1 ∧ 0 < e.2) ∧
      (∀ u ∈ seen ++ arr.map trunc_int,
        ∃ e ∈ arr.foldl (fun counter x => counter_add counter (trunc_int x)) counter,
          e.1 = u) := by
  induction arr with
  | nil =>
    intro counter seen h1 h2
    simp only [List.foldl_nil, List.map_nil, List.append_nil]
    exact ⟨h1, h2⟩
  | cons x rest ih =>
    intro counter seen h1 h2
    obtain ⟨a, b⟩ := counter_add_inv (trunc_int x) h1 h2
    have := ih (counter_add counter (trunc_int x)) (seen ++ [trunc_int x]) a b
    simpa [List.append_assoc] using this

/-- The map built by the first loop of `vote` holds, for every truncated label
of the array, its number of occurrences, and nothing else. -/
theorem count_labels_spec (arr : List ℚ) :
    (∀ e ∈ count_labels arr, e.2 = (arr.map trunc_int).count e.1 ∧ 0 < e.2) ∧
    (∀ u ∈ arr.map trunc_int, ∃ e ∈ count_labels arr, e.1 = u) := by
  have := count_labels_fold arr [] [] (fun e he => by cases he) (fun u hu => by cases hu)
  simpa [count_labels] using this

theorem vote_select_fold (es : List (Int × Nat)) :
    ∀ cur : ℚ × Nat,
      (es.foldl (fun (cur : ℚ × Nat) i => if i.2 ≥ cur.2 then ((i.1 : ℚ), i.2) else cur) cur = cur ∨
        ∃ e ∈ es,
          es.foldl (fun (cur : ℚ × Nat) i => if i.2 ≥ cur.2 then ((i.1 : ℚ), i.2) else cur) cur
            = ((e.1 : ℚ), e.2)) ∧
      cur.2 ≤
        (es.foldl (fun (cur : ℚ × Nat) i => if i.2 ≥ cur.2 then ((i.1 : ℚ), i.2) else cur) cur).2 ∧
      ∀ e ∈ es, e.2 ≤
        (es.foldl (fun (cur : ℚ × Nat) i => if i.2 ≥ cur.2 then ((i.1 : ℚ), i.2) else cur) cur).2 := by
  induction es with
  | nil => intro cur; exact ⟨Or.inl rfl, le_refl _, fun e he => by cases he⟩
  | cons i rest ih =>
    intro cur
    simp only [List.foldl_cons]
    by_cases hge : i.2 ≥ cur.2
    · rw [if_pos hge]
      obtain ⟨h1, h2, h3⟩ := ih ((i.1 : ℚ), i.2)
      refine ⟨Or.inr ?_, le_trans hge h2, ?_⟩
      · rcases h1 with h | ⟨e, he, h⟩
        · exact ⟨i, List.mem_cons_self _ _, h⟩
        · exact ⟨e, List.mem_cons_of_mem _ he, h⟩
      · intro e he
        rcases List.mem_cons.mp he with rfl | he
        · exact h2
        · exact h3 e he
    · rw [if_neg hge]
      obtain ⟨h1, h2, h3⟩ := ih cur
      refine ⟨?_, h2, ?_⟩
      · rcases h1 with h | ⟨e, he, h⟩
        · exact Or.inl h
        · exact Or.inr ⟨e, List.mem_cons_of_mem _ he, h⟩
      · intro e he
        rcases List.mem_cons.mp he with rfl | he
        · exact le_trans (le_of_lt (not_le.mp hge)) h2
        · exact h3 e he

theorem vote_select_spec (es : List (Int × Nat)) (hne : es ≠ []) :
    ∃ e ∈ es, vote_select es = ((e.1 : ℚ), e.2) ∧ ∀ e' ∈ es, e'.2 ≤ e.2 := by
  obtain ⟨i, rest, rfl⟩ := List.exists_cons_of_ne_nil hne
  obtain ⟨h1, h2, h3⟩ := vote_select_fold rest ((i.1 : ℚ), i.2)
  have hstep : vote_select (i :: rest)
      = rest.foldl (fun (cur : ℚ × Nat) i => if i.2 ≥ cur.2 then ((i.1 : ℚ), i.2) else cur)
          ((i.1 : ℚ), i.2) := by
    simp [vote_select]
  rw [hstep]
  rcases h1 with h | ⟨e, he, h⟩
  · refine ⟨i, List.mem_cons_self _ _, h, ?_⟩
    intro e' he'
    rw [h] at h3
    rcases List.mem_cons.mp he' with rfl | he'
    · exact le_refl _
    · exact h3 e' he'
  · refine ⟨e, List.mem_cons_of_mem _ he, h, ?_⟩
    intro e' he'
    rw [h] at h2 h3
    rcases List.mem_cons.mp he' with rfl | he'
    · exact h2
    · exact h3 e' he'

/-- The result of the second loop of `vote` for an order `es` of the map's
entries is a plurality label. -/
theorem vote_select_plurality (arr : List ℚ) (hne : arr ≠ []) (es : List (Int × Nat))
    (hperm : es.Perm (count_labels arr)) :
    ∃ x ∈ arr, (vote_select es).1 = ((trunc_int x : Int) : ℚ) ∧
      ∀ y ∈ arr, (arr.map trunc_int).count (trunc_int y)
        ≤ (arr.map trunc_int).count (trunc_int x) := by
  obtain ⟨hc1, hc2⟩ := count_labels_spec arr
  obtain ⟨x0, rest, rfl⟩ := List.exists_cons_of_ne_nil hne
  have hes : es ≠ [] := by
    obtain ⟨e, he, _⟩ := hc2 (trunc_int x0) (List.mem_map_of_mem _ (List.mem_cons_self _ _))
    intro hnil
    rw [hnil] at hperm
    have := hperm.mem_iff.mpr he
    cases this
  obtain ⟨e, he, hsel, hmax⟩ := vote_select_spec es hes
  have he' := hperm.mem_iff.mp he
  obtain ⟨hcount, hpos⟩ := hc1 e he'
  have hmem : e.1 ∈ (x0 :: rest).map trunc_int := by
    apply List.count_pos_iff.mp
    rw [← hcount]; exact hpos
  obtain ⟨x, hx, hxe⟩ := List.mem_map.mp hmem
  refine ⟨x, hx, by rw [hsel, hxe], ?_⟩
  intro y hy
  obtain ⟨e2, he2, hk2⟩ := hc2 (trunc_int y) (List.mem_map_of_mem _ hy)
  have := hmax e2 (hperm.mem_iff.mpr he2)
  rw [hxe, ← hcount, ← hk2, ← (hc1 e2 he2).1]
  exact this

/-- C19: for every non-empty label array `vote` returns a plurality label: the
returned value is the truncation to an integer of some array element,
converted back, and no truncated label occurs in the array more often.  The
same holds for every order in which the map's entries may be iterated. -/
theorem vote_returns_plurality_label (arr : List ℚ) (hne : arr ≠ []) :
    (∃ x ∈ arr, vote arr = ((trunc_int x : Int) : ℚ) ∧
      ∀ y ∈ arr, (arr.map trunc_int).count (trunc_int y)
        ≤ (arr.map trunc_int).count (trunc_int x)) ∧
    ∀ es : List (Int × Nat), es.Perm (count_labels arr) →
      ∃ x ∈ arr, (vote_select es).1 = ((trunc_int x : Int) : ℚ) ∧
        ∀ y ∈ arr, (arr.map trunc_int).count (trunc_int y)
          ≤ (arr.map trunc_int).count (trunc_int x) :=
  ⟨vote_select_plurality arr hne (count_labels arr) (List.Perm.refl _),
    vote_select_plurality arr hne⟩

/-- The labels 1, 2.5, 2, 0.5, 2.9: label 2 occurs three times after
truncation and wins. -/
theorem vote_returns_plurality_label_witness :
    [1, 5 / 2, 2, 1 / 2, 29 / 10] ≠ ([] : List ℚ) ∧
    vote [1, 5 / 2, 2, 1 / 2, 29 / 10] = 2 ∧
    count_labels [1, 5 / 2, 2, 1 / 2, 29 / 10] = [(1, 1), (2, 3), (0, 1)] ∧
    ((∃ x ∈ [1, 5 / 2, 2, 1 / 2, 29 / 10],
      vote [1, 5 / 2, 2, 1 / 2, 29 / 10] = ((trunc_int x : Int) : ℚ) ∧
      ∀ y ∈ [1, 5 / 2, 2, 1 / 2, 29 / 10],
        (([1, 5 / 2, 2, 1 / 2, 29 / 10] : List ℚ).map trunc_int).count (trunc_int y)
          ≤ (([1, 5 / 2, 2, 1 / 2, 29 / 10] : List ℚ).map trunc_int).count (trunc_int x)) ∧
    ∀ es : List (Int × Nat), es.Perm (count_labels [1, 5 / 2, 2, 1 / 2, 29 / 10]) →
      ∃ x ∈ [1, 5 / 2, 2, 1 / 2, 29 / 10],
        (vote_select es).1 = ((trunc_int x : Int) : ℚ) ∧
        ∀ y ∈ [1, 5 / 2, 2, 1 / 2, 29 / 10],
          (([1, 5 / 2, 2, 1 / 2, 29 / 10] : List ℚ).map trunc_int).count (trunc_int y)
            ≤ (([1, 5 / 2, 2, 1 / 2, 29 / 10] : List ℚ).map trunc_int).count (trunc_int x)) :=
  ⟨by decide, by decide!, by decide!,
    vote_returns_plurality_label [1, 5 / 2, 2, 1 / 2, 29 / 10] (by decide)⟩

/-! ## C17: identical points -/

theorem BuildTreeAux_mono (datas : Nat → ℚ) (n_features : Nat) :
    ∀ (fuel : Nat) (points : List Nat) (t : tree_node),
      BuildTreeAux datas n_features fuel points = some t →
      BuildTreeAux datas n_features (fuel + 1) points = some t := by
  intro fuel
  induction fuel with
  | zero => intro points t h; cases h
  | succ fuel ih =>
    intro points t h
    rw [BuildTreeAux_succ] at h ⊢
    have hl : ∀ l, (if (build_left datas n_features points).isEmpty then some null
          else BuildTreeAux datas n_features fuel (build_left datas n_features points)) = some l →
        (if (build_left datas n_features points).isEmpty then some null
          else BuildTreeAux datas n_features (fuel + 1) (build_left datas n_features points))
          = some l := by
      intro l hl
      split_ifs at hl ⊢
      · exact hl
      · exact ih _ _ hl
    have hr : ∀ r, (if (build_right datas n_features points).isEmpty then some null
          else BuildTreeAux datas n_features fuel (build_right datas n_features points)) = some r →
        (if (build_right datas n_features points).isEmpty then some null
          else BuildTreeAux datas n_features (fuel + 1) (build_right datas n_features points))
          = some r := by
      intro r hr
      split_ifs at hr ⊢
      · exact hr
      · exact ih _ _ hr
    generalize hA : (if (build_left datas n_features points).isEmpty then some null
          else BuildTreeAux datas n_features fuel (build_left datas n_features points)) = A at h hl
    generalize hB : (if (build_right datas n_features points).isEmpty then some null
          else BuildTreeAux datas n_features fuel (build_right datas n_features points)) = B at h hr
    cases A with
    | none => cases h
    | some l =>
      cases B with
      | none => cases h
      | some r =>
        rw [hl l rfl, hr r rfl]
        exact h

theorem BuildTreeAux_mono_add (datas : Nat → ℚ) (n_features : Nat) (fuel : Nat)
    (points : List Nat) (t : tree_node)
    (h : BuildTreeAux datas n_features fuel points = some t) :
    ∀ d : Nat, BuildTreeAux datas n_features (fuel + d) points = some t
  | 0 => h
  | d + 1 => BuildTreeAux_mono datas n_features (fuel + d) points t
      (BuildTreeAux_mono_add datas n_features fuel points t h d)

/-- The recursion of `BuildTree` goes as deep as the tree is high. -/
theorem BuildTreeAux_height (datas : Nat → ℚ) (n_features : Nat) :
    ∀ (fuel : Nat) (points : List Nat) (t : tree_node),
      BuildTreeAux datas n_features fuel points = some t → height t ≤ fuel := by
  intro fuel
  induction fuel with
  | zero => intro points t h; cases h
  | succ fuel ih =>
    intro points t h
    rw [BuildTreeAux_succ] at h
    have hl : ∀ l, (if (build_left datas n_features points).isEmpty then some null
          else BuildTreeAux datas n_features fuel (build_left datas n_features points)) = some l →
        height l ≤ fuel := by
      intro l hl
      split_ifs at hl
      · cases hl; exact Nat.zero_le _
      · exact ih _ _ hl
    have hr : ∀ r, (if (build_right datas n_features points).isEmpty then some null
          else BuildTreeAux datas n_features fuel (build_right datas n_features points)) = some r →
        height r ≤ fuel := by
      intro r hr
      split_ifs at hr
      · cases hr; exact Nat.zero_le _
      · exact ih _ _ hr
    generalize (if (build_left datas n_features points).isEmpty then some null
          else BuildTreeAux datas n_features fuel (build_left datas n_features points)) = A at h hl
    generalize (if (build_right datas n_features points).isEmpty then some null
          else BuildTreeAux datas n_features fuel (build_right datas n_features points)) = B at h hr
    cases A with
    | none => cases h
    | some l =>
      cases B with
      | none => cases h
      | some r =>
        cases h
        have := hl l rfl
        have := hr r rfl
        simp only [height]
        omega

theorem BuildTreeAux_none_of_lt_height (datas : Nat → ℚ) (n_features : Nat)
    (points : List Nat) (t : tree_node) (h : BuildTree datas n_features points = some t)
    (fuel : Nat) (hlt : fuel < height t) :
    BuildTreeAux datas n_features fuel points = none := by
  cases hf : BuildTreeAux datas n_features fuel points with
  | none => rfl
  | some t' =>
    exfalso
    have hle : fuel ≤ points.length + 1 := by
      have := BuildTreeAux_height datas n_features _ _ _ h
      omega
    have h2 := BuildTreeAux_mono_add datas n_features fuel points t' hf (points.length + 1 - fuel)
    rw [Nat.add_sub_cancel' hle] at h2
    have e : t' = t := Option.some.inj (h2.symm.trans h)
    subst e
    have := BuildTreeAux_height datas n_features _ _ _ hf
    omega

theorem split_value_eq_of_identical (datas : Nat → ℚ) (n_features : Nat) (points : List Nat)
    (hne : points ≠ [])
    (hq : ∀ i ∈ points, ∀ j ∈ points, ∀ s < n_features,
      GetDimVal datas n_features i s = GetDimVal datas n_features j s) :
    ∀ i ∈ points, ∀ j ∈ points,
      GetDimVal datas n_features i (FindSplitDim datas n_features points)
        = GetDimVal datas n_features j (FindSplitDim datas n_features points) := by
  intro i hi j hj
  rcases Nat.eq_zero_or_pos n_features with h0 | hpos
  · subst h0
    simp [GetDimVal]
  · exact hq i hi j hj _ (FindSplitDim_lt datas n_features points hne hpos)

theorem BuildTree_chain_of_identical (datas : Nat → ℚ) (n_features : Nat) (points : List Nat)
    (hne : points ≠ []) (hnd : points.Nodup)
    (hq : ∀ i ∈ points, ∀ j ∈ points, ∀ s < n_features,
      GetDimVal datas n_features i s = GetDimVal datas n_features j s) :
    ∃ t, BuildTree datas n_features points = some t ∧
      (∀ x ∈ nodes t, x.right = null) ∧ height t = points.length := by
  obtain ⟨t, ht, hP⟩ := BuildTree_induct datas n_features
    (fun points t => points.Nodup →
      (∀ i ∈ points, ∀ j ∈ points, ∀ s < n_features,
        GetDimVal datas n_features i s = GetDimVal datas n_features j s) →
      (∀ x ∈ nodes t, x.right = null) ∧ height t = points.length) (by
      intro points l r hne hl hr hnd hq
      have heq := split_value_eq_of_identical datas n_features points hne hq
      have hpm := pivot_mem datas n_features points hne
      have hpv := pivot_val datas n_features points hne
      have hright : build_right datas n_features points = [] := by
        apply List.eq_nil_iff_forall_not_mem.mpr
        intro i hi
        obtain ⟨him, _, hlt⟩ := mem_build_right.mp hi
        rw [hpv, heq _ hpm i him] at hlt
        exact lt_irrefl _ hlt
      rw [if_pos hright] at hr
      subst hr
      have hlen := (perm_build_parts datas n_features points hne hnd).length_eq
      rw [hright, List.append_nil, List.length_cons] at hlen
      have hqL : ∀ i ∈ build_left datas n_features points,
          ∀ j ∈ build_left datas n_features points, ∀ s < n_features,
          GetDimVal datas n_features i s = GetDimVal datas n_features j s :=
        fun i hi j hj s hs => hq i (mem_build_left.mp hi).1 j (mem_build_left.mp hj).1 s hs
      by_cases hleft : build_left datas n_features points = []
      · rw [if_pos hleft] at hl
        subst hl
        rw [hleft] at hlen
        refine ⟨?_, by simp only [height]; rw [hlen]; rfl⟩
        intro x hx
        simp only [nodes, List.append_nil, List.mem_singleton] at hx
        rw [hx]; rfl
      · rw [if_neg hleft] at hl
        obtain ⟨h1, h2⟩ := hl (build_left_nodup datas n_features points hnd) hqL
        refine ⟨?_, by simp only [height]; rw [h2, hlen]; simp⟩
        intro x hx
        simp only [nodes, List.append_nil, List.mem_cons] at hx
        rcases hx with rfl | hx
        · rfl
        · exact h1 x hx) points hne
  exact ⟨t, ht, hP hnd hq⟩

/-- C17: for every `n ≥ 1`, when the `n` points have identical coordinates
(every point agrees with point 0 on every feature), the tree built over
`[0, n)` is a left-only chain: no node has a right child, the tree has `n`
nodes and height `n`, and the recursion of `BuildTree` needs depth `n` (with
any smaller bound on the depth it does not finish). -/
theorem BuildTree_identical_points_chain (datas : Nat → ℚ) (n n_features : Nat) (hn : 1 ≤ n)
    (hident : ∀ i < n, ∀ s < n_features,
      GetDimVal datas n_features i s = GetDimVal datas n_features 0 s) :
    ∃ t, BuildTree datas n_features (List.range n) = some t ∧
      (∀ x ∈ nodes t, x.right = null) ∧ height t = n ∧ size t = n ∧
      BuildTreeAux datas n_features n (List.range n) = some t ∧
      ∀ fuel < n, BuildTreeAux datas n_features fuel (List.range n) = none := by
  have hne : List.range n ≠ [] := by
    intro h
    have := congrArg List.length h
    simp at this
    omega
  obtain ⟨t, ht, hchain, hheight⟩ := BuildTree_chain_of_identical datas n_features
    (List.range n) hne (List.nodup_range n) (by
      intro i hi j hj s hs
      rw [hident i (List.mem_range.mp hi) s hs, hident j (List.mem_range.mp hj) s hs])
  rw [List.length_range] at hheight
  obtain ⟨t', ht', hperm⟩ := BuildTree_ids_perm datas n_features (List.range n) hne
    (List.nodup_range n)
  have e : t' = t := Option.some.inj (ht'.symm.trans ht)
  subst e
  obtain ⟨t'', ht'', _⟩ := BuildTreeAux_induct datas n_features (fun _ _ => True)
    (fun _ _ _ _ _ _ => trivial) n (List.range n) hne (by rw [List.length_range])
  have e2 : t'' = t' := by
    have := BuildTreeAux_mono datas n_features n (List.range n) t'' ht''
    have hb : BuildTree datas n_features (List.range n)
        = BuildTreeAux datas n_features (n + 1) (List.range n) := by
      simp only [BuildTree, List.length_range]
    rw [hb] at ht
    exact Option.some.inj (this.symm.trans ht)
  subst e2
  refine ⟨t'', ht, hchain, hheight, ?_, ht'', ?_⟩
  · rw [size_eq_length_ids, hperm.length_eq, List.length_range]
  · intro fuel hf
    exact BuildTreeAux_none_of_lt_height datas n_features (List.range n) t'' ht fuel
      (by omega)

/-- Four copies of the point (3, 3): a chain 3 - 2 - 1 - 0 of left children. -/
theorem BuildTree_identical_points_chain_witness :
    BuildTree (memory [3, 3, 3, 3, 3, 3, 3, 3]) 2 (List.range 4)
      = some (node 2 0 (node 1 0 (node 3 0 (node 0 0 null null) null) null) null) ∧
    1 ≤ 4 ∧
    ∃ t, BuildTree (memory [3, 3, 3, 3, 3, 3, 3, 3]) 2 (List.range 4) = some t ∧
      (∀ x ∈ nodes t, x.right = null) ∧ height t = 4 ∧ size t = 4 ∧
      BuildTreeAux (memory [3, 3, 3, 3, 3, 3, 3, 3]) 2 4 (List.range 4) = some t ∧
      ∀ fuel < 4, BuildTreeAux (memory [3, 3, 3, 3, 3, 3, 3, 3]) 2 fuel (List.range 4) = none :=
  ⟨by decide!, by decide,
    BuildTree_identical_points_chain (memory [3, 3, 3, 3, 3, 3, 3, 3]) 4 2 (by decide)
      (by decide!)⟩

/-! ## C18: balance -/

/-- The sorted buffer of `MidElement` splits around the returned element, with
`len / 2` entries in front of it. -/
theorem nth_element_split (datas : Nat → ℚ) (n_features : Nat) (points : List Nat) (dim : Nat)
    (hne : points ≠ []) :
    ∃ front back : List neighbor,
      nth_element (points.map fun i => (i, GetDimVal datas n_features i dim))
        = front ++ MidElement datas n_features points dim :: back ∧
      front.length = points.length / 2 ∧
      front.length + back.length + 1 = points.length := by
  have hlt : points.length / 2 <
      (nth_element (points.map fun i => (i, GetDimVal datas n_features i dim))).length := by
    rw [nth_element_length, List.length_map]
    exact Nat.div_lt_self (List.length_pos.mpr hne) (by norm_num)
  have hmid : MidElement datas n_features points dim
      = (nth_element (points.map fun i => (i, GetDimVal datas n_features i dim)))[points.length / 2] := by
    unfold MidElement
    simp only []
    rw [List.getD_eq_getElem _ _ hlt]
  refine ⟨(nth_element (points.map fun i => (i, GetDimVal datas n_features i dim))).take
      (points.length / 2),
    (nth_element (points.map fun i => (i, GetDimVal datas n_features i dim))).drop
      (points.length / 2 + 1), ?_, ?_, ?_⟩
  · rw [hmid, ← List.drop_eq_getElem_cons hlt, List.take_append_drop]
  · rw [List.length_take]
    exact Nat.min_eq_left (le_of_lt hlt)
  · rw [List.length_take, List.length_drop, nth_element_length, List.length_map] at *
    omega

/-- The two lists `BuildTree` recurses on, counted: at least `len / 2` points
go left, and exactly `len / 2` when the values at the split dimension are
pairwise different. -/
theorem build_parts_count (datas : Nat → ℚ) (n_features : Nat) (points : List Nat)
    (hne : points ≠ []) (hnd : points.Nodup) :
    (build_left datas n_features points).length
      + (build_right datas n_features points).length + 1 = points.length ∧
    points.length / 2 ≤ (build_left datas n_features points).length ∧
    ((points.map fun i =>
        GetDimVal datas n_features i (FindSplitDim datas n_features points)).Nodup →
      (build_left datas n_features points).length = points.length / 2) := by
  obtain ⟨front, back, hsplit, hfl, hlen⟩ := nth_element_split datas n_features points
    (FindSplitDim datas n_features points) hne
  have hperm := nth_element_perm
    (points.map fun i => (i, GetDimVal datas n_features i (FindSplitDim datas n_features points)))
  rw [hsplit] at hperm
  have hsorted := nth_element_sorted
    (points.map fun i => (i, GetDimVal datas n_features i (FindSplitDim datas n_features points)))
  rw [hsplit] at hsorted
  have hmem : ∀ a ∈ front ++ MidElement datas n_features points
        (FindSplitDim datas n_features points) :: back,
      a.1 ∈ points ∧ a.2 = GetDimVal datas n_features a.1
        (FindSplitDim datas n_features points) := by
    intro a ha
    obtain ⟨i, hi, rfl⟩ := List.mem_map.mp (hperm.mem_iff.mp ha)
    exact ⟨hi, rfl⟩
  have hfst : ((front ++ MidElement datas n_features points
        (FindSplitDim datas n_features points) :: back).map Prod.fst).Nodup := by
    have h1 := hperm.map Prod.fst
    have h2 : (points.map fun i => (i, GetDimVal datas n_features i
        (FindSplitDim datas n_features points))).map Prod.fst = points := by
      rw [List.map_map]
      exact List.map_id'' (fun _ => rfl) points
    rw [h2] at h1
    exact h1.nodup_iff.mpr hnd
  have hsnd : ((front ++ MidElement datas n_features points
        (FindSplitDim datas n_features points) :: back).map Prod.snd).Perm
      (points.map fun i =>
        GetDimVal datas n_features i (FindSplitDim datas n_features points)) := by
    have h1 := hperm.map Prod.snd
    rw [List.map_map] at h1
    exact h1
  have htotal := (perm_build_parts datas n_features points hne hnd).length_eq
  simp only [List.length_cons, List.length_append] at htotal
  rw [List.map_append, List.map_cons] at hfst
  have hfront_nd : (front.map Prod.fst).Nodup := (List.nodup_append.mp hfst).1
  have hpiv_notin_front : (pivot datas n_features points).1 ∉ front.map Prod.fst := by
    intro hc
    exact (List.nodup_append.mp hfst).2.2 hc (List.mem_cons_self _ _)
  have hfront_sub : front.map Prod.fst ⊆ build_left datas n_features points := by
    intro i hi
    obtain ⟨a, ha, rfl⟩ := List.mem_map.mp hi
    obtain ⟨h1, h2⟩ := hmem a (List.mem_append_left _ ha)
    refine mem_build_left.mpr ⟨h1, ?_, ?_⟩
    · intro hc
      exact hpiv_notin_front (hc ▸ hi)
    · rw [← h2]
      exact (List.pairwise_append.mp hsorted).2.2 a ha _ (List.mem_cons_self _ _)
  have hge : points.length / 2 ≤ (build_left datas n_features points).length := by
    have := (hfront_nd.subperm hfront_sub).length_le
    rw [List.length_map, hfl] at this
    exact this
  refine ⟨by omega, hge, ?_⟩
  intro hvals
  have hsnd_nd : ((front ++ MidElement datas n_features points
        (FindSplitDim datas n_features points) :: back).map Prod.snd).Nodup :=
    hsnd.nodup_iff.mpr hvals
  rw [List.map_append, List.map_cons] at hsnd_nd
  have hback_fst_nd : (back.map Prod.fst).Nodup :=
    (List.nodup_cons.mp (List.nodup_append.mp hfst).2.1).2
  have hback_sub : back.map Prod.fst ⊆ build_right datas n_features points := by
    intro i hi
    obtain ⟨a, ha, rfl⟩ := List.mem_map.mp hi
    obtain ⟨h1, h2⟩ := hmem a (List.mem_append_right _ (List.mem_cons_of_mem _ ha))
    have hle : (pivot datas n_features points).2 ≤ a.2 :=
      List.rel_of_sorted_cons (List.pairwise_append.mp hsorted).2.1 a ha
    have hne2 : (pivot datas n_features points).2 ≠ a.2 := by
      intro hc
      have hnot := (List.nodup_cons.mp (List.nodup_append.mp hsnd_nd).2.1).1
      apply hnot
      show (MidElement datas n_features points (FindSplitDim datas n_features points)).2
        ∈ back.map Prod.snd
      exact List.mem_map.mpr ⟨a, ha, hc.symm⟩
    refine mem_build_right.mpr ⟨h1, ?_, ?_⟩
    · intro hc
      have hnot := (List.nodup_cons.mp (List.nodup_append.mp hfst).2.1).1
      apply hnot
      show (MidElement datas n_features points (FindSplitDim datas n_features points)).1
        ∈ back.map Prod.fst
      exact List.mem_map.mpr ⟨a, ha, hc⟩
    · rw [← h2]
      exact lt_of_le_of_ne hle hne2
  have hge2 := (hback_fst_nd.subperm hback_sub).length_le
  rw [List.length_map] at hge2
  omega

theorem height_eq_zero_of_size : ∀ {t : tree_node}, size t = 0 → height t = 0
  | null, _ => rfl
  | node _ _ l r, h => by simp only [size] at h; omega

/-- A tree in which every left subtree holds half of the node's points (rounded
down) is at most `log2 (size) + 1` high. -/
theorem height_le_log_of_halved :
    ∀ (t : tree_node),
      (∀ id s l r, node id s l r ∈ nodes t → size l = size (node id s l r) / 2) →
      height t ≤ Nat.log 2 (size t) + 1
  | null, _ => Nat.zero_le _
  | node id s l r, h => by
    have hself := h id s l r (List.mem_cons_self _ _)
    have hsz : size (node id s l r) = size l + size r + 1 := rfl
    have ihl := height_le_log_of_halved l (fun id' s' l' r' hm =>
      h id' s' l' r' (by
        simp only [nodes, List.mem_cons, List.mem_append]
        exact Or.inr (Or.inl hm)))
    have ihr := height_le_log_of_halved r (fun id' s' l' r' hm =>
      h id' s' l' r' (by
        simp only [nodes, List.mem_cons, List.mem_append]
        exact Or.inr (Or.inr hm)))
    have key : ∀ c : tree_node, size c ≤ size (node id s l r) / 2 →
        height c ≤ Nat.log 2 (size c) + 1 → height c ≤ Nat.log 2 (size (node id s l r)) := by
      intro c hc hh
      rcases Nat.eq_zero_or_pos (size c) with h0 | hpos
      · rw [height_eq_zero_of_size h0]; exact Nat.zero_le _
      · have h2 : 2 ≤ size (node id s l r) := by omega
        have hlog := Nat.log_of_one_lt_of_le (by norm_num : 1 < 2) h2
        have hmono : Nat.log 2 (size c) ≤ Nat.log 2 (size (node id s l r) / 2) :=
          Nat.log_mono_right hc
        omega
    have hl := key l (by omega) ihl
    have hr := key r (by omega) ihr
    simp only [height]
    omega

/-- Balance of the built tree, node by node: the ids are those of the list, at
least half of a node's points (rounded down) lie in its left subtree, and
exactly half when the values of the node's points at its split dimension are
pairwise different. -/
theorem BuildTree_balance (datas : Nat → ℚ) (n_features : Nat) (points : List Nat)
    (hne : points ≠ []) (hnd : points.Nodup) :
    ∃ t, BuildTree datas n_features points = some t ∧ (ids t).Perm points ∧
      ∀ id s l r, node id s l r ∈ nodes t →
        size (node id s l r) / 2 ≤ size l ∧
        (((ids (node id s l r)).map fun i => GetDimVal datas n_features i s).Nodup →
          size l = size (node id s l r) / 2) := by
  obtain ⟨t, ht, hP⟩ := BuildTree_induct datas n_features
    (fun points t => points.Nodup → (ids t).Perm points ∧
      ∀ id s l r, node id s l r ∈ nodes t →
        size (node id s l r) / 2 ≤ size l ∧
        (((ids (node id s l r)).map fun i => GetDimVal datas n_features i s).Nodup →
          size l = size (node id s l r) / 2)) (by
      intro points l r hne hl hr hnd
      have hL : (ids l).Perm (build_left datas n_features points) ∧
          ∀ id s l' r', node id s l' r' ∈ nodes l →
            size (node id s l' r') / 2 ≤ size l' ∧
            (((ids (node id s l' r')).map fun i => GetDimVal datas n_features i s).Nodup →
              size l' = size (node id s l' r') / 2) := by
        split at hl
        · next he =>
          subst hl
          rw [he]
          exact ⟨List.Perm.refl _, fun _ _ _ _ hm => by simp [nodes] at hm⟩
        · exact hl (build_left_nodup datas n_features points hnd)
      have hR : (ids r).Perm (build_right datas n_features points) ∧
          ∀ id s l' r', node id s l' r' ∈ nodes r →
            size (node id s l' r') / 2 ≤ size l' ∧
            (((ids (node id s l' r')).map fun i => GetDimVal datas n_features i s).Nodup →
              size l' = size (node id s l' r') / 2) := by
        split at hr
        · next he =>
          subst hr
          rw [he]
          exact ⟨List.Perm.refl _, fun _ _ _ _ hm => by simp [nodes] at hm⟩
        · exact hr (build_right_nodup datas n_features points hnd)
      have hperm : (ids (node (pivot datas n_features points).1
          (FindSplitDim datas n_features points) l r)).Perm points := by
        simp only [ids]
        exact (List.Perm.cons _ (hL.1.append hR.1)).trans
          (perm_build_parts datas n_features points hne hnd).symm
      refine ⟨hperm, ?_⟩
      intro id s l' r' hm
      simp only [nodes, List.mem_cons, List.mem_append] at hm
      rcases hm with hm | hm | hm
      · cases hm
        obtain ⟨h1, h2, h3⟩ := build_parts_count datas n_features points hne hnd
        have hsl : size l = (build_left datas n_features points).length := by
          rw [size_eq_length_ids, hL.1.length_eq]
        have hsn : size (node (pivot datas n_features points).1
            (FindSplitDim datas n_features points) l r) = points.length := by
          rw [size_eq_length_ids, hperm.length_eq]
        rw [hsl, hsn]
        refine ⟨h2, fun hv => h3 ?_⟩
        exact (hperm.map _).nodup_iff.mp hv
      · exact hL.2 id s l' r' hm
      · exact hR.2 id s l' r' hm) points hne
  obtain ⟨h1, h2⟩ := hP hnd
  exact ⟨t, ht, h1, h2⟩

theorem log_two_seven : Nat.log 2 7 = 2 := by
  rw [Nat.log_of_one_lt_of_le (by norm_num) (by norm_num),
    Nat.log_of_one_lt_of_le (by norm_num) (by norm_num), Nat.log_of_lt (by norm_num)]

/-- Pairwise different values at the root's split dimension do not bound the
height (closed instance): the seven points of `skew_data` are split at the
root on feature 0, where their values are pairwise different, into three and
three, but the left part is split on feature 1, where two points tie, and the
tree is 4 high, more than `log2 7 + 1 = 3`. -/
theorem BuildTree_height_exceeds_log :
    ∃ t, BuildTree skew_data 2 (List.range 7) = some t ∧
      FindSplitDim skew_data 2 (List.range 7) = 0 ∧
      ((List.range 7).map fun i =>
        GetDimVal skew_data 2 i (FindSplitDim skew_data 2 (List.range 7))).Nodup ∧
      size t.left = 7 / 2 ∧ size t.right = (7 + 1) / 2 - 1 ∧
      height t = 4 ∧ Nat.log 2 (List.range 7).length + 1 = 3 ∧
      ¬ height t ≤ Nat.log 2 (List.range 7).length + 1 := by
  refine ⟨node 3 0 (node 1 1 (node 2 1 (node 0 0 null null) null) null)
    (node 5 0 (node 4 0 null null) (node 6 0 null null)), by decide!, by decide!, by decide!,
    by decide, by decide, by decide, ?_, ?_⟩
  · rw [List.length_range, log_two_seven]
  · rw [List.length_range, log_two_seven]
    decide

/-- C18 (amended): in the tree built from a list of `len ≥ 1` distinct ids, at
every node, built from `m` points, the right subtree holds at most
`ceil(m / 2) - 1` points and the left subtree at least `floor(m / 2)`, so the
right subtree is never larger than the left; when the points of the node have
pairwise different values at the node's split dimension the two sizes are
exactly `floor(m / 2)` and `ceil(m / 2) - 1`; and when that holds at every
node of the tree, the height of the tree is at most `floor(log2 len) + 1`. -/
theorem BuildTree_balanced (datas : Nat → ℚ) (n_features : Nat) (points : List Nat)
    (hne : points ≠ []) (hnd : points.Nodup) :
    ∃ t, BuildTree datas n_features points = some t ∧ size t = points.length ∧
      (∀ id s l r, node id s l r ∈ nodes t →
        size r ≤ (size (node id s l r) + 1) / 2 - 1 ∧
        size (node id s l r) / 2 ≤ size l ∧ size r ≤ size l ∧
        (((ids (node id s l r)).map fun i => GetDimVal datas n_features i s).Nodup →
          size l = size (node id s l r) / 2 ∧
          size r = (size (node id s l r) + 1) / 2 - 1)) ∧
      ((∀ id s l r, node id s l r ∈ nodes t →
          ((ids (node id s l r)).map fun i => GetDimVal datas n_features i s).Nodup) →
        height t ≤ Nat.log 2 points.length + 1) := by
  obtain ⟨t, ht, hperm, hbal⟩ := BuildTree_balance datas n_features points hne hnd
  have hsize : size t = points.length := by rw [size_eq_length_ids, hperm.length_eq]
  refine ⟨t, ht, hsize, ?_, ?_⟩
  · intro id s l r hm
    obtain ⟨h1, h2⟩ := hbal id s l r hm
    have hsz : size (node id s l r) = size l + size r + 1 := rfl
    refine ⟨by omega, h1, by omega, ?_⟩
    intro hv
    have := h2 hv
    exact ⟨this, by omega⟩
  · intro hall
    have := height_le_log_of_halved t (fun id s l r hm => (hbal id s l r hm).2 (hall id s l r hm))
    rw [hsize] at this
    exact this

/-- Seven points on a line with pairwise different values: the tree is 3 high
and balanced. -/
theorem BuildTree_balanced_witness :
    BuildTree (memory [4, 1, 6, 0, 3, 5, 2]) 1 (List.range 7)
      = some (node 4 0 (node 1 0 (node 3 0 null null) (node 6 0 null null))
          (node 5 0 (node 0 0 null null) (node 2 0 null null))) ∧
    List.range 7 ≠ [] ∧
    ∃ t, BuildTree (memory [4, 1, 6, 0, 3, 5, 2]) 1 (List.range 7) = some t ∧
      size t = (List.range 7).length ∧
      (∀ id s l r, node id s l r ∈ nodes t →
        size r ≤ (size (node id s l r) + 1) / 2 - 1 ∧
        size (node id s l r) / 2 ≤ size l ∧ size r ≤ size l ∧
        (((ids (node id s l r)).map fun i =>
            GetDimVal (memory [4, 1, 6, 0, 3, 5, 2]) 1 i s).Nodup →
          size l = size (node id s l r) / 2 ∧
          size r = (size (node id s l r) + 1) / 2 - 1)) ∧
      ((∀ id s l r, node id s l r ∈ nodes t →
          ((ids (node id s l r)).map fun i =>
            GetDimVal (memory [4, 1, 6, 0, 3, 5, 2]) 1 i s).Nodup) →
        height t ≤ Nat.log 2 (List.range 7).length + 1) :=
  ⟨by decide!, by decide,
    BuildTree_balanced (memory [4, 1, 6, 0, 3, 5, 2]) 1 (List.range 7) (by decide) (by decide)⟩

/-! ## The log of the calls of `HeapStackPush` -/

theorem backtrack_log_nil (coor : Nat → ℚ) (k fuel : Nat) (self : KDTree) :
    backtrack_log coor k fuel (self, []) = [] := by
  cases fuel <;> rfl

theorem backtrack_log_cons (coor : Nat → ℚ) (k fuel : Nat) (self : KDTree) (p : tree_node)
    (paths : List tree_node) :
    backtrack_log coor k (fuel + 1) (self, p :: paths)
      = backtrack_step_log coor k p (self, paths) ++
          backtrack_log coor k fuel (backtrack_step coor k p (self, paths)) := rfl

/-- The log of one iteration has the shape of the iteration: nothing for a
leaf, otherwise the calls of the two guarded pushes. -/
theorem backtrack_step_log_cases (coor : Nat → ℚ) (k : Nat) (p : tree_node)
    (st : KDTree × List tree_node) :
    (backtrack_step coor k p st = st ∧ backtrack_step_log coor k p st = []) ∨
    ∃ (c1 c2 : Bool) (a b : tree_node),
      backtrack_step coor k p st = push_if c2 (push_if c1 st a coor k) b coor k ∧
      backtrack_step_log coor k p st
        = push_if_log c1 st a ++ push_if_log c2 (push_if c1 st a coor k) b ∧
      ((a = p.left ∧ b = p.right) ∨ (a = p.right ∧ b = p.left)) ∧
      c1 = !a.isNull ∧ (c2 = true → b.isNull = false) := by
  unfold backtrack_step backtrack_step_log
  by_cases hleaf : (p.left.isNull && p.right.isNull) = true
  · left
    rw [if_pos hleaf, if_pos hleaf]
    exact ⟨rfl, rfl⟩
  · right
    rw [if_neg hleaf, if_neg hleaf]
    by_cases hlen : st.1.k_neighbor_heap_.length < k
    · rw [if_pos hlen, if_pos hlen]
      exact ⟨!p.left.isNull, !p.right.isNull, p.left, p.right, rfl, rfl, Or.inl ⟨rfl, rfl⟩, rfl,
        fun h => by simpa using h⟩
    · rw [if_neg hlen, if_neg hlen]
      simp only []
      by_cases hgt : coor p.split > GetDimVal st.1.datas st.1.n_features p.id p.split
      · rw [if_pos hgt, if_pos hgt]
        refine ⟨!p.right.isNull, _, p.right, p.left, rfl, rfl, Or.inr ⟨rfl, rfl⟩, rfl, ?_⟩
        intro h
        simp only [Bool.and_eq_true, Bool.not_eq_true', decide_eq_true_eq] at h
        exact h.2
      · rw [if_neg hgt, if_neg hgt]
        refine ⟨!p.left.isNull, _, p.left, p.right, rfl, rfl, Or.inl ⟨rfl, rfl⟩, rfl, ?_⟩
        intro h
        simp only [Bool.and_eq_true, Bool.not_eq_true', decide_eq_true_eq] at h
        exact h.2

theorem mem_push_if_log {c : Bool} {st : KDTree × List tree_node} {node : tree_node}
    {e : push_event} (h : e ∈ push_if_log c st node) : c = true ∧ e = (st, node) := by
  unfold push_if_log at h
  cases c with
  | true => exact ⟨rfl, by simpa using h⟩
  | false => simp at h

/-- Every call of the descent loop happens in a state that satisfies the
search invariant, on a node of the tree. -/
theorem descend_log_inv {self0 : KDTree} {coor : Nat → ℚ} {k : Nat} (hk1 : 1 ≤ k)
    (hlt : ∀ i ∈ ids self0.root, i < self0.n_samples) :
    ∀ (t : tree_node) (st : KDTree × List tree_node), SearchInv self0 coor k st →
      (t = null ∨ t ∈ nodes self0.root) →
      ∀ e ∈ descend_log coor k t st, SearchInv self0 coor k e.1 ∧ e.2 ∈ nodes self0.root
  | null, _, _, _ => fun e he => by simp [descend_log] at he
  | node id s l r, st, hinv, ht => by
    have hmem : node id s l r ∈ nodes self0.root := by
      rcases ht with h | h
      · cases h
      · exact h
    obtain ⟨inv1, _⟩ := SearchInv_HeapStackPush st.1 st.2 hk1 hlt hinv hmem
    have hchild : ∀ c : tree_node, (c = l ∨ c = r) → c = null ∨ c ∈ nodes self0.root := by
      intro c hc
      by_cases hn : c = null
      · exact Or.inl hn
      · right
        rcases hc with rfl | rfl
        · exact mem_nodes_left hmem hn
        · exact mem_nodes_right hmem hn
    intro e he
    unfold descend_log at he
    rcases List.mem_cons.mp he with rfl | he
    · exact ⟨hinv, hmem⟩
    · split_ifs at he
      · exact descend_log_inv hk1 hlt l _ inv1 (hchild l (Or.inl rfl)) e he
      · exact descend_log_inv hk1 hlt r _ inv1 (hchild r (Or.inr rfl)) e he

/-- Every call of one backtracking iteration happens in a state that satisfies
the search invariant, on a node of the tree. -/
theorem backtrack_step_log_inv {self0 self : KDTree} {coor : Nat → ℚ} {k : Nat} {p : tree_node}
    {paths : List tree_node} (hk1 : 1 ≤ k)
    (hlt : ∀ i ∈ ids self0.root, i < self0.n_samples)
    (hinv : SearchInv self0 coor k (self, p :: paths)) :
    ∀ e ∈ backtrack_step_log coor k p (self, paths),
      SearchInv self0 coor k e.1 ∧ e.2 ∈ nodes self0.root := by
  have hinv0 := SearchInv_pop hinv
  obtain ⟨hp, _⟩ := hinv.stack p (List.mem_cons_self _ _)
  rcases backtrack_step_log_cases coor k p (self, paths) with
    ⟨_, hl⟩ | ⟨c1, c2, a, b, _, hl, hab, hc1, hc2t⟩
  · intro e he
    rw [hl] at he
    cases he
  · have hmem_child : ∀ c : tree_node, (c = p.left ∨ c = p.right) → c.isNull = false →
        c ∈ nodes self0.root := by
      intro c hc hn
      cases p with
      | null => exact absurd rfl (mem_nodes_ne_null hp)
      | node id s l r =>
        rcases hc with rfl | rfl
        · exact mem_nodes_left hp (ne_null_of_isNull hn)
        · exact mem_nodes_right hp (ne_null_of_isNull hn)
    have ha : a = p.left ∨ a = p.right := by
      rcases hab with ⟨h, _⟩ | ⟨h, _⟩
      · exact Or.inl h
      · exact Or.inr h
    have hb : b = p.left ∨ b = p.right := by
      rcases hab with ⟨_, h⟩ | ⟨_, h⟩
      · exact Or.inr h
      · exact Or.inl h
    have ha' : c1 = true → a ∈ nodes self0.root :=
      fun h => hmem_child a ha (by rw [hc1] at h; simpa using h)
    obtain ⟨inv1, _, _⟩ := SearchInv_push_if c1 a hk1 hlt hinv0 ha'
    intro e he
    rw [hl] at he
    rcases List.mem_append.mp he with he | he
    · obtain ⟨hc, rfl⟩ := mem_push_if_log he
      exact ⟨hinv0, ha' hc⟩
    · obtain ⟨hc, rfl⟩ := mem_push_if_log he
      exact ⟨inv1, hmem_child b hb (hc2t hc)⟩

/-- Every call of the backtracking loop happens in a state that satisfies the
search invariant, on a node of the tree. -/
theorem backtrack_log_inv {self0 : KDTree} {coor : Nat → ℚ} {k : Nat} (hk1 : 1 ≤ k)
    (hlt : ∀ i ∈ ids self0.root, i < self0.n_samples) :
    ∀ (fuel : Nat) (st : KDTree × List tree_node), SearchInv self0 coor k st →
      ∀ e ∈ backtrack_log coor k fuel st,
        SearchInv self0 coor k e.1 ∧ e.2 ∈ nodes self0.root := by
  intro fuel
  induction fuel with
  | zero =>
    rintro ⟨self, paths⟩ _ e he
    cases paths with
    | nil => rw [backtrack_log_nil] at he; cases he
    | cons p rest => simp [backtrack_log] at he
  | succ fuel ih =>
    rintro ⟨self, paths⟩ hinv e he
    cases paths with
    | nil => rw [backtrack_log_nil] at he; cases he
    | cons p rest =>
      rw [backtrack_log_cons] at he
      rcases List.mem_append.mp he with he | he
      · exact backtrack_step_log_inv hk1 hlt hinv e he
      · exact ih _ (backtrack_step_spec hk1 hlt hinv).1 e he

/-- Every call of `HeapStackPush` of one search happens in a state that
satisfies the search invariant, on a node of the tree; so does the state after
the call. -/
theorem FindKNearests_log_inv (self : KDTree) (coor : Nat → ℚ) (k : Nat) (hk1 : 1 ≤ k)
    (hheap : self.k_neighbor_heap_ = [])
    (hlt : ∀ i ∈ ids self.root, i < self.n_samples) :
    ∀ e ∈ FindKNearests_log self coor k,
      SearchInv (clear_visited self) coor k e.1 ∧ e.2 ∈ nodes self.root ∧
      SearchInv (clear_visited self) coor k (e.after coor k) := by
  have hinit := SearchInv_init self coor k hheap hlt
  have hlt0 : ∀ i ∈ ids (clear_visited self).root, i < (clear_visited self).n_samples := hlt
  have hroot : (clear_visited self).root = null ∨
      (clear_visited self).root ∈ nodes (clear_visited self).root := by
    by_cases hn : (clear_visited self).root = null
    · exact Or.inl hn
    · exact Or.inr (mem_nodes_self hn)
  have inv1 := (descend_spec hk1 hlt0 (clear_visited self).root (clear_visited self, [])
    hinit hroot).1
  have key : ∀ e ∈ FindKNearests_log self coor k,
      SearchInv (clear_visited self) coor k e.1 ∧ e.2 ∈ nodes (clear_visited self).root := by
    intro e he
    unfold FindKNearests_log at he
    rcases List.mem_append.mp he with he | he
    · exact descend_log_inv hk1 hlt0 _ _ hinit hroot e he
    · exact backtrack_log_inv hk1 hlt0 _ _ inv1 e he
  intro e he
  obtain ⟨h1, h2⟩ := key e he
  exact ⟨h1, h2, (SearchInv_HeapStackPush e.1.1 e.1.2 hk1 hlt0 h1 h2).1⟩

/-! ## No point is scored twice -/

theorem HeapStackPush_visited (self : KDTree) (paths : List tree_node) (node : tree_node)
    (coor : Nat → ℚ) (k : Nat) :
    (HeapStackPush self paths node coor k).1.visited_buf_ node.id = true ∧
    ∀ i, self.visited_buf_ i = true →
      (HeapStackPush self paths node coor k).1.visited_buf_ i = true := by
  rw [HeapStackPush_eq]
  by_cases hv : self.visited_buf_ node.id = true
  · rw [if_pos hv]
    exact ⟨hv, fun _ h => h⟩
  · rw [if_neg hv]
    refine ⟨by simp, ?_⟩
    intro j hj
    show Function.update self.visited_buf_ node.id true j = true
    by_cases hji : j = node.id
    · rw [hji]; simp
    · rw [Function.update_noteq hji]; exact hj

theorem ScoredOnce_nil (a : KDTree) : ScoredOnce a [] a := by
  refine ⟨List.nodup_nil, ?_, fun _ h => h⟩
  intro i hi
  cases hi

theorem evaluated_append (l1 l2 : List push_event) :
    evaluated (l1 ++ l2) = evaluated l1 ++ evaluated l2 := by
  unfold evaluated
  exact List.filterMap_append _ _ _

theorem ScoredOnce_append {a b c : KDTree} {l1 l2 : List push_event}
    (h1 : ScoredOnce a l1 b) (h2 : ScoredOnce b l2 c) : ScoredOnce a (l1 ++ l2) c := by
  obtain ⟨n1, e1, m1⟩ := h1
  obtain ⟨n2, e2, m2⟩ := h2
  refine ⟨?_, ?_, fun i h => m2 i (m1 i h)⟩
  · rw [evaluated_append]
    refine List.Nodup.append n1 n2 ?_
    intro i hi1 hi2
    have := (e1 i hi1).2
    rw [(e2 i hi2).1] at this
    cases this
  · intro i hi
    rw [evaluated_append] at hi
    rcases List.mem_append.mp hi with hi | hi
    · exact ⟨(e1 i hi).1, m2 i (e1 i hi).2⟩
    · refine ⟨?_, (e2 i hi).2⟩
      cases hv : a.visited_buf_ i with
      | false => rfl
      | true =>
        have := m1 i hv
        rw [(e2 i hi).1] at this
        cases this

theorem ScoredOnce_push (st : KDTree × List tree_node) (node : tree_node) (coor : Nat → ℚ)
    (k : Nat) : ScoredOnce st.1 [(st, node)] (HeapStackPush st.1 st.2 node coor k).1 := by
  obtain ⟨hv, hm⟩ := HeapStackPush_visited st.1 st.2 node coor k
  cases hvis : st.1.visited_buf_ node.id with
  | true =>
    have he : evaluated [(st, node)] = [] := by
      simp [evaluated, hvis]
    refine ⟨by rw [he]; exact List.nodup_nil, ?_, hm⟩
    intro i hi
    rw [he] at hi
    cases hi
  | false =>
    have he : evaluated [(st, node)] = [node.id] := by
      simp [evaluated, hvis]
    refine ⟨by rw [he]; exact List.nodup_singleton _, ?_, hm⟩
    intro i hi
    rw [he] at hi
    rw [List.mem_singleton.mp hi]
    exact ⟨hvis, hv⟩

theorem ScoredOnce_push_if (c : Bool) (st : KDTree × List tree_node) (node : tree_node)
    (coor : Nat → ℚ) (k : Nat) :
    ScoredOnce st.1 (push_if_log c st node) (push_if c st node coor k).1 := by
  cases c with
  | true => exact ScoredOnce_push st node coor k
  | false => exact ScoredOnce_nil st.1

theorem ScoredOnce_descend (coor : Nat → ℚ) (k : Nat) :
    ∀ (t : tree_node) (st : KDTree × List tree_node),
      ScoredOnce st.1 (descend_log coor k t st) (descend coor k t st).1
  | null, st => ScoredOnce_nil st.1
  | node id s l r, st => by
    have h1 := ScoredOnce_push st (node id s l r) coor k
    unfold descend_log descend
    simp only []
    split_ifs
    · exact ScoredOnce_append h1 (ScoredOnce_descend coor k l _)
    · exact ScoredOnce_append h1 (ScoredOnce_descend coor k r _)

theorem ScoredOnce_step (coor : Nat → ℚ) (k : Nat) (p : tree_node)
    (st : KDTree × List tree_node) :
    ScoredOnce st.1 (backtrack_step_log coor k p st) (backtrack_step coor k p st).1 := by
  rcases backtrack_step_log_cases coor k p st with ⟨h1, h2⟩ | ⟨c1, c2, a, b, h1, h2, _⟩
  · rw [h1, h2]; exact ScoredOnce_nil _
  · rw [h1, h2]
    exact ScoredOnce_append (ScoredOnce_push_if c1 st a coor k)
      (ScoredOnce_push_if c2 _ b coor k)

theorem ScoredOnce_backtrack (coor : Nat → ℚ) (k : Nat) :
    ∀ (fuel : Nat) (st : KDTree × List tree_node) (final : KDTree),
      backtrack coor k fuel st = some final →
      ScoredOnce st.1 (backtrack_log coor k fuel st) final := by
  intro fuel
  induction fuel with
  | zero =>
    rintro ⟨self, paths⟩ final he
    cases paths with
    | nil =>
      rw [backtrack_nil] at he
      rw [backtrack_log_nil, ← Option.some.inj he]
      exact ScoredOnce_nil _
    | cons p rest => simp [backtrack] at he
  | succ fuel ih =>
    rintro ⟨self, paths⟩ final he
    cases paths with
    | nil =>
      rw [backtrack_nil] at he
      rw [backtrack_log_nil, ← Option.some.inj he]
      exact ScoredOnce_nil _
    | cons p rest =>
      rw [backtrack_cons] at he
      rw [backtrack_log_cons]
      exact ScoredOnce_append (ScoredOnce_step coor k p (self, rest)) (ih _ final he)

/-- The calls of one search score no point twice. -/
theorem ScoredOnce_FindKNearests (self : KDTree) (coor : Nat → ℚ) (k : Nat) :
    ∃ res final, FindKNearests self coor k = some (res, final) ∧
      ScoredOnce (clear_visited self) (FindKNearests_log self coor k) final := by
  obtain ⟨final, he⟩ := backtrack_total coor k
    (paths_weight (descend coor k self.root (clear_visited self, [])).2)
    (descend coor k self.root (clear_visited self, []))
    (descend_nonnull coor k self.root (clear_visited self, []) (fun x hx => by cases hx))
    (le_refl _)
  refine ⟨_, _, by rw [FindKNearests_eq, he], ?_⟩
  have h1 := ScoredOnce_descend coor k self.root (clear_visited self, [])
  have h2 := ScoredOnce_backtrack coor k _ _ final he
  obtain ⟨n, e, m⟩ := ScoredOnce_append h1 h2
  exact ⟨n, e, m⟩

/-! ## C13: the heap after every call of `HeapStackPush` -/

theorem heap_top_worst {h : List neighbor} (hs : h.Sorted heap_order) :
    (h ≠ [] → heap_top h ∈ h) ∧ ∀ e ∈ h, e.2 ≤ (heap_top h).2 := by
  cases h with
  | nil =>
    refine ⟨fun hc => absurd rfl hc, ?_⟩
    intro e he
    cases he
  | cons top rest =>
    refine ⟨fun _ => List.mem_cons_self _ _, ?_⟩
    intro e he
    simp only [heap_top, List.headD_cons]
    rcases List.mem_cons.mp he with rfl | he
    · exact le_refl _
    · exact List.rel_of_sorted_cons hs e he

/-- A heap that satisfies the invariant for the ids `0 .. n - 1` holds
`min(k, v)` entries, `v` the number of ids marked visited. -/
theorem heap_length_eq_min {d : Nat → ℚ} {k n : Nat} {ok : Nat → Prop} {h : List neighbor}
    {v : Nat → Bool} (hok : ∀ i, ok i ↔ i < n) (hinv : HeapInv d k ok h v) :
    h.length = min k ((List.range n).filter fun i => v i).length := by
  have hsub : h.map Prod.fst ⊆ (List.range n).filter fun i => v i := by
    intro i hi
    obtain ⟨e, he, rfl⟩ := List.mem_map.mp hi
    obtain ⟨h1, _, h3⟩ := hinv.entry e he
    exact List.mem_filter.mpr ⟨List.mem_range.mpr ((hok _).mp h3), h1⟩
  have hle : h.length ≤ ((List.range n).filter fun i => v i).length := by
    have := (List.subperm_of_subset hinv.nodup hsub).length_le
    rwa [List.length_map] at this
  have hlen := hinv.len
  by_cases hk : h.length = k
  · rw [Nat.min_def]
    split_ifs <;> omega
  · have hsub2 : ((List.range n).filter fun i => v i) ⊆ h.map Prod.fst := by
      intro i hi
      obtain ⟨h1, h2⟩ := List.mem_filter.mp hi
      rcases hinv.settled i ((hok i).mpr (List.mem_range.mp h1)) h2 with h3 | h3
      · exact h3
      · exact absurd h3.1 hk
    have hle2 := (List.subperm_of_subset ((List.nodup_range n).filter _) hsub2).length_le
    rw [List.length_map] at hle2
    rw [Nat.min_def]
    split_ifs <;> omega

theorem FindKNearests_log_ne_nil (self : KDTree) (coor : Nat → ℚ) (k : Nat)
    (hroot : self.root ≠ null) : FindKNearests_log self coor k ≠ [] := by
  intro h
  unfold FindKNearests_log at h
  cases hr : self.root with
  | null => exact hroot hr
  | node id s l r =>
    rw [hr] at h
    simp [descend_log] at h

/-- C13: on a tree made by the building constructor, with `k ≥ 1`, the search
calls `HeapStackPush` at least once, and after every call of `HeapStackPush`
of the search: the candidate heap holds exactly `min(k, v)` entries, `v` the
number of point ids marked visited in `visited_buf_`; it holds at most `k`
entries; every entry is a visited point with the distance `GetDist` gives it,
and is not farther than the heap's root; the root is an entry of the heap; and
every visited point that is not in the heap meets a full heap whose root is
not farther than the point (distances as `GetDist` returns them). -/
theorem HeapStackPush_keeps_k_best {datas : Nat → ℚ} {n_samples n_features : Nat}
    {p : Exponent} {self : KDTree}
    (hb : KDTree.build datas n_samples n_features p = some self) (hn : 1 ≤ n_samples)
    (coor : Nat → ℚ) (k : Nat) (hk1 : 1 ≤ k) :
    FindKNearests_log self coor k ≠ [] ∧
    ∀ e ∈ FindKNearests_log self coor k,
      (e.after coor k).1.k_neighbor_heap_.length
        = min k ((List.range n_samples).filter
            fun i => (e.after coor k).1.visited_buf_ i).length ∧
      (e.after coor k).1.k_neighbor_heap_.length ≤ k ∧
      (∀ x ∈ (e.after coor k).1.k_neighbor_heap_,
        x.1 < n_samples ∧ (e.after coor k).1.visited_buf_ x.1 = true ∧
        x.2 = GetDist self x.1 coor ∧
        x.2 ≤ (heap_top (e.after coor k).1.k_neighbor_heap_).2) ∧
      heap_top (e.after coor k).1.k_neighbor_heap_ ∈ (e.after coor k).1.k_neighbor_heap_ ∧
      (∀ i < n_samples, (e.after coor k).1.visited_buf_ i = true →
        i ∉ (e.after coor k).1.k_neighbor_heap_.map Prod.fst →
        (e.after coor k).1.k_neighbor_heap_.length = k ∧
        (heap_top (e.after coor k).1.k_neighbor_heap_).2 ≤ GetDist self i coor) := by
  obtain ⟨root, hb', _, hperm, _, _⟩ := KDTree_build_spec datas n_samples n_features p hn
  have hself : self = KDTree.wrap root datas n_samples n_features p :=
    Option.some.inj (hb.symm.trans hb')
  subst hself
  have hok : ∀ i, i ∈ ids root ↔ i < n_samples := fun i =>
    (hperm.mem_iff).trans List.mem_range
  have hlt : ∀ i ∈ ids (KDTree.wrap root datas n_samples n_features p).root,
      i < (KDTree.wrap root datas n_samples n_features p).n_samples := fun i hi => (hok i).mp hi
  have hrn : root ≠ null := by
    intro hc
    have h0 : 0 ∈ ids root := (hok 0).mpr (by omega)
    rw [hc] at h0
    simp [ids] at h0
  refine ⟨FindKNearests_log_ne_nil _ coor k hrn, ?_⟩
  intro e he
  obtain ⟨_, hmem, hafter⟩ := FindKNearests_log_inv (KDTree.wrap root datas n_samples n_features p)
    coor k hk1 rfl hlt e he
  have H : HeapInv (fun i => GetDist (KDTree.wrap root datas n_samples n_features p) i coor) k
      (fun i => i ∈ ids root) (e.after coor k).1.k_neighbor_heap_
      (e.after coor k).1.visited_buf_ := hafter.heap
  obtain ⟨htopmem, htop⟩ := heap_top_worst H.sorted
  have hvis : (e.after coor k).1.visited_buf_ e.2.id = true :=
    (HeapStackPush_visited e.1.1 e.1.2 e.2 coor k).1
  have hne : (e.after coor k).1.k_neighbor_heap_ ≠ [] := by
    intro hc
    rcases H.settled e.2.id (id_mem_ids_of_mem_nodes hmem) hvis with h1 | h1
    · rw [hc] at h1
      simp at h1
    · rw [hc] at h1
      have := h1.1
      simp only [List.length_nil] at this
      omega
  refine ⟨heap_length_eq_min hok H, H.len, ?_, htopmem hne, ?_⟩
  · intro x hx
    obtain ⟨h1, h2, h3⟩ := H.entry x hx
    exact ⟨(hok _).mp h3, h1, h2, htop x hx⟩
  · intro i hi hv hnot
    rcases H.settled i ((hok i).mpr hi) hv with h1 | h1
    · exact absurd h1 hnot
    · exact ⟨h1.1, h1.2 _ (htopmem hne)⟩

/-- Points (0,0), (1,1), (5,5), exponent 2, query (0.9, 0.9), `k = 2`: the
search calls `HeapStackPush` four times; after the calls the heap holds 1, 2, 2
and 2 entries while 1, 2, 2 and 3 ids are marked visited. -/
theorem HeapStackPush_keeps_k_best_witness :
    (FindKNearests_log (KDTree.wrap (node 1 0 (node 0 0 null null) (node 2 0 null null))
        (memory [0, 0, 1, 1, 5, 5]) 3 2 p_two) (query [9 / 10, 9 / 10]) 2).map
      (fun e => ((e.after (query [9 / 10, 9 / 10]) 2).1.k_neighbor_heap_,
        ((List.range 3).filter
          fun i => (e.after (query [9 / 10, 9 / 10]) 2).1.visited_buf_ i).length))
      = [([(1, 707 / 5000)], 1), ([(0, 12727 / 10000), (1, 707 / 5000)], 2),
          ([(0, 12727 / 10000), (1, 707 / 5000)], 2),
          ([(0, 12727 / 10000), (1, 707 / 5000)], 3)] ∧
    1 ≤ 3 ∧ 1 ≤ 2 ∧
    ∀ e ∈ FindKNearests_log (KDTree.wrap (node 1 0 (node 0 0 null null) (node 2 0 null null))
        (memory [0, 0, 1, 1, 5, 5]) 3 2 p_two) (query [9 / 10, 9 / 10]) 2,
      (e.after (query [9 / 10, 9 / 10]) 2).1.k_neighbor_heap_.length
        = min 2 ((List.range 3).filter
            fun i => (e.after (query [9 / 10, 9 / 10]) 2).1.visited_buf_ i).length ∧
      (e.after (query [9 / 10, 9 / 10]) 2).1.k_neighbor_heap_.length ≤ 2 ∧
      (∀ x ∈ (e.after (query [9 / 10, 9 / 10]) 2).1.k_neighbor_heap_,
        x.1 < 3 ∧ (e.after (query [9 / 10, 9 / 10]) 2).1.visited_buf_ x.1 = true ∧
        x.2 = GetDist (KDTree.wrap (node 1 0 (node 0 0 null null) (node 2 0 null null))
          (memory [0, 0, 1, 1, 5, 5]) 3 2 p_two) x.1 (query [9 / 10, 9 / 10]) ∧
        x.2 ≤ (heap_top (e.after (query [9 / 10, 9 / 10]) 2).1.k_neighbor_heap_).2) ∧
      heap_top (e.after (query [9 / 10, 9 / 10]) 2).1.k_neighbor_heap_
        ∈ (e.after (query [9 / 10, 9 / 10]) 2).1.k_neighbor_heap_ ∧
      (∀ i < 3, (e.after (query [9 / 10, 9 / 10]) 2).1.visited_buf_ i = true →
        i ∉ (e.after (query [9 / 10, 9 / 10]) 2).1.k_neighbor_heap_.map Prod.fst →
        (e.after (query [9 / 10, 9 / 10]) 2).1.k_neighbor_heap_.length = 2 ∧
        (heap_top (e.after (query [9 / 10, 9 / 10]) 2).1.k_neighbor_heap_).2
          ≤ GetDist (KDTree.wrap (node 1 0 (node 0 0 null null) (node 2 0 null null))
            (memory [0, 0, 1, 1, 5, 5]) 3 2 p_two) i (query [9 / 10, 9 / 10])) :=
  ⟨by decide!, by decide, by decide,
    (HeapStackPush_keeps_k_best (KDTree_build_eq_wrap p_two (by decide!)) (by decide)
      (query [9 / 10, 9 / 10]) 2 (by decide)).2⟩

/-! ## C16: every distance is evaluated at most once -/

/-- C16: during one call of `FindKNearests`, for every object, query and `k`,
the ids of the points whose distance the calls of `HeapStackPush` evaluate are
pairwise different, so the distance of each point is evaluated at most once
(`HeapStackPush` pushes its node onto the path stack first and evaluates
`GetDist` only when the point is not marked visited); and when `k ≥ 1`, the
heap is empty at the start and the ids of the tree are below `n_samples`, the
call returns a result whose ids are pairwise different. -/
theorem FindKNearests_scores_each_point_once (self : KDTree) (coor : Nat → ℚ) (k : Nat) :
    (evaluated (FindKNearests_log self coor k)).Nodup ∧
    (∀ i, (evaluated (FindKNearests_log self coor k)).count i ≤ 1) ∧
    (1 ≤ k → self.k_neighbor_heap_ = [] → (∀ i ∈ ids self.root, i < self.n_samples) →
      ∃ res final, FindKNearests self coor k = some (res, final) ∧
        (res.map Prod.fst).Nodup) := by
  obtain ⟨_, _, _, hnd, _, _⟩ := ScoredOnce_FindKNearests self coor k
  refine ⟨hnd, fun i => List.nodup_iff_count_le_one.mp hnd i, ?_⟩
  intro hk1 hheap hlt
  obtain ⟨res, final, he, _, _, _, hinv, _⟩ := FindKNearests_spec self coor k hk1 hheap hlt
  exact ⟨res, final, he, hinv.nodup⟩

/-- Points (0,0), (1,1), (5,5), exponent 2, query (0.9, 0.9), `k = 1`: the node
of point 0 is pushed onto the path stack twice, the distances of points 1, 0
and 2 are evaluated once each, and the result holds point 1 alone. -/
theorem FindKNearests_scores_each_point_once_witness :
    (FindKNearests_log (KDTree.wrap (node 1 0 (node 0 0 null null) (node 2 0 null null))
        (memory [0, 0, 1, 1, 5, 5]) 3 2 p_two) (query [9 / 10, 9 / 10]) 1).map
      (fun e => e.2.id) = [1, 0, 0, 2] ∧
    evaluated (FindKNearests_log (KDTree.wrap (node 1 0 (node 0 0 null null)
        (node 2 0 null null)) (memory [0, 0, 1, 1, 5, 5]) 3 2 p_two)
        (query [9 / 10, 9 / 10]) 1) = [1, 0, 2] ∧
    (FindKNearests (KDTree.wrap (node 1 0 (node 0 0 null null) (node 2 0 null null))
        (memory [0, 0, 1, 1, 5, 5]) 3 2 p_two) (query [9 / 10, 9 / 10]) 1).map Prod.fst
      = some [(1, 707 / 5000)] ∧
    (evaluated (FindKNearests_log (KDTree.wrap (node 1 0 (node 0 0 null null)
        (node 2 0 null null)) (memory [0, 0, 1, 1, 5, 5]) 3 2 p_two)
        (query [9 / 10, 9 / 10]) 1)).Nodup ∧
    ∃ res final, FindKNearests (KDTree.wrap (node 1 0 (node 0 0 null null)
        (node 2 0 null null)) (memory [0, 0, 1, 1, 5, 5]) 3 2 p_two)
        (query [9 / 10, 9 / 10]) 1 = some (res, final) ∧
      (res.map Prod.fst).Nodup :=
  ⟨by decide!, by decide!, by decide!,
    (FindKNearests_scores_each_point_once (KDTree.wrap (node 1 0 (node 0 0 null null)
      (node 2 0 null null)) (memory [0, 0, 1, 1, 5, 5]) 3 2 p_two)
      (query [9 / 10, 9 / 10]) 1).1,
    (FindKNearests_scores_each_point_once (KDTree.wrap (node 1 0 (node 0 0 null null)
      (node 2 0 null null)) (memory [0, 0, 1, 1, 5, 5]) 3 2 p_two)
      (query [9 / 10, 9 / 10]) 1).2.2 (by decide) rfl (by decide)⟩

/-! ## C15: pruning -/

/-- The geometry behind pruning: at every node `N` of a tree built by
`BuildTree` (with at least one feature), every point of the subtree on the far
side of `N` from the query (the right subtree when `coor[N.split]` is at most
the pivot's value, the left subtree otherwise) has a Minkowski distance of
order `p` to the query that is at least `d = |coor[N.split] - pivot[N.split]|`;
stated for the `p`-th powers, for every natural `p`. -/
theorem far_side_minkowski_ge (datas : Nat → ℚ) (n_features : Nat) (hnf : 1 ≤ n_features)
    (points : List Nat) (hne : points ≠ []) (coor : Nat → ℚ) (p : Nat) :
    ∃ root, BuildTree datas n_features points = some root ∧
      ∀ id s l r, node id s l r ∈ nodes root →
        (coor s ≤ GetDimVal datas n_features id s → ∀ i ∈ ids r,
          |coor s - GetDimVal datas n_features id s| ^ p
            ≤ minkowski_pow datas n_features p i coor) ∧
        (GetDimVal datas n_features id s < coor s → ∀ i ∈ ids l,
          |coor s - GetDimVal datas n_features id s| ^ p
            ≤ minkowski_pow datas n_features p i coor) := by
  obtain ⟨root, hb, _, hkd⟩ := BuildTree_sub_inv datas n_features points hne
  obtain ⟨root', hb', hsplit⟩ := BuildTree_split_lt datas n_features hnf points hne
  have e1 : root' = root := Option.some.inj (hb'.symm.trans hb)
  subst e1
  refine ⟨root', hb, ?_⟩
  intro id s l r hN
  obtain ⟨hl, hr⟩ := KdInv_nodes hkd id s l r hN
  have hs : s < n_features := hsplit _ hN
  have hterm : ∀ i, |GetDimVal datas n_features i s - coor s| ^ p
      ≤ minkowski_pow datas n_features p i coor := fun i =>
    (le_foldl_add_of_nonneg (fun t => |GetDimVal datas n_features i t - coor t| ^ p)
      (fun _ => pow_nonneg (abs_nonneg _) _) n_features).2 s hs
  constructor
  · intro hq i hi
    refine le_trans (pow_le_pow_left₀ (abs_nonneg _) ?_ p) (hterm i)
    have h1 := hr i hi
    rw [abs_of_nonpos (by linarith), abs_of_nonneg (by linarith)]
    linarith
  · intro hq i hi
    refine le_trans (pow_le_pow_left₀ (abs_nonneg _) ?_ p) (hterm i)
    have h1 := hl i hi
    rw [abs_of_nonneg (by linarith), abs_of_nonpos (by linarith)]
    linarith

/-- C15 (failing input): stored points (-100, 150), (-1000, 0), (100, 0),
(101, -60), `p = 1`, query (0, 0), `k = 1`.  `BuildTree` makes point 2 the root
with split dimension 0, points 0 and 1 its left subtree and point 3 its right
child.  The search calls `HeapStackPush` on the nodes of points 2, 0 and 0 and
returns point 0 with "distance" 50; point 3 is never visited: back at the root
the query is on the left side (0 ≤ 100) and `d = |0 - 100| = 100` is not below
50, the distance of the heap's root, so the right child is skipped.  Yet point
3 is strictly closer to the query than the candidate in the heap, whichever way
one measures: `GetDist` gives it 41 < 50, and its Minkowski distance is
161 < 250. -/
theorem FindKNearests_p_one_prunes_closer_point :
    ∃ self, KDTree.build prune_data 4 2 p_one = some self ∧
      self.root = node 2 0 (node 0 0 (node 1 0 null null) null) (node 3 0 null null) ∧
      (FindKNearests_log self (query [0, 0]) 1).map (fun e => e.2.id) = [2, 0, 0] ∧
      (FindKNearests self (query [0, 0]) 1).map (fun r => (r.1, r.2.visited_buf_ 3))
        = some ([(0, 50)], false) ∧
      query [0, 0] 0 ≤ GetDimVal prune_data 2 2 0 ∧
      |query [0, 0] 0 - GetDimVal prune_data 2 2 0| = 100 ∧
      GetDist self 3 (query [0, 0]) = 41 ∧
      minkowski_pow prune_data 2 1 3 (query [0, 0]) = 161 ∧
      minkowski_pow prune_data 2 1 0 (query [0, 0]) = 250 :=
  ⟨KDTree.wrap (node 2 0 (node 0 0 (node 1 0 null null) null) (node 3 0 null null))
      prune_data 4 2 p_one,
    KDTree_build_eq_wrap p_one (by decide!), rfl, by decide!, by decide!, by decide!,
    by decide!, by decide!, by decide!, by decide!⟩

end KDTreeSpec
